import Mathlib

/-!
# antsy_kinematics

A shallow embedding of `antsy_kinematics::Kinematics`
(`include/antsy_kinematics/kinematics.hpp`, `src/kinematics.cpp`) and proofs about
its joint-angle folding/clamping and its model-update state machine.

Numbers are elements of an arbitrary floor ring that is a linearly ordered field
(`ℝ` for the statements about exact angles, `ℚ` for evaluation); the `math.h`
constant `M_PI` is a parameter of every definition that reads it. The folding and
clamping is read twice: in exact arithmetic, and in the IEEE 754 arithmetic of the
source, with `double` updates of the angle and `float` distances, the finite values as
rationals.
-/

namespace antsy_kinematics

variable {α : Type} [LinearOrderedField α]

/-! ## Data model -/

/-- The two fields of `urdf::JointLimits` that the repository reads. -/
structure JointLimits (α : Type) where
  lower : α
  upper : α

/-- A `KDL::JntArray`: a vector of joint angles, `q.rows()` is its length and
`q(i)` its `i`-th entry. -/
abbrev JntArray (α : Type) := List α

/-- The `fmod` of `math.h` on exact numbers: `x - n * y` where `n` is the quotient
`x / y` truncated toward zero, so that the result carries the sign of `x`. -/
def fmod [FloorRing α] (x y : α) : α :=
  x - y * (((if 0 ≤ x / y then Int.floor (x / y) else Int.ceil (x / y)) : ℤ) : α)

/-- The loop `while (q(i) > jl.upper) q(i) -= 2*M_PI;` run for at most `fuel`
evaluations of its condition; `none` when the fuel runs out first. -/
def subtractWhileAbove (M_PI upper : α) : Nat → α → Option α
  | 0, _ => none
  | fuel + 1, q =>
    if q > upper then subtractWhileAbove M_PI upper fuel (q - 2 * M_PI) else some q

/-- The loop `while (q(i) < jl.lower) q(i) += 2*M_PI;` run for at most `fuel`
evaluations of its condition; `none` when the fuel runs out first. -/
def addWhileBelow (M_PI lower : α) : Nat → α → Option α
  | 0, _ => none
  | fuel + 1, q =>
    if q < lower then addWhileBelow M_PI lower fuel (q + 2 * M_PI) else some q

/-- The body of the `for` loop of `foldAndClampJointAnglesToLimits` for one joint:
from the entry `q(i)` and the current `clamping_applied` flag to their new values.
The narrowing of the two distances to `float` is not modelled: numbers are exact. -/
def foldAndClampJoint [FloorRing α] (M_PI : α) (fuel : Nat) (jl : JointLimits α) (qi : α)
    (clamping_applied : Bool) : Option (α × Bool) :=
  match subtractWhileAbove M_PI jl.upper fuel qi with
  | none => none
  | some q1 =>
    match addWhileBelow M_PI jl.lower fuel q1 with
    | none => none
    | some q2 =>
      if q2 > jl.upper then
        let upper_distance := fmod (q2 - jl.upper) (2 * M_PI)
        let lower_distance := fmod (jl.lower - q2) (2 * M_PI)
        some (if upper_distance > lower_distance then jl.lower else jl.upper, true)
      else some (q2, clamping_applied)

/-- A `KDL::Joint::JointType`. -/
inductive JointType where
  | RotAxis | RotX | RotY | RotZ | TransAxis | TransX | TransY | TransZ | Fixed
deriving DecidableEq, Repr

/-- A `KDL::Joint`, as far as the repository reads it: `getName()` and `getType()`. -/
structure Joint where
  getName : String
  getType : JointType
deriving DecidableEq, Repr

/-- A `KDL::Segment`, as far as the repository reads it: `getJoint()`. -/
structure Segment where
  getJoint : Joint
deriving DecidableEq, Repr

/-- A `KDL::Chain`: its segments in order; the default-constructed chain is empty. -/
structure Chain where
  segments : List Segment
deriving DecidableEq, Repr

/-- The call `chain.getNrOfSegments()`. -/
def Chain.getNrOfSegments (c : Chain) : Nat := c.segments.length

/-- The call `chain.getSegment(j)`; `none` stands for an access past the end. -/
def Chain.getSegment (c : Chain) (j : Nat) : Option Segment := c.segments[j]?

/-- A `KDL::ChainIkSolverPos_LMA`, identified by the arguments of its constructor. -/
structure ChainIkSolverPos_LMA (α : Type) where
  chain : Chain
  eps : α
  maxiter : Nat
  eps_joints : α

/-- The data members of `Kinematics` (the subscription handle apart). -/
structure Kinematics (Tree α : Type) where
  tree_ : Tree
  feet_links_ : List String
  base_link_ : String
  chains_ : List Chain
  solvers_ : List (ChainIkSolverPos_LMA α)
  joint_limits_ : List (List (JointLimits α))
  solvers_set_ : Bool

variable {Tree : Type}

/-- The `for (size_t i = 0; i < q.rows(); i++)` loop of
`foldAndClampJointAnglesToLimits`: `n` iterations remain, `i` is the loop counter.
`none` stands for a `while` loop out of fuel or an access past the end of
`joint_limits_` or `joint_limits_[leg_index]`. -/
def Kinematics.foldAndClampLoop [FloorRing α] (self : Kinematics Tree α) (M_PI : α) (fuel : Nat)
    (leg_index : Nat) : Nat → Nat → JntArray α → Bool → Option (Bool × JntArray α)
  | 0, _, q, clamping_applied => some (clamping_applied, q)
  | n + 1, i, q, clamping_applied =>
    match self.joint_limits_[leg_index]? with
    | none => none
    | some limits =>
      match limits[i]?, q[i]? with
      | some jl, some qi =>
        match foldAndClampJoint M_PI fuel jl qi clamping_applied with
        | none => none
        | some (qi', clamping_applied') =>
          Kinematics.foldAndClampLoop self M_PI fuel leg_index n (i + 1) (q.set i qi')
            clamping_applied'
      | _, _ => none

/-- `Kinematics::foldAndClampJointAnglesToLimits`: the returned flag and the array `q`
as the call leaves it. -/
def Kinematics.foldAndClampJointAnglesToLimits [FloorRing α] (self : Kinematics Tree α) (M_PI : α)
    (fuel : Nat) (leg_index : Nat) (q : JntArray α) : Option (Bool × JntArray α) :=
  self.foldAndClampLoop M_PI fuel leg_index q.length 0 q false

/-! ## The model update and the solve request -/

/-- A `urdf::Joint`, as far as the repository reads it: the `limits` pointer, `none`
when it is null. -/
structure UrdfJoint (α : Type) where
  limits : Option (JointLimits α)

/-- The ways a call can end without returning: a failed `assert`, a dereferenced null
pointer, an access past the end of a vector. -/
inductive Fault where
  | assertionFailed | nullDereference | outOfRange
deriving DecidableEq, Repr

/-- The library calls made by `robotDescriptionCallback` and `cartToJnt`, and the
build flag `NDEBUG` that decides whether `assert` is compiled out.

* `emptyTree` is the default-constructed `KDL::Tree`, which has no segments;
* `treeFromString xml` is `kdl_parser::treeFromString(xml, tree)`: the tree it
  delivers, `none` when it returns `false` (the destination is then left as it was);
* `getChain tree root tip` is `tree.getChain(root, tip, chain)`: the chain it
  delivers, `none` when it returns `false` (the destination, a default-constructed
  chain, is then still empty);
* `parseURDF xml` is `urdf::parseURDF(xml)`, `none` for a null model pointer;
* `getJoint model name` is `model->getJoint(name)`, `none` for a null joint pointer;
* `CartToJnt solver q_init T_base_goal q_out` is the solver's own `CartToJnt`: its
  return code and the `q_out` it leaves. -/
structure Env (Tree Model Frame α : Type) where
  NDEBUG : Bool
  emptyTree : Tree
  getNrOfSegments : Tree → Nat
  emptyTree_getNrOfSegments : getNrOfSegments emptyTree = 0
  treeFromString : String → Option Tree
  getChain : Tree → String → String → Option Chain
  parseURDF : String → Option Model
  getJoint : Model → String → Option (UrdfJoint α)
  CartToJnt : ChainIkSolverPos_LMA α → JntArray α → Frame → JntArray α → Int × JntArray α

variable {Model Frame : Type}

/-- The constructor `Kinematics(feet_links, base_link)`. -/
def Kinematics.new (env : Env Tree Model Frame α) (feet_links : List String)
    (base_link : String) : Kinematics Tree α :=
  { tree_ := env.emptyTree
    feet_links_ := feet_links
    base_link_ := base_link
    chains_ := []
    solvers_ := []
    joint_limits_ := []
    solvers_set_ := false }

/-- The function `validate_limits`: the loop over `limits` with its `assert`. -/
def validate_limits (NDEBUG : Bool) : List (JointLimits α) → Except Fault Unit
  | [] => .ok ()
  | l :: rest =>
    if NDEBUG || decide (l.upper ≥ l.lower) then validate_limits NDEBUG rest
    else .error Fault.assertionFailed

/-- The loop of `createSolvers`: `n` iterations remain, `i` is the loop counter. -/
def createSolversLoop (chains : List Chain) :
    Nat → Nat → List (ChainIkSolverPos_LMA α) → Except Fault (List (ChainIkSolverPos_LMA α))
  | 0, _, solvers => .ok solvers
  | n + 1, i, solvers =>
    match chains[i]? with
    | none => .error Fault.outOfRange
    | some chain =>
      createSolversLoop chains n (i + 1) (solvers ++ [⟨chain, 1 / 100000, 100, 1 / 10 ^ 15⟩])

/-- `Kinematics::createSolvers`. -/
def Kinematics.createSolvers (self : Kinematics Tree α) : Except Fault (Kinematics Tree α) :=
  match createSolversLoop self.chains_ self.feet_links_.length 0 [] with
  | .error f => .error f
  | .ok solvers => .ok { self with solvers_ := solvers, solvers_set_ := true }

/-- The loop of `robotDescriptionCallback` that extracts the chains: `n` iterations
remain, `i` is the loop counter. Both branches on `success` only log. -/
def extractChainsLoop (env : Env Tree Model Frame α) (tree : Tree) (base_link : String)
    (feet_links : List String) : Nat → Nat → List Chain → List Chain
  | 0, _, chains => chains
  | n + 1, i, chains =>
    match feet_links[i]? with
    | none => chains
    | some foot =>
      match env.getChain tree base_link foot with
      | some chain => extractChainsLoop env tree base_link feet_links n (i + 1) (chains.set i chain)
      | none => extractChainsLoop env tree base_link feet_links n (i + 1) chains

/-- The inner loop of `robotDescriptionCallback` over the segments of one chain: `n`
iterations remain, `j` is the loop counter, `limits` is `joint_limits_[i]`. -/
def extractLimitsLoop (env : Env Tree Model Frame α) (urdf : Option Model) (chain : Chain) :
    Nat → Nat → List (JointLimits α) → Except Fault (List (JointLimits α))
  | 0, _, limits => .ok limits
  | n + 1, j, limits =>
    match chain.getSegment j with
    | none => .error Fault.outOfRange
    | some segment =>
      let joint := segment.getJoint
      if joint.getType ≠ JointType.Fixed then
        match urdf with
        | none => .error Fault.nullDereference
        | some model =>
          match env.getJoint model joint.getName with
          | none => .error Fault.nullDereference
          | some urdf_joint =>
            match urdf_joint.limits with
            | none => .error Fault.nullDereference
            | some lims => extractLimitsLoop env urdf chain n (j + 1) (limits ++ [lims])
      else extractLimitsLoop env urdf chain n (j + 1) limits

/-- The outer loop of `robotDescriptionCallback` over the chains: `n` iterations remain,
`i` is the loop counter. -/
def jointLimitsLoop (env : Env Tree Model Frame α) (urdf : Option Model) (chains : List Chain) :
    Nat → Nat → List (List (JointLimits α)) → Except Fault (List (List (JointLimits α)))
  | 0, _, joint_limits => .ok joint_limits
  | n + 1, i, joint_limits =>
    match chains[i]?, joint_limits[i]? with
    | some chain, some limits =>
      match extractLimitsLoop env urdf chain chain.getNrOfSegments 0 limits with
      | .error f => .error f
      | .ok limits' =>
        match validate_limits env.NDEBUG limits' with
        | .error f => .error f
        | .ok _ => jointLimitsLoop env urdf chains n (i + 1) (joint_limits.set i limits')
    | _, _ => .error Fault.outOfRange

/-- `Kinematics::robotDescriptionCallback`: the manager after the call, or the fault
that ended it. -/
def Kinematics.robotDescriptionCallback (env : Env Tree Model Frame α)
    (self : Kinematics Tree α) (msg : String) : Except Fault (Kinematics Tree α) :=
  let tree_was_not_empty := decide (env.getNrOfSegments self.tree_ > 0)
  match env.treeFromString msg with
  | none => .ok self
  | some tree =>
    let parsed : Kinematics Tree α := { self with tree_ := tree }
    match (if tree_was_not_empty then parsed.createSolvers else .ok parsed) with
    | .error f => .error f
    | .ok rebuilt =>
      let chains := extractChainsLoop env tree rebuilt.base_link_ rebuilt.feet_links_
        rebuilt.feet_links_.length 0 (List.replicate rebuilt.feet_links_.length ⟨[]⟩)
      let urdf := env.parseURDF msg
      match jointLimitsLoop env urdf chains chains.length 0 (List.replicate chains.length []) with
      | .error f => .error f
      | .ok joint_limits =>
        Kinematics.createSolvers { rebuilt with chains_ := chains, joint_limits_ := joint_limits }

/-- `Kinematics::cartToJnt`: the return code and `q_out` as the call leaves it. -/
def Kinematics.cartToJnt (env : Env Tree Model Frame α) (self : Kinematics Tree α)
    (leg_index : Nat) (q_init : JntArray α) (T_base_goal : Frame) (q_out : JntArray α) :
    Except Fault (Int × JntArray α) :=
  if !self.solvers_set_ then .ok (-1, q_out)
  else
    match self.solvers_[leg_index]? with
    | none => .error Fault.outOfRange
    | some solver => .ok (env.CartToJnt solver q_init T_base_goal q_out)

/-- The managers reachable from construction by description updates. -/
inductive Reachable (env : Env Tree Model Frame α) (feet_links : List String)
    (base_link : String) : Kinematics Tree α → Prop where
  | init : Reachable env feet_links base_link (Kinematics.new env feet_links base_link)
  | step (s s' : Kinematics Tree α) (msg : String) :
      Reachable env feet_links base_link s →
      s.robotDescriptionCallback env msg = .ok s' → Reachable env feet_links base_link s'

/-- The managers reachable from construction by description updates none of which
parsed. -/
inductive ReachableUnparsed (env : Env Tree Model Frame α) (feet_links : List String)
    (base_link : String) : Kinematics Tree α → Prop where
  | init : ReachableUnparsed env feet_links base_link (Kinematics.new env feet_links base_link)
  | step (s s' : Kinematics Tree α) (msg : String) :
      ReachableUnparsed env feet_links base_link s →
      env.treeFromString msg = none →
      s.robotDescriptionCallback env msg = .ok s' → ReachableUnparsed env feet_links base_link s'

/-- The declared limit of the joint called `name` in the description document. -/
def Env.declaredLimits (env : Env Tree Model Frame α) (urdf : Option Model) (name : String) :
    Option (JointLimits α) :=
  match urdf with
  | none => none
  | some model =>
    match env.getJoint model name with
    | none => none
    | some urdf_joint => urdf_joint.limits

/-- The chain a model update leaves in the slot of the limb ending at `foot`: the chain
derived from the tree, or the default-constructed chain of the resized `chains_` when
`getChain` fails. -/
def Env.storedChain (env : Env Tree Model Frame α) (tree : Tree) (base_link foot : String) :
    Chain :=
  match env.getChain tree base_link foot with
  | some chain => chain
  | none => ⟨[]⟩

/-- The solver `createSolvers` builds over a chain. -/
def solverFor (chain : Chain) : ChainIkSolverPos_LMA α :=
  ⟨chain, 1 / 100000, 100, 1 / 10 ^ 15⟩

/-- The movable (non-`Fixed`) segments of a chain, in chain order. -/
def Chain.movable (c : Chain) : List Segment :=
  c.segments.filter (fun segment => decide (segment.getJoint.getType ≠ JointType.Fixed))

/-! ## Concrete inputs -/

/-- A manager that holds the given per-limb limit lists and nothing else. -/
def Kinematics.ofLimits {α : Type} (joint_limits : List (List (JointLimits α))) :
    Kinematics Unit α :=
  { tree_ := ()
    feet_links_ := []
    base_link_ := ""
    chains_ := []
    solvers_ := []
    joint_limits_ := joint_limits
    solvers_set_ := false }

/-- The value of `M_PI` as an IEEE double, 884279719003555 / 2^48. -/
def M_PI_double : ℚ := 884279719003555 / 281474976710656

/-- A small world for concrete runs. A document parses exactly when it is `"robot"`, and
the tree it gives has two segments. Only the limb ending at `"foot_0"` has a chain: a
revolute joint `"hip"` followed by a fixed joint `"ankle"`. The document declares the
limit `hip` for the joint `"hip"` and nothing for any other joint. Every solver returns
the code `0` and the seed. -/
def exampleEnv (NDEBUG : Bool) (hip : JointLimits ℚ) : Env Nat Unit Unit ℚ where
  NDEBUG := NDEBUG
  emptyTree := 0
  getNrOfSegments := fun tree => tree
  emptyTree_getNrOfSegments := rfl
  treeFromString := fun xml => if xml = "robot" then some 2 else none
  getChain := fun _ _ tip =>
    if tip = "foot_0" then
      some ⟨[⟨⟨"hip", JointType.RotZ⟩⟩, ⟨⟨"ankle", JointType.Fixed⟩⟩]⟩
    else none
  parseURDF := fun xml => if xml = "robot" then some () else none
  getJoint := fun _ name => if name = "hip" then some ⟨some hip⟩ else none
  CartToJnt := fun _ q_init _ _ => (0, q_init)

/-- The manager that `exampleEnv` leaves after the update `"robot"` of a manager with the
single limb `"foot_0"`. -/
def exampleReady (hip : JointLimits ℚ) : Kinematics Nat ℚ :=
  { tree_ := 2
    feet_links_ := ["foot_0"]
    base_link_ := "base_link"
    chains_ := [⟨[⟨⟨"hip", JointType.RotZ⟩⟩, ⟨⟨"ankle", JointType.Fixed⟩⟩]⟩]
    solvers_ := [solverFor ⟨[⟨⟨"hip", JointType.RotZ⟩⟩, ⟨⟨"ankle", JointType.Fixed⟩⟩]⟩]
    joint_limits_ := [[hip]]
    solvers_set_ := true }

/-! ## The arithmetic of the source

The definitions of folding and clamping above read the arithmetic of the source exactly,
over an ordered field. The source computes in IEEE 754: `q(i)`, the limits and `2*M_PI`
are `double`s, every update of `q(i)` and both differences are rounded to `double`, and
the two distances are narrowed to `float` before they are compared. The definitions below
read it so, with the finite values as rationals and `none` for a value that is not
finite. -/

/-- The integer nearest to `s`, the even one of the two when `s` lies halfway. -/
def roundHalfEven (s : ℚ) : ℤ :=
  let f := Int.floor s
  let r := s - f
  if r < 1 / 2 then f else if r > 1 / 2 then f + 1 else if f % 2 = 0 then f else f + 1

/-- IEEE 754 rounding to nearest, ties to even, in a binary format with `p` significant
bits and least normal exponent `emin`, the exponent range unbounded above: the multiple
nearest to `x` of the unit in the last place of `x`, which is
`2 ^ (max ⌊log₂ |x|⌋ emin - (p - 1))`. -/
def roundNearestEven (p : ℕ) (emin : ℤ) (x : ℚ) : ℚ :=
  if x = 0 then 0
  else
    let e := max (Int.log 2 |x|) emin - ((p : ℤ) - 1)
    (roundHalfEven (x / 2 ^ e) : ℚ) * 2 ^ e

/-- The `double` (binary64) nearest to `x`; `none` when it is not finite. -/
@[irreducible]
def toDouble (x : ℚ) : Option ℚ :=
  let r := roundNearestEven 53 (-1022) x
  if |r| < 2 ^ 1024 then some r else none

/-- The `float` (binary32) nearest to `x`, as the narrowing of a `double` to `float`
gives it; `none` when it is not finite. -/
@[irreducible]
def toFloat (x : ℚ) : Option ℚ :=
  let r := roundNearestEven 24 (-126) x
  if |r| < 2 ^ 128 then some r else none

/-- The loop `while (q(i) > jl.upper) q(i) -= 2*M_PI;` in `double` arithmetic, run for at
most `fuel` evaluations of its condition; `none` when the fuel runs out first or a value
is not finite. -/
def subtractWhileAboveDouble (M_PI upper : ℚ) : Nat → ℚ → Option ℚ
  | 0, _ => none
  | fuel + 1, q =>
    if q > upper then
      match toDouble (q - 2 * M_PI) with
      | none => none
      | some q' => subtractWhileAboveDouble M_PI upper fuel q'
    else some q

/-- The loop `while (q(i) < jl.lower) q(i) += 2*M_PI;` in `double` arithmetic, run for at
most `fuel` evaluations of its condition; `none` when the fuel runs out first or a value
is not finite. -/
def addWhileBelowDouble (M_PI lower : ℚ) : Nat → ℚ → Option ℚ
  | 0, _ => none
  | fuel + 1, q =>
    if q < lower then
      match toDouble (q + 2 * M_PI) with
      | none => none
      | some q' => addWhileBelowDouble M_PI lower fuel q'
    else some q

/-- The value `fmod(d, 2*M_PI)` narrowed to `float`, for a difference `d` computed in
`double` arithmetic; `none` when it is not a number (the difference overflowed). -/
def narrowedDistance (M_PI d : ℚ) : Option ℚ :=
  match toDouble d with
  | none => none
  | some x => toFloat (fmod x (2 * M_PI))

/-- The comparison `upper_distance > lower_distance` of two `float` values, which is
false when one of them is not a number. -/
def floatGt : Option ℚ → Option ℚ → Bool
  | some x, some y => decide (x > y)
  | _, _ => false

/-- The body of the `for` loop of `foldAndClampJointAnglesToLimits` for one joint in the
arithmetic of the source: every update of `q(i)` and both differences are rounded to
`double`, `fmod` is exact, and both distances are narrowed to `float` before they are
compared. The constant `2*M_PI` is exact for a `double` `M_PI`. -/
def foldAndClampJointDouble (M_PI : ℚ) (fuel : Nat) (jl : JointLimits ℚ) (qi : ℚ)
    (clamping_applied : Bool) : Option (ℚ × Bool) :=
  match subtractWhileAboveDouble M_PI jl.upper fuel qi with
  | none => none
  | some q1 =>
    match addWhileBelowDouble M_PI jl.lower fuel q1 with
    | none => none
    | some q2 =>
      if q2 > jl.upper then
        let upper_distance := narrowedDistance M_PI (q2 - jl.upper)
        let lower_distance := narrowedDistance M_PI (jl.lower - q2)
        some (if floatGt upper_distance lower_distance then jl.lower else jl.upper, true)
      else some (q2, clamping_applied)

/-- The `for` loop of `foldAndClampJointAnglesToLimits` in the arithmetic of the source:
`n` iterations remain, `i` is the loop counter. `none` stands for a `while` loop out of
fuel, a value that is not finite, or an access past the end of `joint_limits_` or
`joint_limits_[leg_index]`. -/
def Kinematics.foldAndClampLoopDouble (self : Kinematics Tree ℚ) (M_PI : ℚ) (fuel : Nat)
    (leg_index : Nat) : Nat → Nat → JntArray ℚ → Bool → Option (Bool × JntArray ℚ)
  | 0, _, q, clamping_applied => some (clamping_applied, q)
  | n + 1, i, q, clamping_applied =>
    match self.joint_limits_[leg_index]? with
    | none => none
    | some limits =>
      match limits[i]?, q[i]? with
      | some jl, some qi =>
        match foldAndClampJointDouble M_PI fuel jl qi clamping_applied with
        | none => none
        | some (qi', clamping_applied') =>
          Kinematics.foldAndClampLoopDouble self M_PI fuel leg_index n (i + 1) (q.set i qi')
            clamping_applied'
      | _, _ => none

/-- `Kinematics::foldAndClampJointAnglesToLimits` in the arithmetic of the source (finite
`double` values as rationals): the returned flag and the array `q` as the call leaves
it. -/
def Kinematics.foldAndClampJointAnglesToLimitsDouble (self : Kinematics Tree ℚ) (M_PI : ℚ)
    (fuel : Nat) (leg_index : Nat) (q : JntArray ℚ) : Option (Bool × JntArray ℚ) :=
  self.foldAndClampLoopDouble M_PI fuel leg_index q.length 0 q false

/-- Every representative `a + j * (2*M_PI)` between `a` and the `k`-th one is a `double`:
no update of the angle on the way from `a` to `a + k * (2*M_PI)` is rounded. -/
def UpdatesExact (M_PI a : ℚ) (k : ℤ) : Prop :=
  ∀ j : ℤ, min 0 k ≤ j → j ≤ max 0 k →
    toDouble (a + j * (2 * M_PI)) = some (a + j * (2 * M_PI))

/-! ## The two folding loops -/

/-- A completed subtracting loop ends at or below `upper`, a whole number of periods
below where it started, and less than a period below `upper` if it ran at all. -/
theorem subtractWhileAbove_spec (M_PI upper : α) :
    ∀ (fuel : Nat) (q r : α), subtractWhileAbove M_PI upper fuel q = some r →
      r ≤ upper ∧ ∃ k : ℕ, r = q - k * (2 * M_PI) ∧ (k = 0 ∨ upper < r + 2 * M_PI) := by
  intro fuel
  induction fuel with
  | zero => intro q r h; simp [subtractWhileAbove] at h
  | succ n ih =>
    intro q r h
    rw [subtractWhileAbove] at h
    split_ifs at h with hq
    · obtain ⟨h1, k, hk, hk2⟩ := ih _ _ h
      refine ⟨h1, k + 1, ?_, Or.inr ?_⟩
      · rw [hk]; push_cast; ring
      · rcases hk2 with h0 | h2
        · subst h0
          have : r = q - 2 * M_PI := by simpa using hk
          rw [this]; simpa using hq
        · exact h2
    · have hr : q = r := by simpa using h
      subst hr
      exact ⟨not_lt.mp hq, 0, by simp, Or.inl rfl⟩

/-- A completed adding loop ends at or above `lower`, a whole number of periods above
where it started, and less than a period above `lower` if it ran at all. -/
theorem addWhileBelow_spec (M_PI lower : α) :
    ∀ (fuel : Nat) (q r : α), addWhileBelow M_PI lower fuel q = some r →
      lower ≤ r ∧ ∃ k : ℕ, r = q + k * (2 * M_PI) ∧ (k = 0 ∨ r - 2 * M_PI < lower) := by
  intro fuel
  induction fuel with
  | zero => intro q r h; simp [addWhileBelow] at h
  | succ n ih =>
    intro q r h
    rw [addWhileBelow] at h
    split_ifs at h with hq
    · obtain ⟨h1, k, hk, hk2⟩ := ih _ _ h
      refine ⟨h1, k + 1, ?_, Or.inr ?_⟩
      · rw [hk]; push_cast; ring
      · rcases hk2 with h0 | h2
        · subst h0
          have : r = q + 2 * M_PI := by simpa using hk
          rw [this]; simpa using hq
        · exact h2
    · have hr : q = r := by simpa using h
      subst hr
      exact ⟨not_lt.mp hq, 0, by simp, Or.inl rfl⟩

/-- More fuel does not change the result of a completed subtracting loop. -/
theorem subtractWhileAbove_mono (M_PI upper : α) :
    ∀ (fuel : Nat) (q r : α), subtractWhileAbove M_PI upper fuel q = some r →
      ∀ fuel', fuel ≤ fuel' → subtractWhileAbove M_PI upper fuel' q = some r := by
  intro fuel
  induction fuel with
  | zero => intro q r h; simp [subtractWhileAbove] at h
  | succ n ih =>
    intro q r h fuel' hf
    obtain ⟨m, rfl⟩ : ∃ m, fuel' = m + 1 := ⟨fuel' - 1, by omega⟩
    rw [subtractWhileAbove] at h ⊢
    split_ifs at h ⊢ with hq
    · exact ih _ _ h m (by omega)
    · exact h

/-- More fuel does not change the result of a completed adding loop. -/
theorem addWhileBelow_mono (M_PI lower : α) :
    ∀ (fuel : Nat) (q r : α), addWhileBelow M_PI lower fuel q = some r →
      ∀ fuel', fuel ≤ fuel' → addWhileBelow M_PI lower fuel' q = some r := by
  intro fuel
  induction fuel with
  | zero => intro q r h; simp [addWhileBelow] at h
  | succ n ih =>
    intro q r h fuel' hf
    obtain ⟨m, rfl⟩ : ∃ m, fuel' = m + 1 := ⟨fuel' - 1, by omega⟩
    rw [addWhileBelow] at h ⊢
    split_ifs at h ⊢ with hq
    · exact ih _ _ h m (by omega)
    · exact h

/-! ## The loops of the model update -/

/-- The loop of `createSolvers` appends one solver per chain, in order. -/
theorem createSolversLoop_eq (chains : List Chain) :
    ∀ (n i : Nat) (solvers : List (ChainIkSolverPos_LMA α)), i + n ≤ chains.length →
      createSolversLoop chains n i solvers = .ok (solvers ++
        ((chains.drop i).take n).map
          (fun chain => (⟨chain, 1 / 100000, 100, 1 / 10 ^ 15⟩ : ChainIkSolverPos_LMA α))) := by
  intro n
  induction n with
  | zero => intro i solvers _; simp [createSolversLoop]
  | succ n ih =>
    intro i solvers h
    have hi : i < chains.length := by omega
    rw [createSolversLoop, List.getElem?_eq_getElem hi]
    simp only
    rw [ih (i + 1) _ (by omega), List.append_assoc]
    congr 2
    rw [List.drop_eq_getElem_cons hi, List.take_succ_cons, List.map_cons]
    rfl

/-- `createSolvers` with a chain for every limb: one solver per limb, built over that
limb's chain, and the ready flag set. -/
theorem createSolvers_eq (self : Kinematics Tree α)
    (h : self.chains_.length = self.feet_links_.length) :
    self.createSolvers = .ok { self with
      solvers_ := self.chains_.map solverFor
      solvers_set_ := true } := by
  unfold Kinematics.createSolvers
  rw [createSolversLoop_eq self.chains_ self.feet_links_.length 0 [] (by omega)]
  simp only [List.drop_zero, List.nil_append, ← h, List.take_length]
  rfl

omit [LinearOrderedField α] in
/-- The chain-extraction loop keeps the length of `chains_`, leaves the slots it does
not visit alone, and puts the derived chain into each slot it visits, or leaves the
slot alone when no chain can be derived. -/
theorem extractChainsLoop_spec (env : Env Tree Model Frame α) (tree : Tree) (base_link : String)
    (feet_links : List String) :
    ∀ (n i : Nat) (chains : List Chain), i + n ≤ feet_links.length →
      (extractChainsLoop env tree base_link feet_links n i chains).length = chains.length ∧
      (∀ j, (j < i ∨ i + n ≤ j) →
        (extractChainsLoop env tree base_link feet_links n i chains)[j]? = chains[j]?) ∧
      (∀ (j : Nat) (foot : String), i ≤ j → j < i + n → j < chains.length →
        feet_links[j]? = some foot →
        (extractChainsLoop env tree base_link feet_links n i chains)[j]? =
          match env.getChain tree base_link foot with
          | some chain => some chain
          | none => chains[j]?) := by
  intro n
  induction n with
  | zero =>
    intro i chains _
    refine ⟨rfl, fun _ _ => rfl, ?_⟩
    intro j foot h1 h2; omega
  | succ n ih =>
    intro i chains h
    have hi : i < feet_links.length := by omega
    rw [extractChainsLoop, List.getElem?_eq_getElem hi]
    simp only
    cases hc : env.getChain tree base_link feet_links[i] with
    | none =>
      simp only
      obtain ⟨h1, h2, h3⟩ := ih (i + 1) chains (by omega)
      refine ⟨h1, fun j hj => h2 j (by omega), ?_⟩
      intro j foot hj1 hj2 hj3 hfoot
      rcases Nat.eq_or_lt_of_le hj1 with rfl | hlt
      · rw [h2 i (Or.inl (by omega))]
        rw [List.getElem?_eq_getElem hi] at hfoot
        have : feet_links[i] = foot := by simpa using hfoot
        rw [← this, hc]
      · exact h3 j foot (by omega) (by omega) hj3 hfoot
    | some chain =>
      simp only
      obtain ⟨h1, h2, h3⟩ := ih (i + 1) (chains.set i chain) (by omega)
      refine ⟨by rw [h1, List.length_set], ?_, ?_⟩
      · intro j hj
        rw [h2 j (by omega), List.getElem?_set_ne (by omega)]
      · intro j foot hj1 hj2 hj3 hfoot
        rcases Nat.eq_or_lt_of_le hj1 with rfl | hlt
        · rw [h2 i (Or.inl (by omega)), List.getElem?_set_self hj3]
          rw [List.getElem?_eq_getElem hi] at hfoot
          have : feet_links[i] = foot := by simpa using hfoot
          rw [← this, hc]
        · rw [h3 j foot (by omega) (by omega) (by rw [List.length_set]; exact hj3) hfoot,
            List.getElem?_set_ne (by omega)]

omit [LinearOrderedField α] in
/-- The chains a model update stores: one per limb, the derived chain or, when none can
be derived, the default-constructed chain. -/
theorem extractChains_eq (env : Env Tree Model Frame α) (tree : Tree) (base_link : String)
    (feet_links : List String) :
    extractChainsLoop env tree base_link feet_links feet_links.length 0
        (List.replicate feet_links.length ⟨[]⟩) =
      feet_links.map (env.storedChain tree base_link) := by
  obtain ⟨h1, _, h3⟩ := extractChainsLoop_spec env tree base_link feet_links feet_links.length 0
    (List.replicate feet_links.length ⟨[]⟩) (by omega)
  apply List.ext_getElem?
  intro j
  rcases Nat.lt_or_ge j feet_links.length with hj | hj
  · rw [h3 j feet_links[j] (Nat.zero_le _) (by omega) (by simpa using hj)
      (List.getElem?_eq_getElem hj), List.getElem?_map, List.getElem?_eq_getElem hj,
      Option.map_some', Env.storedChain]
    cases hc : env.getChain tree base_link feet_links[j] with
    | none => simp [List.getElem?_replicate, hj]
    | some chain => rfl
  · rw [List.getElem?_eq_none (by rw [h1]; simpa using hj),
      List.getElem?_eq_none (by simpa using hj)]

/-- `validate_limits` returns exactly when assertions are compiled out or every limit
is well-ordered. -/
theorem validate_limits_eq_ok (NDEBUG : Bool) (limits : List (JointLimits α)) :
    validate_limits NDEBUG limits = .ok () ↔
      (NDEBUG = true ∨ ∀ l ∈ limits, l.upper ≥ l.lower) := by
  induction limits with
  | nil => simp [validate_limits]
  | cons l rest ih =>
    rw [validate_limits]
    by_cases hc : (NDEBUG || decide (l.upper ≥ l.lower)) = true
    · rw [if_pos hc, ih]
      simp only [Bool.or_eq_true, decide_eq_true_eq] at hc
      constructor
      · rintro (h | h)
        · exact Or.inl h
        · rcases hc with hc | hc
          · exact Or.inl hc
          · refine Or.inr (fun x hx => ?_)
            rcases List.mem_cons.mp hx with rfl | hx
            · exact hc
            · exact h x hx
      · rintro (h | h)
        · exact Or.inl h
        · exact Or.inr (fun x hx => h x (List.mem_cons_of_mem _ hx))
    · rw [if_neg hc]
      simp only [Bool.or_eq_true, decide_eq_true_eq, not_or] at hc
      constructor
      · intro h; exact absurd h (by simp)
      · rintro (h | h)
        · exact absurd h hc.1
        · exact absurd (h l (List.mem_cons_self _ _)) hc.2

/-- The only fault of `validate_limits` is the failed assertion. -/
theorem validate_limits_eq_error (NDEBUG : Bool) (limits : List (JointLimits α)) (f : Fault)
    (h : validate_limits NDEBUG limits = .error f) : f = Fault.assertionFailed := by
  induction limits with
  | nil => simp [validate_limits] at h
  | cons l rest ih =>
    rw [validate_limits] at h
    split_ifs at h
    · exact ih h
    · simpa using h.symm

omit [LinearOrderedField α] in
/-- The loop over the segments of a chain appends the declared limits of the movable
segments it visits, in order, when each of them has a declared limit. -/
theorem extractLimitsLoop_eq (env : Env Tree Model Frame α) (urdf : Option Model)
    (chain : Chain) :
    ∀ (n j : Nat) (limits : List (JointLimits α)), j + n ≤ chain.segments.length →
      (∀ segment ∈ (chain.segments.drop j).take n,
        segment.getJoint.getType ≠ JointType.Fixed →
        ∃ l, env.declaredLimits urdf segment.getJoint.getName = some l) →
      ∃ L, extractLimitsLoop env urdf chain n j limits = .ok (limits ++ L) ∧
        L.map some = (((chain.segments.drop j).take n).filter
          (fun segment => decide (segment.getJoint.getType ≠ JointType.Fixed))).map
          (fun segment => env.declaredLimits urdf segment.getJoint.getName) := by
  intro n
  induction n with
  | zero =>
    intro j limits _ _
    exact ⟨[], by simp [extractLimitsLoop], by simp⟩
  | succ n ih =>
    intro j limits hlen hdecl
    have hj : j < chain.segments.length := by omega
    have hdrop : (chain.segments.drop j).take (n + 1)
        = chain.segments[j] :: (chain.segments.drop (j + 1)).take n := by
      rw [List.drop_eq_getElem_cons hj, List.take_succ_cons]
    rw [hdrop] at hdecl ⊢
    have hrest : ∀ segment ∈ (chain.segments.drop (j + 1)).take n,
        segment.getJoint.getType ≠ JointType.Fixed →
        ∃ l, env.declaredLimits urdf segment.getJoint.getName = some l :=
      fun segment hs => hdecl segment (List.mem_cons_of_mem _ hs)
    rw [extractLimitsLoop]
    simp only [Chain.getSegment, List.getElem?_eq_getElem hj]
    by_cases hm : chain.segments[j].getJoint.getType ≠ JointType.Fixed
    · obtain ⟨l, hl⟩ := hdecl chain.segments[j] (List.mem_cons_self _ _) hm
      rw [if_pos hm]
      unfold Env.declaredLimits at hl
      cases hu : urdf with
      | none => rw [hu] at hl; exact absurd hl (by simp)
      | some model =>
        rw [hu] at hl
        simp only at hl ⊢
        cases hg : env.getJoint model chain.segments[j].getJoint.getName with
        | none => rw [hg] at hl; exact absurd hl (by simp)
        | some urdf_joint =>
          rw [hg] at hl
          simp only at hl ⊢
          rw [hl]
          simp only
          subst hu
          obtain ⟨L, h1, h2⟩ := ih (j + 1) (limits ++ [l]) (by omega) hrest
          refine ⟨l :: L, by rw [h1, List.append_assoc]; rfl, ?_⟩
          rw [List.filter_cons_of_pos (by simpa using hm), List.map_cons, List.map_cons, h2]
          congr 1
          unfold Env.declaredLimits
          simp only [hg, hl]
    · rw [if_neg hm]
      obtain ⟨L, h1, h2⟩ := ih (j + 1) limits (by omega) hrest
      refine ⟨L, h1, ?_⟩
      rw [List.filter_cons_of_neg (by simpa using hm), h2]

omit [LinearOrderedField α] in
/-- The loop over the segments of a whole chain, from an empty limit list. -/
theorem extractLimits_eq (env : Env Tree Model Frame α) (urdf : Option Model) (chain : Chain)
    (hdecl : ∀ segment ∈ chain.movable,
      ∃ l, env.declaredLimits urdf segment.getJoint.getName = some l) :
    ∃ L, extractLimitsLoop env urdf chain chain.getNrOfSegments 0 [] = .ok L ∧
      L.map some = chain.movable.map
        (fun segment => env.declaredLimits urdf segment.getJoint.getName) := by
  obtain ⟨L, h1, h2⟩ := extractLimitsLoop_eq env urdf chain chain.segments.length 0 []
    (by omega) (by
      intro segment hs hm
      rw [List.drop_zero, List.take_length] at hs
      exact hdecl segment (List.mem_filter.mpr ⟨hs, by simpa using hm⟩))
  refine ⟨L, by simpa [Chain.getNrOfSegments] using h1, ?_⟩
  rw [h2, List.drop_zero, List.take_length]
  rfl

/-- What a completed run of the loop over the chains leaves behind: the slots it does
not visit are untouched, and every slot it visits holds the limits extracted from the
chain of that slot, which passed `validate_limits`. -/
theorem jointLimitsLoop_spec (env : Env Tree Model Frame α) (urdf : Option Model)
    (chains : List Chain) :
    ∀ (n i : Nat) (joint_limits r : List (List (JointLimits α))),
      jointLimitsLoop env urdf chains n i joint_limits = .ok r →
      r.length = joint_limits.length ∧
      (∀ j, (j < i ∨ i + n ≤ j) → r[j]? = joint_limits[j]?) ∧
      (∀ j, i ≤ j → j < i + n → ∃ chain limits limits',
        chains[j]? = some chain ∧ joint_limits[j]? = some limits ∧
        extractLimitsLoop env urdf chain chain.getNrOfSegments 0 limits = .ok limits' ∧
        validate_limits env.NDEBUG limits' = .ok () ∧ r[j]? = some limits') := by
  intro n
  induction n with
  | zero =>
    intro i joint_limits r h
    simp only [jointLimitsLoop, Except.ok.injEq] at h
    subst h
    refine ⟨rfl, fun _ _ => rfl, ?_⟩
    intro j h1 h2; omega
  | succ n ih =>
    intro i joint_limits r h
    rw [jointLimitsLoop] at h
    split at h
    · rename_i chain limits hchain hlimits
      split at h
      · exact absurd h (by simp)
      · rename_i limits' hextract
        split at h
        · exact absurd h (by simp)
        · rename_i u hvalid
          have hi : i < joint_limits.length := by
            rcases Nat.lt_or_ge i joint_limits.length with h | h
            · exact h
            · rw [List.getElem?_eq_none h] at hlimits; exact absurd hlimits (by simp)
          obtain ⟨h1, h2, h3⟩ := ih (i + 1) (joint_limits.set i limits') r h
          refine ⟨by rw [h1, List.length_set], ?_, ?_⟩
          · intro j hj
            rw [h2 j (by omega), List.getElem?_set_ne (by omega)]
          · intro j hj1 hj2
            rcases Nat.eq_or_lt_of_le hj1 with rfl | hlt
            · refine ⟨chain, limits, limits', hchain, hlimits, hextract, hvalid, ?_⟩
              rw [h2 i (Or.inl (by omega)), List.getElem?_set_self hi]
            · obtain ⟨c, l, l', e1, e2, e3, e4, e5⟩ := h3 j (by omega) (by omega)
              rw [List.getElem?_set_ne (by omega)] at e2
              exact ⟨c, l, l', e1, e2, e3, e4, e5⟩
    · exact absurd h (by simp)

/-- The loop over the chains, when every access is within bounds and every extraction
returns: it completes, or it ends at the failed assertion of `validate_limits`; it
completes when every extracted limit list passes `validate_limits`. -/
theorem jointLimitsLoop_progress (env : Env Tree Model Frame α) (urdf : Option Model)
    (chains : List Chain) :
    ∀ (n i : Nat) (joint_limits : List (List (JointLimits α))),
      i + n ≤ chains.length → i + n ≤ joint_limits.length →
      (∀ (j : Nat) (chain : Chain) (limits : List (JointLimits α)), i ≤ j → j < i + n →
        chains[j]? = some chain → joint_limits[j]? = some limits →
        ∃ limits', extractLimitsLoop env urdf chain chain.getNrOfSegments 0 limits
          = .ok limits') →
      ((∃ r, jointLimitsLoop env urdf chains n i joint_limits = .ok r) ∨
        jointLimitsLoop env urdf chains n i joint_limits = .error Fault.assertionFailed) ∧
      ((∀ (j : Nat) (chain : Chain) (limits limits' : List (JointLimits α)), i ≤ j →
        j < i + n → chains[j]? = some chain → joint_limits[j]? = some limits →
        extractLimitsLoop env urdf chain chain.getNrOfSegments 0 limits = .ok limits' →
        validate_limits env.NDEBUG limits' = .ok ()) →
        ∃ r, jointLimitsLoop env urdf chains n i joint_limits = .ok r) := by
  intro n
  induction n with
  | zero =>
    intro i joint_limits _ _ _
    exact ⟨Or.inl ⟨_, rfl⟩, fun _ => ⟨_, rfl⟩⟩
  | succ n ih =>
    intro i joint_limits h1 h2 hext
    have hi1 : i < chains.length := by omega
    have hi2 : i < joint_limits.length := by omega
    obtain ⟨limits', hl⟩ := hext i chains[i] joint_limits[i] (le_refl _) (by omega)
      (List.getElem?_eq_getElem hi1) (List.getElem?_eq_getElem hi2)
    have hext' : ∀ (j : Nat) (chain : Chain) (limits : List (JointLimits α)), i + 1 ≤ j →
        j < i + 1 + n → chains[j]? = some chain →
        (joint_limits.set i limits')[j]? = some limits →
        ∃ limits'', extractLimitsLoop env urdf chain chain.getNrOfSegments 0 limits
          = .ok limits'' := by
      intro j chain limits hj1 hj2 e1 e2
      rw [List.getElem?_set_ne (by omega)] at e2
      exact hext j chain limits (by omega) (by omega) e1 e2
    obtain ⟨ihA, ihB⟩ := ih (i + 1) (joint_limits.set i limits') (by omega)
      (by rw [List.length_set]; omega) hext'
    rw [jointLimitsLoop]
    simp only [List.getElem?_eq_getElem hi1, List.getElem?_eq_getElem hi2, hl]
    cases hv : validate_limits env.NDEBUG limits' with
    | error f =>
      have hf := validate_limits_eq_error env.NDEBUG limits' f hv
      subst hf
      refine ⟨Or.inr rfl, ?_⟩
      intro hall
      have := hall i chains[i] joint_limits[i] limits' (le_refl _) (by omega)
        (List.getElem?_eq_getElem hi1) (List.getElem?_eq_getElem hi2) hl
      rw [hv] at this
      exact absurd this (by simp)
    | ok u =>
      refine ⟨ihA, ?_⟩
      intro hall
      apply ihB
      intro j chain limits limits'' hj1 hj2 e1 e2 e3
      rw [List.getElem?_set_ne (by omega)] at e2
      exact hall j chain limits limits'' (by omega) (by omega) e1 e2 e3

/-! ## The model update -/

/-- An update whose document does not parse returns the manager as it was. -/
theorem robotDescriptionCallback_unparsed (env : Env Tree Model Frame α)
    (self : Kinematics Tree α) (msg : String) (hfail : env.treeFromString msg = none) :
    self.robotDescriptionCallback env msg = .ok self := by
  unfold Kinematics.robotDescriptionCallback
  simp only [hfail]

/-- An update whose document parses, on a manager that has a chain slot for every limb
once its tree is not empty: the outcome is decided by the loop over the chains alone,
and a completed update stores the new tree, the chains derived from it, the limits that
loop extracted and one solver per chain, and sets the ready flag. -/
theorem robotDescriptionCallback_parsed (env : Env Tree Model Frame α)
    (self : Kinematics Tree α) (msg : String) (tree : Tree)
    (hparse : env.treeFromString msg = some tree)
    (hinv : env.getNrOfSegments self.tree_ = 0 ∨
      self.chains_.length = self.feet_links_.length) :
    self.robotDescriptionCallback env msg =
      match jointLimitsLoop env (env.parseURDF msg)
          (self.feet_links_.map (env.storedChain tree self.base_link_))
          self.feet_links_.length 0 (List.replicate self.feet_links_.length []) with
      | .error f => .error f
      | .ok joint_limits => .ok
        { tree_ := tree
          feet_links_ := self.feet_links_
          base_link_ := self.base_link_
          chains_ := self.feet_links_.map (env.storedChain tree self.base_link_)
          solvers_ := (self.feet_links_.map (env.storedChain tree self.base_link_)).map solverFor
          joint_limits_ := joint_limits
          solvers_set_ := true } := by
  have hrebuilt : ∃ rebuilt : Kinematics Tree α,
      (if decide (env.getNrOfSegments self.tree_ > 0) = true then
        Kinematics.createSolvers { self with tree_ := tree }
        else .ok { self with tree_ := tree }) = .ok rebuilt ∧
      rebuilt.tree_ = tree ∧ rebuilt.feet_links_ = self.feet_links_ ∧
      rebuilt.base_link_ = self.base_link_ := by
    by_cases hne : env.getNrOfSegments self.tree_ > 0
    · have hlen : self.chains_.length = self.feet_links_.length := by
        rcases hinv with h | h
        · omega
        · exact h
      rw [if_pos (by simpa using hne),
        createSolvers_eq { self with tree_ := tree } hlen]
      exact ⟨_, rfl, rfl, rfl, rfl⟩
    · rw [if_neg (by simpa using hne)]
      exact ⟨_, rfl, rfl, rfl, rfl⟩
  obtain ⟨rebuilt, hr, h1, h2, h3⟩ := hrebuilt
  unfold Kinematics.robotDescriptionCallback
  simp only [hparse, hr, h2, h3, extractChains_eq, List.length_map]
  cases hj : jointLimitsLoop env (env.parseURDF msg)
      (self.feet_links_.map (env.storedChain tree self.base_link_))
      self.feet_links_.length 0 (List.replicate self.feet_links_.length []) with
  | error f => rfl
  | ok joint_limits =>
    simp only
    rw [createSolvers_eq _ (by simp [h2])]
    simp only [h1, h2, h3]

/-- Every reachable manager keeps the limbs and the base link it was constructed with,
and has a chain slot for every limb once its tree is not empty. -/
theorem Reachable.invariant (env : Env Tree Model Frame α) (feet_links : List String)
    (base_link : String) (s : Kinematics Tree α) (h : Reachable env feet_links base_link s) :
    s.feet_links_ = feet_links ∧ s.base_link_ = base_link ∧
      (env.getNrOfSegments s.tree_ = 0 ∨ s.chains_.length = s.feet_links_.length) := by
  induction h with
  | init => exact ⟨rfl, rfl, Or.inl env.emptyTree_getNrOfSegments⟩
  | step s s' msg _ hstep ih =>
    cases hp : env.treeFromString msg with
    | none =>
      rw [robotDescriptionCallback_unparsed env s msg hp] at hstep
      simp only [Except.ok.injEq] at hstep
      subst hstep
      exact ih
    | some tree =>
      rw [robotDescriptionCallback_parsed env s msg tree hp ih.2.2] at hstep
      split at hstep
      · exact absurd hstep (by simp)
      · simp only [Except.ok.injEq] at hstep
        subst hstep
        exact ⟨ih.1, ih.2.1, Or.inr (by simp)⟩

/-- An update whose document parses and declares a limit for every movable joint of
every stored chain: it completes or ends at the failed assertion; it completes when
assertions are compiled out or every such limit is well-ordered; and when it completes,
the manager holds the new tree, the stored chain of every limb, one solver per chain,
the ready flag, and for every limb the declared limits of the movable joints of its
chain, in chain order, which passed `validate_limits`. -/
theorem robotDescriptionCallback_declared (env : Env Tree Model Frame α)
    (self : Kinematics Tree α) (msg : String) (tree : Tree)
    (hparse : env.treeFromString msg = some tree)
    (hinv : env.getNrOfSegments self.tree_ = 0 ∨
      self.chains_.length = self.feet_links_.length)
    (hdecl : ∀ foot ∈ self.feet_links_,
      ∀ segment ∈ (env.storedChain tree self.base_link_ foot).movable,
      ∃ l, env.declaredLimits (env.parseURDF msg) segment.getJoint.getName = some l) :
    ((∃ s', self.robotDescriptionCallback env msg = .ok s') ∨
      self.robotDescriptionCallback env msg = .error Fault.assertionFailed) ∧
    ((env.NDEBUG = true ∨ ∀ foot ∈ self.feet_links_,
        ∀ segment ∈ (env.storedChain tree self.base_link_ foot).movable,
        ∀ l, env.declaredLimits (env.parseURDF msg) segment.getJoint.getName = some l →
          l.upper ≥ l.lower) →
      ∃ s', self.robotDescriptionCallback env msg = .ok s') ∧
    (∀ s', self.robotDescriptionCallback env msg = .ok s' →
      s'.tree_ = tree ∧ s'.feet_links_ = self.feet_links_ ∧
      s'.base_link_ = self.base_link_ ∧
      s'.chains_ = self.feet_links_.map (env.storedChain tree self.base_link_) ∧
      s'.solvers_ = s'.chains_.map solverFor ∧ s'.solvers_set_ = true ∧
      s'.joint_limits_.length = self.feet_links_.length ∧
      ∀ (i : Nat) (foot : String), self.feet_links_[i]? = some foot →
        ∃ limits, s'.joint_limits_[i]? = some limits ∧
          limits.map some = (env.storedChain tree self.base_link_ foot).movable.map
            (fun segment => env.declaredLimits (env.parseURDF msg) segment.getJoint.getName) ∧
          validate_limits env.NDEBUG limits = .ok ()) := by
  have hslot : ∀ (j : Nat) (chain : Chain) (limits : List (JointLimits α)),
      (self.feet_links_.map (env.storedChain tree self.base_link_))[j]? = some chain →
      (List.replicate self.feet_links_.length ([] : List (JointLimits α)))[j]? = some limits →
      ∃ foot, self.feet_links_[j]? = some foot ∧
        chain = env.storedChain tree self.base_link_ foot ∧ limits = [] := by
    intro j chain limits e1 e2
    rw [List.getElem?_map] at e1
    cases hf : self.feet_links_[j]? with
    | none => rw [hf] at e1; exact absurd e1 (by simp)
    | some foot =>
      rw [hf] at e1
      refine ⟨foot, rfl, by simpa using e1.symm, ?_⟩
      rw [List.getElem?_replicate] at e2
      split_ifs at e2
      simpa using e2.symm
  have hextract : ∀ (j : Nat) (chain : Chain) (limits : List (JointLimits α)),
      (self.feet_links_.map (env.storedChain tree self.base_link_))[j]? = some chain →
      (List.replicate self.feet_links_.length ([] : List (JointLimits α)))[j]? = some limits →
      ∃ foot L, self.feet_links_[j]? = some foot ∧
        extractLimitsLoop env (env.parseURDF msg) chain chain.getNrOfSegments 0 limits
          = .ok L ∧
        L.map some = (env.storedChain tree self.base_link_ foot).movable.map
          (fun segment => env.declaredLimits (env.parseURDF msg) segment.getJoint.getName) := by
    intro j chain limits e1 e2
    obtain ⟨foot, hf, rfl, rfl⟩ := hslot j chain limits e1 e2
    obtain ⟨L, h1, h2⟩ := extractLimits_eq env (env.parseURDF msg)
      (env.storedChain tree self.base_link_ foot)
      (hdecl foot (List.getElem?_mem hf))
    exact ⟨foot, L, hf, h1, h2⟩
  have hprog := jointLimitsLoop_progress env (env.parseURDF msg)
    (self.feet_links_.map (env.storedChain tree self.base_link_)) self.feet_links_.length 0
    (List.replicate self.feet_links_.length []) (by simp) (by simp)
    (fun j chain limits _ _ e1 e2 => by
      obtain ⟨_, L, _, h, _⟩ := hextract j chain limits e1 e2
      exact ⟨L, h⟩)
  rw [robotDescriptionCallback_parsed env self msg tree hparse hinv]
  refine ⟨?_, ?_, ?_⟩
  · rcases hprog.1 with ⟨r, hr⟩ | he
    · rw [hr]; exact Or.inl ⟨_, rfl⟩
    · rw [he]; exact Or.inr rfl
  · intro hok
    have : ∃ r, jointLimitsLoop env (env.parseURDF msg)
        (self.feet_links_.map (env.storedChain tree self.base_link_)) self.feet_links_.length 0
        (List.replicate self.feet_links_.length []) = .ok r := by
      apply hprog.2
      intro j chain limits limits' _ _ e1 e2 e3
      obtain ⟨foot, L, hf, h1, h2⟩ := hextract j chain limits e1 e2
      rw [h1] at e3
      simp only [Except.ok.injEq] at e3
      subst e3
      rw [validate_limits_eq_ok]
      rcases hok with hnd | hall
      · exact Or.inl hnd
      · refine Or.inr (fun l hl => ?_)
        have hmem : some l ∈ L.map some := List.mem_map_of_mem _ hl
        rw [h2] at hmem
        obtain ⟨segment, hseg, hd⟩ := List.mem_map.mp hmem
        exact hall foot (List.getElem?_mem hf) segment hseg l hd
    obtain ⟨r, hr⟩ := this
    rw [hr]; exact ⟨_, rfl⟩
  · intro s' hs'
    split at hs'
    · exact absurd hs' (by simp)
    · rename_i joint_limits hj
      simp only [Except.ok.injEq] at hs'
      subst hs'
      obtain ⟨h1, _, h3⟩ := jointLimitsLoop_spec env (env.parseURDF msg) _ _ _ _ _ hj
      refine ⟨rfl, rfl, rfl, rfl, rfl, rfl, by simpa using h1, ?_⟩
      intro i foot hfoot
      have hi : i < self.feet_links_.length := by
        rcases Nat.lt_or_ge i self.feet_links_.length with h | h
        · exact h
        · rw [List.getElem?_eq_none h] at hfoot; exact absurd hfoot (by simp)
      obtain ⟨chain, limits, limits', e1, e2, e3, e4, e5⟩ := h3 i (Nat.zero_le _) (by omega)
      obtain ⟨foot', L, hf, g1, g2⟩ := hextract i chain limits e1 e2
      rw [hfoot] at hf
      have hf' : foot = foot' := by simpa using hf
      subst hf'
      rw [g1] at e3
      simp only [Except.ok.injEq] at e3
      subst e3
      exact ⟨L, e5, g2, e4⟩

/-! ## The model update and the solve request: the claims -/

/-- Updates that do not parse leave the manager as the constructor made it. -/
theorem ReachableUnparsed.eq_new (env : Env Tree Model Frame α) (feet_links : List String)
    (base_link : String) (s : Kinematics Tree α)
    (h : ReachableUnparsed env feet_links base_link s) :
    s = Kinematics.new env feet_links base_link := by
  induction h with
  | init => rfl
  | step s s' msg _ hfail hstep ih =>
    rw [robotDescriptionCallback_unparsed env s msg hfail] at hstep
    simp only [Except.ok.injEq] at hstep
    rw [← hstep, ih]

/-- C5: in a manager reached from construction through updates none of which parsed, the
ready flag is unset and `cartToJnt` returns `-1` and leaves `q_out` as it was, for every
limb index, seed and target pose, whatever the solvers would do. -/
theorem cartToJnt_not_ready (env : Env Tree Model Frame α) (feet_links : List String)
    (base_link : String) (s : Kinematics Tree α)
    (h : ReachableUnparsed env feet_links base_link s) (leg_index : Nat)
    (q_init : JntArray α) (T_base_goal : Frame) (q_out : JntArray α) :
    s.solvers_set_ = false ∧
    s.cartToJnt env leg_index q_init T_base_goal q_out = .ok (-1, q_out) ∧
    ∀ solve : ChainIkSolverPos_LMA α → JntArray α → Frame → JntArray α → Int × JntArray α,
      s.cartToJnt { env with CartToJnt := solve } leg_index q_init T_base_goal q_out
        = .ok (-1, q_out) := by
  rw [ReachableUnparsed.eq_new env feet_links base_link s h]
  exact ⟨rfl, rfl, fun _ => rfl⟩

/-- C5 on the manager of `exampleEnv` after the update `"garbage"`, which does not parse. -/
theorem cartToJnt_not_ready_witness :
    (Kinematics.new (exampleEnv false ⟨0, 1⟩) ["foot_0"] "base_link").solvers_set_ = false ∧
    (Kinematics.new (exampleEnv false ⟨0, 1⟩) ["foot_0"] "base_link").cartToJnt
      (exampleEnv false ⟨0, 1⟩) 0 [1 / 2] () [7] = .ok (-1, [7]) ∧
    ∀ solve : ChainIkSolverPos_LMA ℚ → JntArray ℚ → Unit → JntArray ℚ → Int × JntArray ℚ,
      (Kinematics.new (exampleEnv false ⟨0, 1⟩) ["foot_0"] "base_link").cartToJnt
        { exampleEnv false ⟨0, 1⟩ with CartToJnt := solve } 0 [1 / 2] () [7] = .ok (-1, [7]) :=
  cartToJnt_not_ready (exampleEnv false ⟨0, 1⟩) ["foot_0"] "base_link"
    (Kinematics.new (exampleEnv false ⟨0, 1⟩) ["foot_0"] "base_link")
    (ReachableUnparsed.step _ _ "garbage" ReachableUnparsed.init rfl rfl) 0 [1 / 2] () [7]

/-- C6: an update whose document fails to parse returns the manager as it was: the tree,
the chains, the limit lists, the solvers and the ready flag are unchanged; so when the
manager was ready, a following `cartToJnt` returns what the solver of the previous model
returns for that limb. -/
theorem failed_parse_keeps_model (env : Env Tree Model Frame α) (s : Kinematics Tree α)
    (msg : String) (hfail : env.treeFromString msg = none) :
    s.robotDescriptionCallback env msg = .ok s ∧
    ∀ s', s.robotDescriptionCallback env msg = .ok s' →
      s'.tree_ = s.tree_ ∧ s'.chains_ = s.chains_ ∧ s'.joint_limits_ = s.joint_limits_ ∧
      s'.solvers_ = s.solvers_ ∧ s'.solvers_set_ = s.solvers_set_ ∧
      (s.solvers_set_ = true → ∀ (leg_index : Nat) (solver : ChainIkSolverPos_LMA α)
        (q_init : JntArray α) (T_base_goal : Frame) (q_out : JntArray α),
        s.solvers_[leg_index]? = some solver →
        s'.cartToJnt env leg_index q_init T_base_goal q_out
          = .ok (env.CartToJnt solver q_init T_base_goal q_out)) := by
  refine ⟨robotDescriptionCallback_unparsed env s msg hfail, ?_⟩
  intro s' hs'
  rw [robotDescriptionCallback_unparsed env s msg hfail] at hs'
  simp only [Except.ok.injEq] at hs'
  subst hs'
  refine ⟨rfl, rfl, rfl, rfl, rfl, ?_⟩
  intro hready leg_index solver q_init T_base_goal q_out hsolver
  simp [Kinematics.cartToJnt, hready, hsolver]

/-- C6 on the ready manager `exampleReady` and the update `"garbage"`. -/
theorem failed_parse_keeps_model_witness :
    (Kinematics.new (exampleEnv false ⟨0, 1⟩) ["foot_0"] "base_link").robotDescriptionCallback
      (exampleEnv false ⟨0, 1⟩) "robot" = .ok (exampleReady ⟨0, 1⟩) ∧
    (exampleEnv false ⟨0, 1⟩).treeFromString "garbage" = none ∧
    (exampleReady ⟨0, 1⟩).robotDescriptionCallback (exampleEnv false ⟨0, 1⟩) "garbage"
      = .ok (exampleReady ⟨0, 1⟩) ∧
    (exampleReady ⟨0, 1⟩).cartToJnt (exampleEnv false ⟨0, 1⟩) 0 [1 / 2] () [7]
      = .ok (0, [1 / 2]) :=
  ⟨rfl, rfl, (failed_parse_keeps_model (exampleEnv false ⟨0, 1⟩) (exampleReady ⟨0, 1⟩) "garbage"
      rfl).1,
    ((failed_parse_keeps_model (exampleEnv false ⟨0, 1⟩) (exampleReady ⟨0, 1⟩) "garbage"
      rfl).2 (exampleReady ⟨0, 1⟩) rfl).2.2.2.2.2 rfl 0 _ [1 / 2] () [7] rfl⟩

/-- C7, as the claim states it, fails: after the update `"robot"` of a manager with the
limbs `"foot_0"` and `"foot_1"`, where no chain to `"foot_1"` can be derived,
`cartToJnt` for limb 1 returns what that limb's solver returns (code `0` and the seed),
not the not-ready result. -/
theorem underivable_limb_is_delegated :
    (exampleEnv false ⟨0, 1⟩).treeFromString "robot" = some 2 ∧
    (exampleEnv false ⟨0, 1⟩).getChain 2 "base_link" "foot_1" = none ∧
    ((Kinematics.new (exampleEnv false ⟨0, 1⟩) ["foot_0", "foot_1"]
        "base_link").robotDescriptionCallback (exampleEnv false ⟨0, 1⟩) "robot").bind
      (fun s' => s'.cartToJnt (exampleEnv false ⟨0, 1⟩) 1 [1 / 2] () [7])
      = .ok (0, [1 / 2]) ∧
    ((Kinematics.new (exampleEnv false ⟨0, 1⟩) ["foot_0", "foot_1"]
        "base_link").robotDescriptionCallback (exampleEnv false ⟨0, 1⟩) "robot").bind
      (fun s' => s'.cartToJnt (exampleEnv false ⟨0, 1⟩) 1 [1 / 2] () [7])
      ≠ .ok (-1, [7]) := by
  refine ⟨rfl, rfl, rfl, ?_⟩
  intro h
  have h2 : (Except.ok ((0 : Int), [(1 / 2 : ℚ)]) : Except Fault (Int × JntArray ℚ))
      = .ok (-1, [7]) := h
  simp only [Except.ok.injEq, Prod.mk.injEq] at h2
  exact absurd h2.1 (by decide)

/-- C7, amended: after a completed update of a reachable manager whose document parses
and in which no chain to limb `i`'s end link can be derived, the ready flag is set, the
chain slot of limb `i` holds the default-constructed chain, its limit list is empty, its
solver is the one built over that chain, and `cartToJnt` for limb `i` returns what that
solver returns. -/
theorem underivable_limb_gets_solver (env : Env Tree Model Frame α) (feet_links : List String)
    (base_link : String) (s s' : Kinematics Tree α) (msg : String) (tree : Tree) (i : Nat)
    (foot : String) (hs : Reachable env feet_links base_link s)
    (hparse : env.treeFromString msg = some tree) (hfoot : feet_links[i]? = some foot)
    (hnone : env.getChain tree base_link foot = none)
    (hok : s.robotDescriptionCallback env msg = .ok s') :
    s'.solvers_set_ = true ∧ s'.chains_[i]? = some ⟨[]⟩ ∧ s'.joint_limits_[i]? = some [] ∧
    s'.solvers_[i]? = some (solverFor ⟨[]⟩) ∧
    ∀ (q_init : JntArray α) (T_base_goal : Frame) (q_out : JntArray α),
      s'.cartToJnt env i q_init T_base_goal q_out
        = .ok (env.CartToJnt (solverFor ⟨[]⟩) q_init T_base_goal q_out) := by
  obtain ⟨hfeet, hbase, hinv⟩ := Reachable.invariant env feet_links base_link s hs
  rw [robotDescriptionCallback_parsed env s msg tree hparse hinv] at hok
  split at hok
  · exact absurd hok (by simp)
  · rename_i joint_limits hj
    simp only [Except.ok.injEq] at hok
    subst hok
    have hi : i < feet_links.length := by
      rcases Nat.lt_or_ge i feet_links.length with h | h
      · exact h
      · rw [List.getElem?_eq_none h] at hfoot; exact absurd hfoot (by simp)
    have hstored : env.storedChain tree base_link foot = ⟨[]⟩ := by
      simp only [Env.storedChain, hnone]
    have hchain : (s.feet_links_.map (env.storedChain tree s.base_link_))[i]?
        = some ⟨[]⟩ := by
      rw [List.getElem?_map, hfeet, hbase, hfoot, Option.map_some', hstored]
    obtain ⟨_, _, h3⟩ := jointLimitsLoop_spec env (env.parseURDF msg) _ _ _ _ _ hj
    obtain ⟨chain, limits, limits', e1, e2, e3, _, e5⟩ := h3 i (Nat.zero_le _)
      (by rw [hfeet]; omega)
    rw [hchain] at e1
    simp only [Option.some.injEq] at e1
    subst e1
    rw [List.getElem?_replicate] at e2
    split_ifs at e2
    simp only [Option.some.injEq] at e2
    subst e2
    have e3' : limits' = [] := by
      simpa [extractLimitsLoop, Chain.getNrOfSegments] using e3.symm
    subst e3'
    have hsolver : ((s.feet_links_.map (env.storedChain tree s.base_link_)).map
        (solverFor : Chain → ChainIkSolverPos_LMA α))[i]? = some (solverFor ⟨[]⟩) := by
      rw [List.getElem?_map, hchain, Option.map_some']
    refine ⟨rfl, hchain, e5, hsolver, ?_⟩
    intro q_init T_base_goal q_out
    simp only [Kinematics.cartToJnt, hsolver, Bool.not_true, Bool.false_eq_true, if_false]

/-- C7, amended, on the update `"robot"` of a manager with the limbs `"foot_0"` and
`"foot_1"`. -/
theorem underivable_limb_gets_solver_witness :
    ∃ s' : Kinematics Nat ℚ,
      (Kinematics.new (exampleEnv false ⟨0, 1⟩) ["foot_0", "foot_1"]
        "base_link").robotDescriptionCallback (exampleEnv false ⟨0, 1⟩) "robot" = .ok s' ∧
      s'.solvers_set_ = true ∧ s'.chains_[1]? = some ⟨[]⟩ ∧ s'.joint_limits_[1]? = some [] ∧
      s'.solvers_[1]? = some (solverFor ⟨[]⟩) ∧
      ∀ (q_init : JntArray ℚ) (T_base_goal : Unit) (q_out : JntArray ℚ),
        s'.cartToJnt (exampleEnv false ⟨0, 1⟩) 1 q_init T_base_goal q_out
          = .ok ((exampleEnv false ⟨0, 1⟩).CartToJnt (solverFor ⟨[]⟩) q_init T_base_goal
            q_out) :=
  ⟨_, rfl, underivable_limb_gets_solver (exampleEnv false ⟨0, 1⟩) ["foot_0", "foot_1"]
    "base_link" (Kinematics.new (exampleEnv false ⟨0, 1⟩) ["foot_0", "foot_1"] "base_link") _
    "robot" 2 1 "foot_1" Reachable.init rfl rfl rfl rfl⟩

/-- C8, as the claim states it, fails: with assertions compiled in, the update `"robot"`
of a manager with the limb `"foot_0"`, whose chain is derivable and whose movable joint
`"hip"` is declared with the limit `[1, 0]`, ends at the failed assertion of
`validate_limits`. -/
theorem inverted_limit_aborts :
    (exampleEnv false ⟨1, 0⟩).treeFromString "robot" = some 2 ∧
    (exampleEnv false ⟨1, 0⟩).getChain 2 "base_link" "foot_0"
      = some ⟨[⟨⟨"hip", JointType.RotZ⟩⟩, ⟨⟨"ankle", JointType.Fixed⟩⟩]⟩ ∧
    (exampleEnv false ⟨1, 0⟩).declaredLimits ((exampleEnv false ⟨1, 0⟩).parseURDF "robot")
      "hip" = some ⟨1, 0⟩ ∧
    (⟨1, 0⟩ : JointLimits ℚ).upper < (⟨1, 0⟩ : JointLimits ℚ).lower ∧
    (Kinematics.new (exampleEnv false ⟨1, 0⟩) ["foot_0"] "base_link").robotDescriptionCallback
      (exampleEnv false ⟨1, 0⟩) "robot" = .error Fault.assertionFailed :=
  ⟨rfl, rfl, rfl, by norm_num, rfl⟩

/-- C8, amended: an update of a reachable manager whose document parses and declares a
limit for every movable joint of every limb's chain, one of them with `upper < lower`,
ends at the failed assertion of `validate_limits` when assertions are compiled in; when
they are compiled out (`NDEBUG`), it completes with the limits stored as declared, one
solver per chain and the ready flag set. -/
theorem inverted_limit_trips_assertion (env : Env Tree Model Frame α)
    (feet_links : List String) (base_link : String) (s : Kinematics Tree α) (msg : String)
    (tree : Tree) (hs : Reachable env feet_links base_link s)
    (hparse : env.treeFromString msg = some tree)
    (hdecl : ∀ foot ∈ feet_links, ∀ segment ∈ (env.storedChain tree base_link foot).movable,
      ∃ l, env.declaredLimits (env.parseURDF msg) segment.getJoint.getName = some l)
    (hinverted : ∃ foot ∈ feet_links,
      ∃ segment ∈ (env.storedChain tree base_link foot).movable,
      ∃ l, env.declaredLimits (env.parseURDF msg) segment.getJoint.getName = some l ∧
        l.upper < l.lower) :
    (env.NDEBUG = false →
      s.robotDescriptionCallback env msg = .error Fault.assertionFailed) ∧
    (env.NDEBUG = true → ∃ s', s.robotDescriptionCallback env msg = .ok s' ∧
      s'.solvers_set_ = true ∧ s'.solvers_ = s'.chains_.map solverFor ∧
      s'.chains_ = feet_links.map (env.storedChain tree base_link) ∧
      ∀ (i : Nat) (foot : String), feet_links[i]? = some foot →
        ∃ limits, s'.joint_limits_[i]? = some limits ∧
          limits.map some = (env.storedChain tree base_link foot).movable.map
            (fun segment =>
              env.declaredLimits (env.parseURDF msg) segment.getJoint.getName)) := by
  obtain ⟨hfeet, hbase, hinv⟩ := Reachable.invariant env feet_links base_link s hs
  subst hfeet hbase
  obtain ⟨h1, h2, h3⟩ := robotDescriptionCallback_declared env s msg tree hparse hinv hdecl
  constructor
  · intro hnd
    rcases h1 with ⟨s', hs'⟩ | he
    · exfalso
      obtain ⟨foot, hfoot, segment, hseg, l, hl, hlt⟩ := hinverted
      obtain ⟨i, hi⟩ := List.getElem?_of_mem hfoot
      obtain ⟨_, _, _, _, _, _, _, hlim⟩ := h3 s' hs'
      obtain ⟨limits, _, e2, e3⟩ := hlim i foot hi
      rw [validate_limits_eq_ok, hnd] at e3
      rcases e3 with e3 | e3
      · exact absurd e3 (by simp)
      · have hmem : some l ∈ limits.map some := by
          rw [e2]
          exact List.mem_map.mpr ⟨segment, hseg, hl⟩
        obtain ⟨l', hl', heq⟩ := List.mem_map.mp hmem
        simp only [Option.some.injEq] at heq
        subst heq
        exact absurd (e3 l' hl') (not_le.mpr hlt)
    · exact he
  · intro hnd
    obtain ⟨s', hs'⟩ := h2 (Or.inl hnd)
    obtain ⟨_, _, _, e4, e5, e6, _, hlim⟩ := h3 s' hs'
    refine ⟨s', hs', e6, e5, e4, ?_⟩
    intro i foot hi
    obtain ⟨limits, e1, e2, _⟩ := hlim i foot hi
    exact ⟨limits, e1, e2⟩

/-- The limb `"foot_0"` of `exampleEnv` has the movable joint `"hip"` alone. -/
theorem exampleEnv_movable (NDEBUG : Bool) (hip : JointLimits ℚ) (foot : String)
    (hfoot : foot ∈ ["foot_0", "foot_1"]) (segment : Segment)
    (hseg : segment ∈ ((exampleEnv NDEBUG hip).storedChain 2 "base_link" foot).movable) :
    foot = "foot_0" ∧ segment = ⟨⟨"hip", JointType.RotZ⟩⟩ ∧
      (exampleEnv NDEBUG hip).declaredLimits ((exampleEnv NDEBUG hip).parseURDF "robot")
        segment.getJoint.getName = some hip := by
  simp only [List.mem_cons, List.mem_singleton, List.not_mem_nil, or_false] at hfoot
  rcases hfoot with rfl | rfl
  · have hm : ((exampleEnv NDEBUG hip).storedChain 2 "base_link" "foot_0").movable
        = [⟨⟨"hip", JointType.RotZ⟩⟩] := rfl
    rw [hm, List.mem_singleton] at hseg
    subst hseg
    exact ⟨rfl, rfl, rfl⟩
  · have hm : ((exampleEnv NDEBUG hip).storedChain 2 "base_link" "foot_1").movable = [] := rfl
    rw [hm] at hseg
    exact absurd hseg (List.not_mem_nil _)

/-- C8, amended, on the update `"robot"` with the limit `[1, 0]` declared for `"hip"`. -/
theorem inverted_limit_trips_assertion_witness :
    (Kinematics.new (exampleEnv false ⟨1, 0⟩) ["foot_0", "foot_1"]
      "base_link").robotDescriptionCallback (exampleEnv false ⟨1, 0⟩) "robot"
      = .error Fault.assertionFailed :=
  (inverted_limit_trips_assertion (exampleEnv false ⟨1, 0⟩) ["foot_0", "foot_1"] "base_link"
    (Kinematics.new (exampleEnv false ⟨1, 0⟩) ["foot_0", "foot_1"] "base_link") "robot" 2
    Reachable.init rfl
    (fun foot hfoot segment hseg =>
      ⟨⟨1, 0⟩, (exampleEnv_movable false ⟨1, 0⟩ foot hfoot segment hseg).2.2⟩)
    ⟨"foot_0", by simp, ⟨⟨"hip", JointType.RotZ⟩⟩, by decide, ⟨1, 0⟩, rfl,
      by norm_num⟩).1 rfl

/-- C9: after an update of a reachable manager whose document parses and declares, for
every movable joint of every limb's chain, a limit with `upper ≥ lower`, the manager
holds for every limb the chain just derived for it, and the stored limit list of the limb
is the sequence of the declared limits, looked up by joint name in that document, of the
movable joints of that chain, in chain order: it has as many entries as the chain has
movable joints, and its `k`-th entry is the declared limit of the `k`-th movable joint. -/
theorem joint_limits_aligned (env : Env Tree Model Frame α) (feet_links : List String)
    (base_link : String) (s : Kinematics Tree α) (msg : String) (tree : Tree)
    (hs : Reachable env feet_links base_link s)
    (hparse : env.treeFromString msg = some tree)
    (hdecl : ∀ foot ∈ feet_links, ∀ segment ∈ (env.storedChain tree base_link foot).movable,
      ∃ l, env.declaredLimits (env.parseURDF msg) segment.getJoint.getName = some l ∧
        l.upper ≥ l.lower) :
    ∃ s', s.robotDescriptionCallback env msg = .ok s' ∧
      s'.chains_.length = feet_links.length ∧ s'.joint_limits_.length = feet_links.length ∧
      ∀ (i : Nat) (foot : String), feet_links[i]? = some foot →
        ∃ limits, s'.chains_[i]? = some (env.storedChain tree base_link foot) ∧
          s'.joint_limits_[i]? = some limits ∧
          limits.map some = (env.storedChain tree base_link foot).movable.map
            (fun segment =>
              env.declaredLimits (env.parseURDF msg) segment.getJoint.getName) ∧
          limits.length = (env.storedChain tree base_link foot).movable.length ∧
          ∀ (k : Nat) (segment : Segment),
            (env.storedChain tree base_link foot).movable[k]? = some segment →
            ∃ l, limits[k]? = some l ∧
              env.declaredLimits (env.parseURDF msg) segment.getJoint.getName = some l := by
  obtain ⟨hfeet, hbase, hinv⟩ := Reachable.invariant env feet_links base_link s hs
  subst hfeet hbase
  obtain ⟨_, h2, h3⟩ := robotDescriptionCallback_declared env s msg tree hparse hinv
    (fun foot hfoot segment hseg => by
      obtain ⟨l, hl, _⟩ := hdecl foot hfoot segment hseg
      exact ⟨l, hl⟩)
  obtain ⟨s', hs'⟩ := h2 (Or.inr (fun foot hfoot segment hseg l hl => by
    obtain ⟨l', hl', hle⟩ := hdecl foot hfoot segment hseg
    rw [hl] at hl'
    simp only [Option.some.injEq] at hl'
    subst hl'
    exact hle))
  obtain ⟨_, _, _, e4, _, _, e7, hlim⟩ := h3 s' hs'
  refine ⟨s', hs', by rw [e4, List.length_map], e7, ?_⟩
  intro i foot hi
  obtain ⟨limits, e1, e2, _⟩ := hlim i foot hi
  have hlen : limits.length = (env.storedChain tree s.base_link_ foot).movable.length := by
    have := congrArg List.length e2
    simpa using this
  refine ⟨limits, by rw [e4, List.getElem?_map, hi, Option.map_some'], e1, e2, hlen, ?_⟩
  intro k segment hk
  have hget := congrArg (fun L => L[k]?) e2
  simp only [List.getElem?_map, hk, Option.map_some'] at hget
  cases hl : limits[k]? with
  | none => rw [hl] at hget; exact absurd hget (by simp)
  | some l =>
    rw [hl] at hget
    simp only [Option.map_some', Option.some.injEq] at hget
    exact ⟨l, rfl, hget.symm⟩

/-- C9 on the update `"robot"` of a manager with the limbs `"foot_0"` and `"foot_1"`. -/
theorem joint_limits_aligned_witness :
    ∃ s', (Kinematics.new (exampleEnv false ⟨0, 1⟩) ["foot_0", "foot_1"]
        "base_link").robotDescriptionCallback (exampleEnv false ⟨0, 1⟩) "robot" = .ok s' ∧
      s'.chains_.length = ["foot_0", "foot_1"].length ∧
      s'.joint_limits_.length = ["foot_0", "foot_1"].length ∧
      ∀ (i : Nat) (foot : String), ["foot_0", "foot_1"][i]? = some foot →
        ∃ limits,
          s'.chains_[i]? = some ((exampleEnv false ⟨0, 1⟩).storedChain 2 "base_link" foot) ∧
          s'.joint_limits_[i]? = some limits ∧
          limits.map some = ((exampleEnv false ⟨0, 1⟩).storedChain 2 "base_link"
            foot).movable.map (fun segment =>
              (exampleEnv false ⟨0, 1⟩).declaredLimits
                ((exampleEnv false ⟨0, 1⟩).parseURDF "robot") segment.getJoint.getName) ∧
          limits.length
            = ((exampleEnv false ⟨0, 1⟩).storedChain 2 "base_link" foot).movable.length ∧
          ∀ (k : Nat) (segment : Segment),
            ((exampleEnv false ⟨0, 1⟩).storedChain 2 "base_link" foot).movable[k]?
              = some segment →
            ∃ l, limits[k]? = some l ∧
              (exampleEnv false ⟨0, 1⟩).declaredLimits
                ((exampleEnv false ⟨0, 1⟩).parseURDF "robot") segment.getJoint.getName
                = some l :=
  joint_limits_aligned (exampleEnv false ⟨0, 1⟩) ["foot_0", "foot_1"] "base_link"
    (Kinematics.new (exampleEnv false ⟨0, 1⟩) ["foot_0", "foot_1"] "base_link") "robot" 2
    Reachable.init rfl
    (fun foot hfoot segment hseg =>
      ⟨⟨0, 1⟩, (exampleEnv_movable false ⟨0, 1⟩ foot hfoot segment hseg).2.2, by norm_num⟩)

/-! ## Folding and clamping -/

variable [FloorRing α]

/-- The subtracting loop completes, given fuel enough, when `M_PI` is positive. -/
theorem subtractWhileAbove_terminates (M_PI upper : α) (hP : 0 < M_PI) (q : α) :
    ∃ fuel r, subtractWhileAbove M_PI upper fuel q = some r := by
  have key : ∀ (n : ℕ) (q : α), q - n * (2 * M_PI) ≤ upper →
      ∃ r, subtractWhileAbove M_PI upper (n + 1) q = some r := by
    intro n
    induction n with
    | zero =>
      intro q h
      refine ⟨q, ?_⟩
      have : ¬ q > upper := by simpa using h
      simp [subtractWhileAbove, this]
    | succ n ih =>
      intro q h
      rw [subtractWhileAbove]
      split_ifs with hq
      · apply ih
        have : q - 2 * M_PI - ↑n * (2 * M_PI) = q - ((n + 1 : ℕ) : α) * (2 * M_PI) := by
          push_cast; ring
        rw [this]; exact h
      · exact ⟨q, rfl⟩
  obtain ⟨n, hn⟩ := exists_nat_ge ((q - upper) / (2 * M_PI))
  have h2 : (0 : α) < 2 * M_PI := by linarith
  refine ⟨n + 1, key n q ?_⟩
  rw [div_le_iff₀ h2] at hn
  linarith

/-- The adding loop completes, given fuel enough, when `M_PI` is positive. -/
theorem addWhileBelow_terminates (M_PI lower : α) (hP : 0 < M_PI) (q : α) :
    ∃ fuel r, addWhileBelow M_PI lower fuel q = some r := by
  have key : ∀ (n : ℕ) (q : α), lower ≤ q + n * (2 * M_PI) →
      ∃ r, addWhileBelow M_PI lower (n + 1) q = some r := by
    intro n
    induction n with
    | zero =>
      intro q h
      refine ⟨q, ?_⟩
      have : ¬ q < lower := by simpa using h
      simp [addWhileBelow, this]
    | succ n ih =>
      intro q h
      rw [addWhileBelow]
      split_ifs with hq
      · apply ih
        have : q + 2 * M_PI + ↑n * (2 * M_PI) = q + ((n + 1 : ℕ) : α) * (2 * M_PI) := by
          push_cast; ring
        rw [this]; exact h
      · exact ⟨q, rfl⟩
  obtain ⟨n, hn⟩ := exists_nat_ge ((lower - q) / (2 * M_PI))
  have h2 : (0 : α) < 2 * M_PI := by linarith
  refine ⟨n + 1, key n q ?_⟩
  rw [div_le_iff₀ h2] at hn
  linarith

/-- On a dividend in `[0, y)` the quotient truncates to zero. -/
theorem fmod_of_nonneg_of_lt {x y : α} (h0 : 0 ≤ x) (h1 : x < y) : fmod x y = x := by
  have hy : 0 < y := lt_of_le_of_lt h0 h1
  have hd : 0 ≤ x / y := div_nonneg h0 hy.le
  have hf : Int.floor (x / y) = 0 := by
    rw [Int.floor_eq_zero_iff]
    exact ⟨hd, (div_lt_one hy).mpr h1⟩
  simp [fmod, hd, hf]

/-- On a dividend in `(-y, 0]` the quotient truncates to zero. -/
theorem fmod_of_nonpos_of_gt {x y : α} (h0 : x ≤ 0) (h1 : -y < x) : fmod x y = x := by
  have hy : 0 < y := by linarith
  rcases eq_or_lt_of_le h0 with hx | hx
  · subst hx; simp [fmod]
  · have hd : ¬ 0 ≤ x / y := not_le.mpr (div_neg_of_neg_of_pos hx hy)
    have hc : Int.ceil (x / y) = 0 := by
      rw [Int.ceil_eq_zero_iff]
      refine ⟨?_, (div_neg_of_neg_of_pos hx hy).le⟩
      rw [lt_div_iff₀ hy]; linarith
    simp [fmod, hd, hc]

/-- The loop body, unfolded: the two loops complete, and the folded angle is either still
above `upper`, and then clamped, or kept. -/
theorem foldAndClampJoint_eq_some (M_PI : α) (fuel : Nat) (jl : JointLimits α) (qi : α)
    (c : Bool) (a : α) (b : Bool) :
    foldAndClampJoint M_PI fuel jl qi c = some (a, b) ↔
      ∃ q1 q2, subtractWhileAbove M_PI jl.upper fuel qi = some q1 ∧
        addWhileBelow M_PI jl.lower fuel q1 = some q2 ∧
        ((jl.upper < q2 ∧ b = true ∧
            a = if fmod (q2 - jl.upper) (2 * M_PI) > fmod (jl.lower - q2) (2 * M_PI)
                then jl.lower else jl.upper) ∨
          (¬ jl.upper < q2 ∧ b = c ∧ a = q2)) := by
  constructor
  · intro h
    unfold foldAndClampJoint at h
    split at h
    · exact absurd h (by simp)
    · rename_i q1 h1
      split at h
      · exact absurd h (by simp)
      · rename_i q2 h2
        refine ⟨q1, q2, h1, h2, ?_⟩
        split_ifs at h with hq
        · simp only [Option.some.injEq, Prod.mk.injEq] at h
          exact Or.inl ⟨hq, h.2.symm, h.1.symm⟩
        · simp only [Option.some.injEq, Prod.mk.injEq] at h
          exact Or.inr ⟨hq, h.2.symm, h.1.symm⟩
  · rintro ⟨q1, q2, h1, h2, h3⟩
    unfold foldAndClampJoint
    rw [h1]; dsimp only
    rw [h2]; dsimp only
    rcases h3 with ⟨hq, rfl, rfl⟩ | ⟨hq, rfl, rfl⟩
    · rw [if_pos hq]
    · rw [if_neg hq]

/-- The flag passed to the loop body only accumulates. -/
theorem foldAndClampJoint_flag (M_PI : α) (fuel : Nat) (jl : JointLimits α) (qi : α)
    (c : Bool) (a : α) (c' : Bool) (h : foldAndClampJoint M_PI fuel jl qi c = some (a, c')) :
    ∃ b, foldAndClampJoint M_PI fuel jl qi false = some (a, b) ∧ c' = (c || b) := by
  rw [foldAndClampJoint_eq_some] at h
  obtain ⟨q1, q2, h1, h2, h3⟩ := h
  rcases h3 with ⟨hq, rfl, ha⟩ | ⟨hq, rfl, ha⟩
  · refine ⟨true, ?_, by simp⟩
    rw [foldAndClampJoint_eq_some]
    exact ⟨q1, q2, h1, h2, Or.inl ⟨hq, rfl, ha⟩⟩
  · refine ⟨false, ?_, by simp⟩
    rw [foldAndClampJoint_eq_some]
    exact ⟨q1, q2, h1, h2, Or.inr ⟨hq, rfl, ha⟩⟩

/-- The loop body with any incoming flag, from the loop body with the flag unset. -/
theorem foldAndClampJoint_of_false (M_PI : α) (fuel : Nat) (jl : JointLimits α) (qi : α)
    (c : Bool) (a : α) (b : Bool) (h : foldAndClampJoint M_PI fuel jl qi false = some (a, b)) :
    foldAndClampJoint M_PI fuel jl qi c = some (a, c || b) := by
  rw [foldAndClampJoint_eq_some] at h ⊢
  obtain ⟨q1, q2, h1, h2, h3⟩ := h
  refine ⟨q1, q2, h1, h2, ?_⟩
  rcases h3 with ⟨hq, rfl, ha⟩ | ⟨hq, rfl, ha⟩
  · exact Or.inl ⟨hq, by simp, ha⟩
  · exact Or.inr ⟨hq, by simp, ha⟩

/-- More fuel does not change the result of a completed loop body. -/
theorem foldAndClampJoint_mono (M_PI : α) (fuel : Nat) (jl : JointLimits α) (qi : α)
    (c : Bool) (r : α × Bool) (h : foldAndClampJoint M_PI fuel jl qi c = some r)
    (fuel' : Nat) (hf : fuel ≤ fuel') : foldAndClampJoint M_PI fuel' jl qi c = some r := by
  obtain ⟨a, b⟩ := r
  rw [foldAndClampJoint_eq_some] at h ⊢
  obtain ⟨q1, q2, h1, h2, h3⟩ := h
  exact ⟨q1, q2, subtractWhileAbove_mono _ _ _ _ _ h1 _ hf, addWhileBelow_mono _ _ _ _ _ h2 _ hf, h3⟩

/-- The loop body completes, given fuel enough, when `M_PI` is positive. -/
theorem foldAndClampJoint_terminates (M_PI : α) (hP : 0 < M_PI) (jl : JointLimits α) (qi : α) :
    ∃ fuel r, foldAndClampJoint M_PI fuel jl qi false = some r := by
  obtain ⟨f1, q1, h1⟩ := subtractWhileAbove_terminates M_PI jl.upper hP qi
  obtain ⟨f2, q2, h2⟩ := addWhileBelow_terminates M_PI jl.lower hP q1
  have h1' := subtractWhileAbove_mono _ _ _ _ _ h1 (max f1 f2) (le_max_left _ _)
  have h2' := addWhileBelow_mono _ _ _ _ _ h2 (max f1 f2) (le_max_right _ _)
  by_cases hq : jl.upper < q2
  · refine ⟨max f1 f2, ((if fmod (q2 - jl.upper) (2 * M_PI) > fmod (jl.lower - q2) (2 * M_PI)
        then jl.lower else jl.upper), true), ?_⟩
    rw [foldAndClampJoint_eq_some]
    exact ⟨q1, q2, h1', h2', Or.inl ⟨hq, rfl, rfl⟩⟩
  · refine ⟨max f1 f2, (q2, false), ?_⟩
    rw [foldAndClampJoint_eq_some]
    exact ⟨q1, q2, h1', h2', Or.inr ⟨hq, rfl, rfl⟩⟩

/-- The angle a joint is left with lies within its limit, when the limit is
well-ordered. -/
theorem foldAndClampJoint_within (M_PI : α) (fuel : Nat) (jl : JointLimits α) (qi : α)
    (c : Bool) (a : α) (b : Bool) (hlim : jl.lower ≤ jl.upper)
    (h : foldAndClampJoint M_PI fuel jl qi c = some (a, b)) :
    jl.lower ≤ a ∧ a ≤ jl.upper := by
  rw [foldAndClampJoint_eq_some] at h
  obtain ⟨q1, q2, _, h2, h3⟩ := h
  have hlo := (addWhileBelow_spec _ _ _ _ _ h2).1
  rcases h3 with ⟨_, _, ha⟩ | ⟨hq, _, ha⟩
  · rw [ha]; split_ifs
    · exact ⟨le_refl _, hlim⟩
    · exact ⟨hlim, le_refl _⟩
  · rw [ha]; exact ⟨hlo, not_lt.mp hq⟩

/-- An angle already within the limit is left alone, with any positive fuel. -/
theorem foldAndClampJoint_fixed (M_PI : α) (fuel : Nat) (jl : JointLimits α) (a : α)
    (c : Bool) (h1 : jl.lower ≤ a) (h2 : a ≤ jl.upper) :
    foldAndClampJoint M_PI (fuel + 1) jl a c = some (a, c) := by
  rw [foldAndClampJoint_eq_some]
  refine ⟨a, a, ?_, ?_, Or.inr ⟨not_lt.mpr h2, rfl, rfl⟩⟩
  · simp [subtractWhileAbove, not_lt.mpr h2]
  · simp [addWhileBelow, not_lt.mpr h1]

omit [FloorRing α] in
/-- When the folded angle is still above the upper limit, it is less than one period
above it, and not below the lower limit. -/
theorem folded_above_bounds (M_PI : α) (fuel : Nat) (jl : JointLimits α) (qi q1 q2 : α)
    (hlim : jl.lower ≤ jl.upper)
    (h1 : subtractWhileAbove M_PI jl.upper fuel qi = some q1)
    (h2 : addWhileBelow M_PI jl.lower fuel q1 = some q2) (hq : jl.upper < q2) :
    0 < q2 - jl.upper ∧ q2 - jl.upper < 2 * M_PI ∧
      -(2 * M_PI) < jl.lower - q2 ∧ jl.lower - q2 ≤ 0 := by
  obtain ⟨hup, _⟩ := subtractWhileAbove_spec _ _ _ _ _ h1
  obtain ⟨hlo, k, hk, hk2⟩ := addWhileBelow_spec _ _ _ _ _ h2
  rcases hk2 with h0 | hlt
  · subst h0
    have : q2 = q1 := by simpa using hk
    rw [this] at hq
    exact absurd hup (not_le.mpr hq)
  · refine ⟨by linarith, by linarith, by linarith, by linarith⟩

/-- Within those bounds `upper_distance` exceeds `lower_distance`. -/
theorem clamp_distances (M_PI : α) (jl : JointLimits α) (q2 : α)
    (h : 0 < q2 - jl.upper ∧ q2 - jl.upper < 2 * M_PI ∧
      -(2 * M_PI) < jl.lower - q2 ∧ jl.lower - q2 ≤ 0) :
    fmod (q2 - jl.upper) (2 * M_PI) > fmod (jl.lower - q2) (2 * M_PI) := by
  obtain ⟨ha, hb, hc, hd⟩ := h
  rw [fmod_of_nonneg_of_lt ha.le hb, fmod_of_nonpos_of_gt hd hc]
  linarith

/-! ## The loop over the joints -/

/-- What a completed run of the loop over the joints leaves behind: entries outside
the range it visits are untouched, every visited entry holds the result of the loop
body on the entry it had, and the flag is raised exactly by a clamped joint. -/
theorem foldAndClampLoop_spec (self : Kinematics Tree α) (M_PI : α) (fuel leg_index : Nat) :
    ∀ (n i : Nat) (q : JntArray α) (c cOut : Bool) (qOut : JntArray α),
      self.foldAndClampLoop M_PI fuel leg_index n i q c = some (cOut, qOut) →
      qOut.length = q.length ∧
      (∀ j, (j < i ∨ i + n ≤ j) → qOut[j]? = q[j]?) ∧
      (∀ j, i ≤ j → j < i + n → ∃ limits jl qj a b,
          self.joint_limits_[leg_index]? = some limits ∧ limits[j]? = some jl ∧
          q[j]? = some qj ∧ foldAndClampJoint M_PI fuel jl qj false = some (a, b) ∧
          qOut[j]? = some a ∧ (b = true → cOut = true)) ∧
      (c = true → cOut = true) ∧
      (cOut = true → c = true ∨ ∃ j limits jl qj a, i ≤ j ∧ j < i + n ∧
          self.joint_limits_[leg_index]? = some limits ∧ limits[j]? = some jl ∧
          q[j]? = some qj ∧ foldAndClampJoint M_PI fuel jl qj false = some (a, true)) := by
  intro n
  induction n with
  | zero =>
    intro i q c cOut qOut h
    simp only [Kinematics.foldAndClampLoop, Option.some.injEq, Prod.mk.injEq] at h
    obtain ⟨rfl, rfl⟩ := h
    refine ⟨rfl, fun _ _ => rfl, ?_, id, Or.inl⟩
    intro j h1 h2; omega
  | succ n ih =>
    intro i q c cOut qOut h
    rw [Kinematics.foldAndClampLoop] at h
    split at h
    · exact absurd h (by simp)
    · rename_i limits hlimits
      split at h
      · rename_i jl qi hjl hqi
        split at h
        · exact absurd h (by simp)
        · rename_i qi' c' hjoint
          obtain ⟨b, hb, hc'⟩ := foldAndClampJoint_flag M_PI fuel jl qi c qi' c' hjoint
          obtain ⟨hlen, hout, hin, hflag, hflag'⟩ := ih (i + 1) (q.set i qi') c' cOut qOut h
          have hi : i < q.length := by
            rcases Nat.lt_or_ge i q.length with h | h
            · exact h
            · rw [List.getElem?_eq_none h] at hqi; exact absurd hqi (by simp)
          refine ⟨by rw [hlen, List.length_set], ?_, ?_, ?_, ?_⟩
          · intro j hj
            rw [hout j (by omega), List.getElem?_set_ne (by omega)]
          · intro j hj1 hj2
            rcases Nat.eq_or_lt_of_le hj1 with rfl | hlt
            · refine ⟨limits, jl, qi, qi', b, hlimits, hjl, hqi, hb, ?_, ?_⟩
              · rw [hout i (Or.inl (by omega)), List.getElem?_set_self hi]
              · intro hbt; apply hflag; rw [hc', hbt]; simp
            · obtain ⟨l2, jl2, qj, a, b2, e1, e2, e3, e4, e5, e6⟩ := hin j (by omega) (by omega)
              rw [List.getElem?_set_ne (by omega)] at e3
              exact ⟨l2, jl2, qj, a, b2, e1, e2, e3, e4, e5, e6⟩
          · intro hc; apply hflag; rw [hc', hc]; simp
          · intro hco
            rcases hflag' hco with hc1 | ⟨j, l2, jl2, qj, a, e0, e00, e1, e2, e3, e4⟩
            · rw [hc'] at hc1
              rcases Bool.or_eq_true_iff.mp hc1 with hc | hbt
              · exact Or.inl hc
              · subst hbt
                exact Or.inr ⟨i, limits, jl, qi, qi', le_refl _, by omega, hlimits, hjl, hqi, hb⟩
            · rw [List.getElem?_set_ne (by omega)] at e3
              exact Or.inr ⟨j, l2, jl2, qj, a, by omega, by omega, e1, e2, e3, e4⟩
      · exact absurd h (by simp)

/-- The loop over the joints completes when every access is within bounds and every
joint has fuel enough. -/
theorem foldAndClampLoop_returns (self : Kinematics Tree α) (M_PI : α) (fuel leg_index : Nat)
    (limits : List (JointLimits α)) (hlimits : self.joint_limits_[leg_index]? = some limits) :
    ∀ (n i : Nat) (q : JntArray α) (c : Bool), i + n ≤ q.length → q.length ≤ limits.length →
      (∀ (j : Nat) jl qj, i ≤ j → limits[j]? = some jl → q[j]? = some qj →
        ∃ r, foldAndClampJoint M_PI fuel jl qj false = some r) →
      ∃ out, self.foldAndClampLoop M_PI fuel leg_index n i q c = some out := by
  intro n
  induction n with
  | zero => intro i q c _ _ _; exact ⟨_, rfl⟩
  | succ n ih =>
    intro i q c h1 h2 h3
    have hi : i < q.length := by omega
    have hi2 : i < limits.length := by omega
    obtain ⟨⟨a, b⟩, hr⟩ := h3 i limits[i] q[i] (le_refl _) (List.getElem?_eq_getElem hi2)
      (List.getElem?_eq_getElem hi)
    have hr2 := foldAndClampJoint_of_false M_PI fuel limits[i] q[i] c a b hr
    rw [Kinematics.foldAndClampLoop, hlimits]
    simp only [List.getElem?_eq_getElem hi2, List.getElem?_eq_getElem hi, hr2]
    apply ih (i + 1) (q.set i a) (c || b)
    · rw [List.length_set]; omega
    · rw [List.length_set]; exact h2
    · intro j jl qj hij e1 e2
      rw [List.getElem?_set_ne (by omega)] at e2
      exact h3 j jl qj (by omega) e1 e2

/-- One amount of fuel serves every joint of a limb and every angle of a vector. -/
theorem exists_common_fuel (M_PI : α) (hP : 0 < M_PI) (limits : List (JointLimits α)) :
    ∀ q : JntArray α, ∃ F, ∀ fuel, F ≤ fuel → ∀ jl ∈ limits, ∀ qj ∈ q,
      ∃ r, foldAndClampJoint M_PI fuel jl qj false = some r := by
  have one : ∀ (limits : List (JointLimits α)) (qj : α), ∃ F, ∀ fuel, F ≤ fuel → ∀ jl ∈ limits,
      ∃ r, foldAndClampJoint M_PI fuel jl qj false = some r := by
    intro limits qj
    induction limits with
    | nil => exact ⟨0, fun _ _ jl hjl => absurd hjl (List.not_mem_nil jl)⟩
    | cons l rest ih =>
      obtain ⟨F, hF⟩ := ih
      obtain ⟨f, r, hr⟩ := foldAndClampJoint_terminates M_PI hP l qj
      refine ⟨max F f, fun fuel hfuel jl hjl => ?_⟩
      rcases List.mem_cons.mp hjl with rfl | hmem
      · exact ⟨r, foldAndClampJoint_mono M_PI f _ qj false r hr fuel (le_trans (le_max_right _ _) hfuel)⟩
      · exact hF fuel (le_trans (le_max_left _ _) hfuel) jl hmem
  intro q
  induction q with
  | nil => exact ⟨0, fun _ _ _ _ qj hqj => absurd hqj (List.not_mem_nil qj)⟩
  | cons a rest ih =>
    obtain ⟨F, hF⟩ := ih
    obtain ⟨f, hf⟩ := one limits a
    refine ⟨max F f, fun fuel hfuel jl hjl qj hqj => ?_⟩
    rcases List.mem_cons.mp hqj with rfl | hmem
    · exact hf fuel (le_trans (le_max_right _ _) hfuel) jl hjl
    · exact hF fuel (le_trans (le_max_left _ _) hfuel) jl hjl qj hmem

/-- With enough fuel, a call with no more angles than the limb has limits returns. -/
theorem foldAndClamp_returns (self : Kinematics Tree α) (M_PI : α) (leg_index : Nat)
    (limits : List (JointLimits α)) (q : JntArray α) (hP : 0 < M_PI)
    (hleg : self.joint_limits_[leg_index]? = some limits) (hlen : q.length ≤ limits.length) :
    ∃ F, ∀ fuel, F ≤ fuel →
      ∃ out, self.foldAndClampJointAnglesToLimits M_PI fuel leg_index q = some out := by
  obtain ⟨F, hF⟩ := exists_common_fuel M_PI hP limits q
  refine ⟨F, fun fuel hfuel => ?_⟩
  apply foldAndClampLoop_returns self M_PI fuel leg_index limits hleg q.length 0 q false
    (by omega) hlen
  intro j jl qj _ h1 h2
  exact hF fuel hfuel jl (List.getElem?_mem h1) qj (List.getElem?_mem h2)

/-- What a completed call leaves behind, joint by joint. -/
theorem foldAndClamp_spec (self : Kinematics Tree α) (M_PI : α) (fuel leg_index : Nat)
    (limits : List (JointLimits α)) (q : JntArray α) (c : Bool) (qOut : JntArray α)
    (hleg : self.joint_limits_[leg_index]? = some limits)
    (h : self.foldAndClampJointAnglesToLimits M_PI fuel leg_index q = some (c, qOut)) :
    qOut.length = q.length ∧
    (∀ (i : Nat) (qi : α), q[i]? = some qi → ∃ jl a b, limits[i]? = some jl ∧
        foldAndClampJoint M_PI fuel jl qi false = some (a, b) ∧ qOut[i]? = some a ∧
        (b = true → c = true)) ∧
    (c = true → ∃ (i : Nat) (jl : JointLimits α) (qi a : α), limits[i]? = some jl ∧ q[i]? = some qi ∧
        foldAndClampJoint M_PI fuel jl qi false = some (a, true)) := by
  obtain ⟨h1, _, h3, _, h5⟩ := foldAndClampLoop_spec self M_PI fuel leg_index q.length 0 q false c qOut h
  refine ⟨h1, ?_, ?_⟩
  · intro i qi hqi
    have hi : i < q.length := by
      rcases Nat.lt_or_ge i q.length with h | h
      · exact h
      · rw [List.getElem?_eq_none h] at hqi; exact absurd hqi (by simp)
    obtain ⟨l2, jl, qj, a, b, e1, e2, e3, e4, e5, e6⟩ := h3 i (Nat.zero_le _) (by omega)
    rw [hleg] at e1
    have e1' : limits = l2 := by simpa using e1
    subst e1'
    rw [hqi] at e3
    have e3' : qi = qj := by simpa using e3
    subst e3'
    exact ⟨jl, a, b, e2, e4, e5, e6⟩
  · intro hc
    rcases h5 hc with hf | ⟨j, l2, jl, qj, a, _, _, e1, e2, e3, e4⟩
    · exact absurd hf (by simp)
    · rw [hleg] at e1
      have e1' : limits = l2 := by simpa using e1
      subst e1'
      exact ⟨j, jl, qj, a, e2, e3, e4⟩

/-- A vector whose visited entries are all within their limits is returned as it is. -/
theorem foldAndClampLoop_fixed (self : Kinematics Tree α) (M_PI : α) (fuel leg_index : Nat)
    (limits : List (JointLimits α)) (hleg : self.joint_limits_[leg_index]? = some limits) :
    ∀ (n i : Nat) (q : JntArray α) (c : Bool),
      (∀ (j : Nat), i ≤ j → j < i + n → ∃ jl a, limits[j]? = some jl ∧ q[j]? = some a ∧
        jl.lower ≤ a ∧ a ≤ jl.upper) →
      self.foldAndClampLoop M_PI (fuel + 1) leg_index n i q c = some (c, q) := by
  intro n
  induction n with
  | zero => intro i q c _; rfl
  | succ n ih =>
    intro i q c h
    obtain ⟨jl, a, e1, e2, e3, e4⟩ := h i (le_refl _) (by omega)
    rw [Kinematics.foldAndClampLoop, hleg]
    simp only [e1, e2, foldAndClampJoint_fixed M_PI fuel jl a c e3 e4]
    have hset : q.set i a = q := by
      apply List.ext_getElem?
      intro k
      by_cases hk : i = k
      · subst hk
        rw [e2]
        have hi : i < q.length := by
          rcases Nat.lt_or_ge i q.length with h | h
          · exact h
          · rw [List.getElem?_eq_none h] at e2; exact absurd e2 (by simp)
        rw [List.getElem?_set_self hi]
      · rw [List.getElem?_set_ne hk]
    rw [hset]
    exact ih (i + 1) q c (fun j hj1 hj2 => h j (by omega) (by omega))

/-! ## Folding and clamping: the claims -/

/-- C1: for a limb whose limits all satisfy `lower ≤ upper` and an angle vector with no
more entries than the limb has limits, `foldAndClampJointAnglesToLimits` returns (with
enough fuel for its `while` loops), the vector it returns has the length of the input and
every returned angle lies within the limit of its joint. -/
theorem foldAndClamp_within_limits (self : Kinematics Tree α) (M_PI : α) (leg_index : Nat)
    (limits : List (JointLimits α)) (q : JntArray α) (hP : 0 < M_PI)
    (hleg : self.joint_limits_[leg_index]? = some limits)
    (hlim : ∀ jl ∈ limits, jl.lower ≤ jl.upper) (hlen : q.length ≤ limits.length) :
    (∃ F, ∀ fuel, F ≤ fuel →
      ∃ out, self.foldAndClampJointAnglesToLimits M_PI fuel leg_index q = some out) ∧
    ∀ (fuel : Nat) (c : Bool) (qOut : JntArray α),
      self.foldAndClampJointAnglesToLimits M_PI fuel leg_index q = some (c, qOut) →
      qOut.length = q.length ∧
      ∀ (i : Nat), i < q.length → ∃ jl a, limits[i]? = some jl ∧ qOut[i]? = some a ∧
        jl.lower ≤ a ∧ a ≤ jl.upper := by
  refine ⟨foldAndClamp_returns self M_PI leg_index limits q hP hleg hlen, ?_⟩
  intro fuel c qOut h
  obtain ⟨h1, h2, _⟩ := foldAndClamp_spec self M_PI fuel leg_index limits q c qOut hleg h
  refine ⟨h1, fun i hi => ?_⟩
  obtain ⟨jl, a, b, e1, e2, e3, _⟩ := h2 i q[i] (List.getElem?_eq_getElem hi)
  exact ⟨jl, a, e1, e3,
    foldAndClampJoint_within M_PI fuel jl q[i] false a b (hlim jl (List.getElem?_mem e1)) e2⟩

/-- C1 on the limits `[0, 1]`, `[-1, 1]` and the angles `3/2`, `7`. -/
theorem foldAndClamp_within_limits_witness :
    (∃ F, ∀ fuel, F ≤ fuel → ∃ out, (Kinematics.ofLimits [[⟨0, 1⟩, ⟨-1, 1⟩]]).foldAndClampJointAnglesToLimits
      M_PI_double fuel 0 [3 / 2, 7] = some out) ∧
    ∀ (fuel : Nat) (c : Bool) (qOut : JntArray ℚ),
      (Kinematics.ofLimits [[⟨0, 1⟩, ⟨-1, 1⟩]]).foldAndClampJointAnglesToLimits
        M_PI_double fuel 0 [3 / 2, 7] = some (c, qOut) →
      qOut.length = [(3 / 2 : ℚ), 7].length ∧
      ∀ (i : Nat), i < [(3 / 2 : ℚ), 7].length → ∃ jl a,
        [(⟨0, 1⟩ : JointLimits ℚ), ⟨-1, 1⟩][i]? = some jl ∧ qOut[i]? = some a ∧
        jl.lower ≤ a ∧ a ≤ jl.upper :=
  foldAndClamp_within_limits (Kinematics.ofLimits [[⟨0, 1⟩, ⟨-1, 1⟩]]) M_PI_double 0
    [⟨0, 1⟩, ⟨-1, 1⟩] [3 / 2, 7] (by norm_num [M_PI_double]) rfl
    (by intro jl hjl; simp at hjl; rcases hjl with rfl | rfl <;> norm_num) (by simp)

/-- A vector of one angle is folded and clamped by the loop body alone. -/
theorem foldAndClamp_singleton (self : Kinematics Tree α) (M_PI : α) (fuel leg_index : Nat)
    (jl : JointLimits α) (qi a : α) (b : Bool)
    (hleg : self.joint_limits_[leg_index]? = some [jl])
    (h : foldAndClampJoint M_PI fuel jl qi false = some (a, b)) :
    self.foldAndClampJointAnglesToLimits M_PI fuel leg_index [qi] = some (b, [a]) := by
  unfold Kinematics.foldAndClampJointAnglesToLimits
  rw [List.length_singleton, Kinematics.foldAndClampLoop, hleg]
  simp only [List.getElem?_cons_zero, h, List.set_cons_zero]
  rfl

/-- The loop body on the limit `[0, 1]` and the angle `1.5`. -/
theorem foldAndClampJoint_clamp_example (n : Nat) :
    foldAndClampJoint Real.pi (n + 2) ⟨0, 1⟩ 1.5 false = some (0, true) := by
  have hpi := Real.pi_gt_three
  have h1 : (1.5 : ℝ) > 1 := by norm_num
  have h2 : ¬ ((1.5 - 2 * Real.pi : ℝ) > 1) := by norm_num; linarith
  have h3 : (1.5 - 2 * Real.pi : ℝ) < 0 := by norm_num; linarith
  have h4 : ¬ ((1.5 - 2 * Real.pi + 2 * Real.pi : ℝ) < 0) := by norm_num
  have e1 : subtractWhileAbove Real.pi (1 : ℝ) (n + 2) 1.5 = some (1.5 - 2 * Real.pi) := by
    rw [subtractWhileAbove, if_pos h1, subtractWhileAbove, if_neg h2]
  have e2 : addWhileBelow Real.pi (0 : ℝ) (n + 2) (1.5 - 2 * Real.pi)
      = some (1.5 - 2 * Real.pi + 2 * Real.pi) := by
    rw [addWhileBelow, if_pos h3, addWhileBelow, if_neg h4]
  have hq : (1 : ℝ) < 1.5 - 2 * Real.pi + 2 * Real.pi := by norm_num
  have hd := clamp_distances Real.pi ⟨0, 1⟩ (1.5 - 2 * Real.pi + 2 * Real.pi)
    (folded_above_bounds Real.pi (n + 2) ⟨0, 1⟩ 1.5 _ _ (by norm_num) e1 e2 hq)
  rw [foldAndClampJoint_eq_some]
  exact ⟨_, _, e1, e2, Or.inl ⟨hq, rfl, by rw [if_pos hd]⟩⟩

/-- C2, the code at the scenario of the specification: on the limit `[0, 1]` the angle
`1.5` is clamped to the lower limit `0`, not to the nearer upper limit `1`. -/
theorem foldAndClamp_scenario_clamps_to_lower :
    ∀ n : Nat, (Kinematics.ofLimits [[⟨0, 1⟩]] : Kinematics Unit ℝ).foldAndClampJointAnglesToLimits
      Real.pi (n + 2) 0 [1.5] = some (true, [0]) := by
  intro n
  exact foldAndClamp_singleton _ Real.pi (n + 2) 0 _ _ _ _ rfl (foldAndClampJoint_clamp_example n)

/-- C4: for a limb whose limits all satisfy `lower ≤ upper` and an angle vector with no
more entries than the limb has limits, the call returns (with enough fuel), and the call
on the vector it returned returns that same vector, with the flag `false`. -/
theorem foldAndClamp_idempotent (self : Kinematics Tree α) (M_PI : α) (leg_index : Nat)
    (limits : List (JointLimits α)) (q : JntArray α) (hP : 0 < M_PI)
    (hleg : self.joint_limits_[leg_index]? = some limits)
    (hlim : ∀ jl ∈ limits, jl.lower ≤ jl.upper) (hlen : q.length ≤ limits.length) :
    (∃ F, ∀ fuel, F ≤ fuel →
      ∃ out, self.foldAndClampJointAnglesToLimits M_PI fuel leg_index q = some out) ∧
    ∀ (fuel : Nat) (c : Bool) (qOut : JntArray α),
      self.foldAndClampJointAnglesToLimits M_PI fuel leg_index q = some (c, qOut) →
      ∀ fuel' : Nat,
        self.foldAndClampJointAnglesToLimits M_PI (fuel' + 1) leg_index qOut
          = some (false, qOut) := by
  refine ⟨foldAndClamp_returns self M_PI leg_index limits q hP hleg hlen, ?_⟩
  intro fuel c qOut h fuel'
  obtain ⟨h1, h2, _⟩ := foldAndClamp_spec self M_PI fuel leg_index limits q c qOut hleg h
  apply foldAndClampLoop_fixed self M_PI fuel' leg_index limits hleg
  intro j _ hj
  have hj' : j < q.length := by omega
  obtain ⟨jl, a, b, e1, e2, e3, _⟩ := h2 j q[j] (List.getElem?_eq_getElem hj')
  have hw := foldAndClampJoint_within M_PI fuel jl q[j] false a b
    (hlim jl (List.getElem?_mem e1)) e2
  exact ⟨jl, a, e1, e3, hw.1, hw.2⟩

/-- C4 on the limits `[0, 1]`, `[-1, 1]` and the angles `3/2`, `7`. -/
theorem foldAndClamp_idempotent_witness :
    (∃ F, ∀ fuel, F ≤ fuel → ∃ out,
      (Kinematics.ofLimits [[⟨0, 1⟩, ⟨-1, 1⟩]]).foldAndClampJointAnglesToLimits M_PI_double
        fuel 0 [3 / 2, 7] = some out) ∧
    ∀ (fuel : Nat) (c : Bool) (qOut : JntArray ℚ),
      (Kinematics.ofLimits [[⟨0, 1⟩, ⟨-1, 1⟩]]).foldAndClampJointAnglesToLimits M_PI_double
        fuel 0 [3 / 2, 7] = some (c, qOut) →
      ∀ fuel' : Nat,
        (Kinematics.ofLimits [[⟨0, 1⟩, ⟨-1, 1⟩]]).foldAndClampJointAnglesToLimits M_PI_double
          (fuel' + 1) 0 qOut = some (false, qOut) :=
  foldAndClamp_idempotent (Kinematics.ofLimits [[⟨0, 1⟩, ⟨-1, 1⟩]]) M_PI_double 0
    [⟨0, 1⟩, ⟨-1, 1⟩] [3 / 2, 7] (by norm_num [M_PI_double]) rfl
    (by intro jl hjl; simp at hjl; rcases hjl with rfl | rfl <;> norm_num) (by simp)

/-! ## Rounding -/

/-- A rational within half a unit of an integer rounds to it. -/
theorem roundHalfEven_of_near (s : ℚ) (m : ℤ) (h : |s - m| < 1 / 2) : roundHalfEven s = m := by
  rw [abs_lt] at h
  unfold roundHalfEven
  by_cases hs : (m : ℚ) ≤ s
  · have hf : Int.floor s = m := by
      rw [Int.floor_eq_iff]; exact ⟨hs, by linarith [h.2]⟩
    simp only [hf]
    rw [if_pos (by linarith [h.2])]
  · have hs' : s < m := not_le.mp hs
    have hf : Int.floor s = m - 1 := by
      rw [Int.floor_eq_iff]; push_cast; exact ⟨by linarith [h.1], by linarith⟩
    simp only [hf]
    push_cast
    rw [if_neg (by linarith [h.1]), if_pos (by linarith [h.1])]
    ring

/-- A rational halfway between two integers rounds to the even one. -/
theorem roundHalfEven_of_tie (s : ℚ) (m : ℤ) (h : |s - m| = 1 / 2) (hm : m % 2 = 0) :
    roundHalfEven s = m := by
  unfold roundHalfEven
  rcases abs_eq (by norm_num : (0 : ℚ) ≤ 1 / 2) |>.mp h with h1 | h1
  · have hs : s = m + 1 / 2 := by linarith
    have hf : Int.floor s = m := by
      rw [Int.floor_eq_iff]; exact ⟨by linarith, by linarith⟩
    simp only [hf]
    rw [if_neg (by linarith), if_neg (by linarith), if_pos hm]
  · have hs : s = m - 1 / 2 := by linarith
    have hf : Int.floor s = m - 1 := by
      rw [Int.floor_eq_iff]; push_cast; exact ⟨by linarith, by linarith⟩
    simp only [hf]
    push_cast
    rw [if_neg (by linarith), if_neg (by linarith), if_neg (by omega)]
    ring

/-- An integer rounds to itself. -/
theorem roundHalfEven_intCast (m : ℤ) : roundHalfEven (m : ℚ) = m :=
  roundHalfEven_of_near _ m (by simp)

/-- Rounding to an integer keeps the sign. -/
theorem roundHalfEven_sign (s : ℚ) :
    (0 ≤ s → 0 ≤ roundHalfEven s) ∧ (s ≤ 0 → roundHalfEven s ≤ 0) := by
  have hfl : (Int.floor s : ℚ) ≤ s := Int.floor_le s
  have hlt : s < Int.floor s + 1 := Int.lt_floor_add_one s
  constructor
  · intro h
    have hf : 0 ≤ Int.floor s := Int.floor_nonneg.mpr h
    unfold roundHalfEven
    simp only
    split_ifs <;> omega
  · intro h
    unfold roundHalfEven
    simp only
    by_cases hz : s = Int.floor s
    · have hf : Int.floor s ≤ 0 := by
        have : (Int.floor s : ℚ) ≤ 0 := by linarith
        exact_mod_cast this
      rw [if_pos (by rw [← hz] at *; linarith)]
      exact hf
    · have hf : Int.floor s < 0 := by
        have h1 : (Int.floor s : ℚ) < s := lt_of_le_of_ne hfl (fun h => hz h.symm)
        have : (Int.floor s : ℚ) < 0 := by linarith
        exact_mod_cast this
      split_ifs <;> omega

/-- Rounding keeps the sign. -/
theorem roundNearestEven_sign (p : ℕ) (emin : ℤ) (x : ℚ) :
    (0 ≤ x → 0 ≤ roundNearestEven p emin x) ∧ (x ≤ 0 → roundNearestEven p emin x ≤ 0) := by
  unfold roundNearestEven
  by_cases hx : x = 0
  · simp [hx]
  · rw [if_neg hx]
    simp only
    have hpos : (0 : ℚ) < 2 ^ (max (Int.log 2 |x|) emin - ((p : ℤ) - 1)) := by positivity
    obtain ⟨h1, h2⟩ := roundHalfEven_sign (x / 2 ^ (max (Int.log 2 |x|) emin - ((p : ℤ) - 1)))
    constructor
    · intro h
      have : (0 : ℚ) ≤ roundHalfEven (x / 2 ^ (max (Int.log 2 |x|) emin - ((p : ℤ) - 1))) := by
        exact_mod_cast h1 (div_nonneg h hpos.le)
      exact mul_nonneg this hpos.le
    · intro h
      have : (roundHalfEven (x / 2 ^ (max (Int.log 2 |x|) emin - ((p : ℤ) - 1))) : ℚ) ≤ 0 := by
        exact_mod_cast h2 (div_nonpos_of_nonpos_of_nonneg h hpos.le)
      exact mul_nonpos_of_nonpos_of_nonneg this hpos.le

/-- Rounding, from the binade of `x` and an integer within half a unit in the last place
of `x` (or exactly half a unit away, and even). -/
theorem roundNearestEven_eq (p : ℕ) (emin : ℤ) (x : ℚ) (L m : ℤ) (hx : x ≠ 0)
    (hL1 : (2 : ℚ) ^ L ≤ |x|) (hL2 : |x| < (2 : ℚ) ^ (L + 1))
    (hm : |x / 2 ^ (max L emin - ((p : ℤ) - 1)) - m| < 1 / 2 ∨
      (|x / 2 ^ (max L emin - ((p : ℤ) - 1)) - m| = 1 / 2 ∧ m % 2 = 0)) :
    roundNearestEven p emin x = m * 2 ^ (max L emin - ((p : ℤ) - 1)) := by
  have hpos : 0 < |x| := abs_pos.mpr hx
  have hlog : Int.log 2 |x| = L := by
    apply le_antisymm
    · have := (Int.lt_zpow_iff_log_lt (by norm_num : 1 < 2) hpos).mp (by exact_mod_cast hL2)
      omega
    · exact (Int.zpow_le_iff_le_log (by norm_num : 1 < 2) hpos).mp (by exact_mod_cast hL1)
  unfold roundNearestEven
  rw [if_neg hx]
  simp only [hlog]
  rcases hm with h | ⟨h, he⟩
  · rw [roundHalfEven_of_near _ m h]
  · rw [roundHalfEven_of_tie _ m h he]

/-- A multiple `m * 2 ^ e` with `|m| < 2 ^ p` and `e` not below the least unit in the
last place is a fixed point of the rounding. -/
theorem roundNearestEven_of_representable (p : ℕ) (emin : ℤ) (x : ℚ) (m e : ℤ)
    (hx : x = m * 2 ^ e) (hm : |m| < 2 ^ p) (he : emin - ((p : ℤ) - 1) ≤ e) :
    roundNearestEven p emin x = x := by
  unfold roundNearestEven
  by_cases h0 : x = 0
  · rw [if_pos h0, h0]
  · rw [if_neg h0]
    simp only
    have hpos : 0 < |x| := abs_pos.mpr h0
    have hlt : |x| < (2 : ℚ) ^ ((p : ℤ) + e) := by
      rw [hx, abs_mul, abs_of_pos (by positivity : (0 : ℚ) < 2 ^ e), zpow_add₀ (by norm_num)]
      apply mul_lt_mul_of_pos_right _ (by positivity)
      have : ((|m| : ℤ) : ℚ) < ((2 ^ p : ℤ) : ℚ) := by exact_mod_cast hm
      simpa using this
    have hlog : Int.log 2 |x| < (p : ℤ) + e :=
      (Int.lt_zpow_iff_log_lt (by norm_num : 1 < 2) hpos).mp (by exact_mod_cast hlt)
    have hE : max (Int.log 2 |x|) emin - ((p : ℤ) - 1) ≤ e := by
      rcases max_cases (Int.log 2 |x|) emin with ⟨h, _⟩ | ⟨h, _⟩ <;> rw [h] <;> omega
    generalize max (Int.log 2 |x|) emin - ((p : ℤ) - 1) = E at hE ⊢
    obtain ⟨d, hd⟩ : ∃ d : ℕ, e = E + d := ⟨(e - E).toNat, by omega⟩
    have hs : x / 2 ^ E = ((m * 2 ^ d : ℤ) : ℚ) := by
      rw [div_eq_iff (by positivity), hx, hd, zpow_add₀ (by norm_num)]
      push_cast
      rw [zpow_natCast]
      ring
    rw [hs, roundHalfEven_intCast, ← hs]
    exact div_mul_cancel₀ _ (by positivity)

/-- A `double` that is `m * 2 ^ e` with `|m| < 2 ^ 53`, `-1074 ≤ e` is left alone. -/
theorem toDouble_of_representable (x : ℚ) (m e : ℤ) (hx : x = m * 2 ^ e)
    (hm : |m| < 2 ^ 53) (he : -1074 ≤ e) (hfin : |x| < 2 ^ 1024) : toDouble x = some x := by
  unfold toDouble
  simp only
  rw [roundNearestEven_of_representable 53 (-1022) x m e hx hm (by norm_num; omega), if_pos hfin]

/-- A `float` that is `m * 2 ^ e` with `|m| < 2 ^ 24`, `-149 ≤ e` is left alone. -/
theorem toFloat_of_representable (x : ℚ) (m e : ℤ) (hx : x = m * 2 ^ e)
    (hm : |m| < 2 ^ 24) (he : -149 ≤ e) (hfin : |x| < 2 ^ 128) : toFloat x = some x := by
  unfold toFloat
  simp only
  rw [roundNearestEven_of_representable 24 (-126) x m e hx hm (by norm_num; omega), if_pos hfin]

/-- A magnitude below half the least positive `float` narrows to zero. -/
theorem toFloat_of_tiny (x : ℚ) (hx : |x| < 1 / 2 ^ 150) : toFloat x = some 0 := by
  unfold toFloat
  simp only
  have hr : roundNearestEven 24 (-126) x = 0 := by
    by_cases h0 : x = 0
    · simp [roundNearestEven, h0]
    · have hpos : 0 < |x| := abs_pos.mpr h0
      have hlog : Int.log 2 |x| < -150 := by
        apply (Int.lt_zpow_iff_log_lt (by norm_num : 1 < 2) hpos).mp
        have : ((2 : ℕ) : ℚ) ^ (-150 : ℤ) = 1 / 2 ^ 150 := by norm_num [zpow_neg]
        rw [this]; exact hx
      unfold roundNearestEven
      rw [if_neg h0]
      simp only
      have hmax : max (Int.log 2 |x|) (-126) = -126 := max_eq_right (by omega)
      rw [hmax]
      have hnear : |x / 2 ^ ((-126 : ℤ) - (((24 : ℕ) : ℤ) - 1)) - ((0 : ℤ) : ℚ)| < 1 / 2 := by
        have e1 : (2 : ℚ) ^ ((-126 : ℤ) - (((24 : ℕ) : ℤ) - 1)) = 1 / 2 ^ 149 := by
          norm_num [zpow_neg]
        rw [e1, Int.cast_zero, sub_zero, abs_div, abs_of_pos (by positivity : (0 : ℚ) < 1 / 2 ^ 149)]
        rw [div_lt_iff₀ (by positivity)]
        calc |x| < 1 / 2 ^ 150 := hx
          _ = 1 / 2 * (1 / 2 ^ 149) := by norm_num
      rw [roundHalfEven_of_near _ 0 hnear]
      simp
  rw [hr]
  simp

/-! ## Folding and clamping in the arithmetic of the source -/

/-- The `fmod` of a positive divisor keeps the sign of the dividend. -/
theorem fmod_sign {α : Type} [LinearOrderedField α] [FloorRing α] (x y : α) (hy : 0 < y) :
    (0 ≤ x → 0 ≤ fmod x y) ∧ (x ≤ 0 → fmod x y ≤ 0) := by
  constructor
  · intro hx
    have hd : 0 ≤ x / y := div_nonneg hx hy.le
    unfold fmod
    rw [if_pos hd]
    have h1 : ((Int.floor (x / y) : ℤ) : α) ≤ x / y := Int.floor_le _
    have h2 : y * ((Int.floor (x / y) : ℤ) : α) ≤ y * (x / y) :=
      mul_le_mul_of_nonneg_left h1 hy.le
    rw [mul_div_cancel₀ _ hy.ne'] at h2
    linarith
  · intro hx
    unfold fmod
    by_cases hd : 0 ≤ x / y
    · have hx0 : x = 0 := by
        have : 0 ≤ x := by
          have := mul_nonneg hd hy.le
          rwa [div_mul_cancel₀ _ hy.ne'] at this
        exact le_antisymm hx this
      subst hx0
      simp
    · rw [if_neg hd]
      have h1 : x / y ≤ ((Int.ceil (x / y) : ℤ) : α) := Int.le_ceil _
      have h2 : y * (x / y) ≤ y * ((Int.ceil (x / y) : ℤ) : α) :=
        mul_le_mul_of_nonneg_left h1 hy.le
      rw [mul_div_cancel₀ _ hy.ne'] at h2
      linarith

/-- Conversion to `double` keeps the sign. -/
theorem toDouble_sign (x r : ℚ) (h : toDouble x = some r) :
    (0 ≤ x → 0 ≤ r) ∧ (x ≤ 0 → r ≤ 0) := by
  unfold toDouble at h
  simp only at h
  split_ifs at h
  simp only [Option.some.injEq] at h
  rw [← h]
  exact roundNearestEven_sign 53 (-1022) x

/-- Narrowing to `float` keeps the sign. -/
theorem toFloat_sign (x r : ℚ) (h : toFloat x = some r) :
    (0 ≤ x → 0 ≤ r) ∧ (x ≤ 0 → r ≤ 0) := by
  unfold toFloat at h
  simp only at h
  split_ifs at h
  simp only [Option.some.injEq] at h
  rw [← h]
  exact roundNearestEven_sign 24 (-126) x

/-- A narrowed distance has the sign of the difference it is computed from. -/
theorem narrowedDistance_sign (M_PI d u : ℚ) (hP : 0 < M_PI)
    (h : narrowedDistance M_PI d = some u) : (0 ≤ d → 0 ≤ u) ∧ (d ≤ 0 → u ≤ 0) := by
  unfold narrowedDistance at h
  split at h
  · exact absurd h (by simp)
  · rename_i x hx
    have h1 := toDouble_sign d x hx
    have h2 := fmod_sign x (2 * M_PI) (by linarith)
    have h3 := toFloat_sign _ u h
    exact ⟨fun hd => h3.1 (h2.1 (h1.1 hd)), fun hd => h3.2 (h2.2 (h1.2 hd))⟩

/-- A completed subtracting loop ends at or below `upper`. -/
theorem subtractWhileAboveDouble_le (M_PI upper : ℚ) :
    ∀ (fuel : Nat) (q r : ℚ), subtractWhileAboveDouble M_PI upper fuel q = some r →
      r ≤ upper ∧ (r = q ∨ upper < q) := by
  intro fuel
  induction fuel with
  | zero => intro q r h; simp [subtractWhileAboveDouble] at h
  | succ n ih =>
    intro q r h
    rw [subtractWhileAboveDouble] at h
    split_ifs at h with hq
    · split at h
      · exact absurd h (by simp)
      · exact ⟨(ih _ _ h).1, Or.inr hq⟩
    · simp only [Option.some.injEq] at h
      subst h
      exact ⟨not_lt.mp hq, Or.inl rfl⟩

/-- A completed adding loop ends at or above `lower`, and where it started if it did not
run. -/
theorem addWhileBelowDouble_ge (M_PI lower : ℚ) :
    ∀ (fuel : Nat) (q r : ℚ), addWhileBelowDouble M_PI lower fuel q = some r →
      lower ≤ r ∧ (r = q ∨ q < lower) := by
  intro fuel
  induction fuel with
  | zero => intro q r h; simp [addWhileBelowDouble] at h
  | succ n ih =>
    intro q r h
    rw [addWhileBelowDouble] at h
    split_ifs at h with hq
    · split at h
      · exact absurd h (by simp)
      · exact ⟨(ih _ _ h).1, Or.inr hq⟩
    · simp only [Option.some.injEq] at h
      subst h
      exact ⟨not_lt.mp hq, Or.inl rfl⟩

/-- More fuel does not change the result of a completed subtracting loop. -/
theorem subtractWhileAboveDouble_mono (M_PI upper : ℚ) :
    ∀ (fuel : Nat) (q r : ℚ), subtractWhileAboveDouble M_PI upper fuel q = some r →
      ∀ fuel', fuel ≤ fuel' → subtractWhileAboveDouble M_PI upper fuel' q = some r := by
  intro fuel
  induction fuel with
  | zero => intro q r h; simp [subtractWhileAboveDouble] at h
  | succ n ih =>
    intro q r h fuel' hf
    obtain ⟨m, rfl⟩ : ∃ m, fuel' = m + 1 := ⟨fuel' - 1, by omega⟩
    rw [subtractWhileAboveDouble] at h ⊢
    split_ifs at h ⊢ with hq
    · cases hd : toDouble (q - 2 * M_PI) with
      | none => rw [hd] at h; exact absurd h (by simp)
      | some q' =>
        rw [hd] at h
        exact ih _ _ h m (by omega)
    · exact h

/-- More fuel does not change the result of a completed adding loop. -/
theorem addWhileBelowDouble_mono (M_PI lower : ℚ) :
    ∀ (fuel : Nat) (q r : ℚ), addWhileBelowDouble M_PI lower fuel q = some r →
      ∀ fuel', fuel ≤ fuel' → addWhileBelowDouble M_PI lower fuel' q = some r := by
  intro fuel
  induction fuel with
  | zero => intro q r h; simp [addWhileBelowDouble] at h
  | succ n ih =>
    intro q r h fuel' hf
    obtain ⟨m, rfl⟩ : ∃ m, fuel' = m + 1 := ⟨fuel' - 1, by omega⟩
    rw [addWhileBelowDouble] at h ⊢
    split_ifs at h ⊢ with hq
    · cases hd : toDouble (q + 2 * M_PI) with
      | none => rw [hd] at h; exact absurd h (by simp)
      | some q' =>
        rw [hd] at h
        exact ih _ _ h m (by omega)
    · exact h

/-- The loop body in the arithmetic of the source, unfolded: the two loops complete, and
the folded angle is either still above `upper`, and then clamped, or kept. -/
theorem foldAndClampJointDouble_eq_some (M_PI : ℚ) (fuel : Nat) (jl : JointLimits ℚ) (qi : ℚ)
    (c : Bool) (a : ℚ) (b : Bool) :
    foldAndClampJointDouble M_PI fuel jl qi c = some (a, b) ↔
      ∃ q1 q2, subtractWhileAboveDouble M_PI jl.upper fuel qi = some q1 ∧
        addWhileBelowDouble M_PI jl.lower fuel q1 = some q2 ∧
        ((jl.upper < q2 ∧ b = true ∧
            a = if floatGt (narrowedDistance M_PI (q2 - jl.upper))
                  (narrowedDistance M_PI (jl.lower - q2)) = true
                then jl.lower else jl.upper) ∨
          (¬ jl.upper < q2 ∧ b = c ∧ a = q2)) := by
  constructor
  · intro h
    unfold foldAndClampJointDouble at h
    split at h
    · exact absurd h (by simp)
    · rename_i q1 h1
      split at h
      · exact absurd h (by simp)
      · rename_i q2 h2
        refine ⟨q1, q2, h1, h2, ?_⟩
        split_ifs at h with hq
        · simp only [Option.some.injEq, Prod.mk.injEq] at h
          exact Or.inl ⟨hq, h.2.symm, h.1.symm⟩
        · simp only [Option.some.injEq, Prod.mk.injEq] at h
          exact Or.inr ⟨hq, h.2.symm, h.1.symm⟩
  · rintro ⟨q1, q2, h1, h2, h3⟩
    unfold foldAndClampJointDouble
    rw [h1]; dsimp only
    rw [h2]; dsimp only
    rcases h3 with ⟨hq, rfl, rfl⟩ | ⟨hq, rfl, rfl⟩
    · rw [if_pos hq]
    · rw [if_neg hq]

/-- The flag passed to the loop body only accumulates. -/
theorem foldAndClampJointDouble_flag (M_PI : ℚ) (fuel : Nat) (jl : JointLimits ℚ) (qi : ℚ)
    (c : Bool) (a : ℚ) (c' : Bool)
    (h : foldAndClampJointDouble M_PI fuel jl qi c = some (a, c')) :
    ∃ b, foldAndClampJointDouble M_PI fuel jl qi false = some (a, b) ∧ c' = (c || b) := by
  rw [foldAndClampJointDouble_eq_some] at h
  obtain ⟨q1, q2, h1, h2, h3⟩ := h
  rcases h3 with ⟨hq, rfl, ha⟩ | ⟨hq, rfl, ha⟩
  · refine ⟨true, ?_, by simp⟩
    rw [foldAndClampJointDouble_eq_some]
    exact ⟨q1, q2, h1, h2, Or.inl ⟨hq, rfl, ha⟩⟩
  · refine ⟨false, ?_, by simp⟩
    rw [foldAndClampJointDouble_eq_some]
    exact ⟨q1, q2, h1, h2, Or.inr ⟨hq, rfl, ha⟩⟩

/-- The loop body with any incoming flag, from the loop body with the flag unset. -/
theorem foldAndClampJointDouble_of_false (M_PI : ℚ) (fuel : Nat) (jl : JointLimits ℚ)
    (qi : ℚ) (c : Bool) (a : ℚ) (b : Bool)
    (h : foldAndClampJointDouble M_PI fuel jl qi false = some (a, b)) :
    foldAndClampJointDouble M_PI fuel jl qi c = some (a, c || b) := by
  rw [foldAndClampJointDouble_eq_some] at h ⊢
  obtain ⟨q1, q2, h1, h2, h3⟩ := h
  refine ⟨q1, q2, h1, h2, ?_⟩
  rcases h3 with ⟨hq, rfl, ha⟩ | ⟨hq, rfl, ha⟩
  · exact Or.inl ⟨hq, by simp, ha⟩
  · exact Or.inr ⟨hq, by simp, ha⟩

/-- More fuel does not change the result of a completed loop body. -/
theorem foldAndClampJointDouble_mono (M_PI : ℚ) (fuel : Nat) (jl : JointLimits ℚ) (qi : ℚ)
    (c : Bool) (r : ℚ × Bool) (h : foldAndClampJointDouble M_PI fuel jl qi c = some r)
    (fuel' : Nat) (hf : fuel ≤ fuel') :
    foldAndClampJointDouble M_PI fuel' jl qi c = some r := by
  obtain ⟨a, b⟩ := r
  rw [foldAndClampJointDouble_eq_some] at h ⊢
  obtain ⟨q1, q2, h1, h2, h3⟩ := h
  exact ⟨q1, q2, subtractWhileAboveDouble_mono _ _ _ _ _ h1 _ hf,
    addWhileBelowDouble_mono _ _ _ _ _ h2 _ hf, h3⟩

/-- What a completed run of the loop over the joints leaves behind, in the arithmetic of
the source. -/
theorem foldAndClampLoopDouble_spec (self : Kinematics Tree ℚ) (M_PI : ℚ)
    (fuel leg_index : Nat) :
    ∀ (n i : Nat) (q : JntArray ℚ) (c cOut : Bool) (qOut : JntArray ℚ),
      self.foldAndClampLoopDouble M_PI fuel leg_index n i q c = some (cOut, qOut) →
      qOut.length = q.length ∧
      (∀ j, (j < i ∨ i + n ≤ j) → qOut[j]? = q[j]?) ∧
      (∀ j, i ≤ j → j < i + n → ∃ limits jl qj a b,
          self.joint_limits_[leg_index]? = some limits ∧ limits[j]? = some jl ∧
          q[j]? = some qj ∧ foldAndClampJointDouble M_PI fuel jl qj false = some (a, b) ∧
          qOut[j]? = some a ∧ (b = true → cOut = true)) ∧
      (c = true → cOut = true) ∧
      (cOut = true → c = true ∨ ∃ j limits jl qj a, i ≤ j ∧ j < i + n ∧
          self.joint_limits_[leg_index]? = some limits ∧ limits[j]? = some jl ∧
          q[j]? = some qj ∧ foldAndClampJointDouble M_PI fuel jl qj false = some (a, true)) := by
  intro n
  induction n with
  | zero =>
    intro i q c cOut qOut h
    simp only [Kinematics.foldAndClampLoopDouble, Option.some.injEq, Prod.mk.injEq] at h
    obtain ⟨rfl, rfl⟩ := h
    refine ⟨rfl, fun _ _ => rfl, ?_, id, Or.inl⟩
    intro j h1 h2; omega
  | succ n ih =>
    intro i q c cOut qOut h
    rw [Kinematics.foldAndClampLoopDouble] at h
    split at h
    · exact absurd h (by simp)
    · rename_i limits hlimits
      split at h
      · rename_i jl qi hjl hqi
        split at h
        · exact absurd h (by simp)
        · rename_i qi' c' hjoint
          obtain ⟨b, hb, hc'⟩ := foldAndClampJointDouble_flag M_PI fuel jl qi c qi' c' hjoint
          obtain ⟨hlen, hout, hin, hflag, hflag'⟩ := ih (i + 1) (q.set i qi') c' cOut qOut h
          have hi : i < q.length := by
            rcases Nat.lt_or_ge i q.length with h | h
            · exact h
            · rw [List.getElem?_eq_none h] at hqi; exact absurd hqi (by simp)
          refine ⟨by rw [hlen, List.length_set], ?_, ?_, ?_, ?_⟩
          · intro j hj
            rw [hout j (by omega), List.getElem?_set_ne (by omega)]
          · intro j hj1 hj2
            rcases Nat.eq_or_lt_of_le hj1 with rfl | hlt
            · refine ⟨limits, jl, qi, qi', b, hlimits, hjl, hqi, hb, ?_, ?_⟩
              · rw [hout i (Or.inl (by omega)), List.getElem?_set_self hi]
              · intro hbt; apply hflag; rw [hc', hbt]; simp
            · obtain ⟨l2, jl2, qj, a, b2, e1, e2, e3, e4, e5, e6⟩ := hin j (by omega) (by omega)
              rw [List.getElem?_set_ne (by omega)] at e3
              exact ⟨l2, jl2, qj, a, b2, e1, e2, e3, e4, e5, e6⟩
          · intro hc; apply hflag; rw [hc', hc]; simp
          · intro hco
            rcases hflag' hco with hc1 | ⟨j, l2, jl2, qj, a, e0, e00, e1, e2, e3, e4⟩
            · rw [hc'] at hc1
              rcases Bool.or_eq_true_iff.mp hc1 with hc | hbt
              · exact Or.inl hc
              · subst hbt
                exact Or.inr ⟨i, limits, jl, qi, qi', le_refl _, by omega, hlimits, hjl, hqi, hb⟩
            · rw [List.getElem?_set_ne (by omega)] at e3
              exact Or.inr ⟨j, l2, jl2, qj, a, by omega, by omega, e1, e2, e3, e4⟩
      · exact absurd h (by simp)

/-- What a completed call leaves behind, joint by joint, in the arithmetic of the
source. -/
theorem foldAndClampDouble_spec (self : Kinematics Tree ℚ) (M_PI : ℚ) (fuel leg_index : Nat)
    (limits : List (JointLimits ℚ)) (q : JntArray ℚ) (c : Bool) (qOut : JntArray ℚ)
    (hleg : self.joint_limits_[leg_index]? = some limits)
    (h : self.foldAndClampJointAnglesToLimitsDouble M_PI fuel leg_index q = some (c, qOut)) :
    qOut.length = q.length ∧
    (∀ (i : Nat) (qi : ℚ), q[i]? = some qi → ∃ jl a b, limits[i]? = some jl ∧
        foldAndClampJointDouble M_PI fuel jl qi false = some (a, b) ∧ qOut[i]? = some a ∧
        (b = true → c = true)) ∧
    (c = true → ∃ (i : Nat) (jl : JointLimits ℚ) (qi a : ℚ), limits[i]? = some jl ∧
        q[i]? = some qi ∧ foldAndClampJointDouble M_PI fuel jl qi false = some (a, true)) := by
  obtain ⟨h1, _, h3, _, h5⟩ :=
    foldAndClampLoopDouble_spec self M_PI fuel leg_index q.length 0 q false c qOut h
  refine ⟨h1, ?_, ?_⟩
  · intro i qi hqi
    have hi : i < q.length := by
      rcases Nat.lt_or_ge i q.length with h | h
      · exact h
      · rw [List.getElem?_eq_none h] at hqi; exact absurd hqi (by simp)
    obtain ⟨l2, jl, qj, a, b, e1, e2, e3, e4, e5, e6⟩ := h3 i (Nat.zero_le _) (by omega)
    rw [hleg] at e1
    have e1' : limits = l2 := by simpa using e1
    subst e1'
    rw [hqi] at e3
    have e3' : qi = qj := by simpa using e3
    subst e3'
    exact ⟨jl, a, b, e2, e4, e5, e6⟩
  · intro hc
    rcases h5 hc with hf | ⟨j, l2, jl, qj, a, _, _, e1, e2, e3, e4⟩
    · exact absurd hf (by simp)
    · rw [hleg] at e1
      have e1' : limits = l2 := by simpa using e1
      subst e1'
      exact ⟨j, jl, qj, a, e2, e3, e4⟩

/-- A vector of one angle is folded and clamped by the loop body alone. -/
theorem foldAndClampDouble_singleton (self : Kinematics Tree ℚ) (M_PI : ℚ)
    (fuel leg_index : Nat) (jl : JointLimits ℚ) (qi : ℚ)
    (hleg : self.joint_limits_[leg_index]? = some [jl]) :
    self.foldAndClampJointAnglesToLimitsDouble M_PI fuel leg_index [qi] =
      (foldAndClampJointDouble M_PI fuel jl qi false).map (fun r => (r.2, [r.1])) := by
  unfold Kinematics.foldAndClampJointAnglesToLimitsDouble
  rw [List.length_singleton, Kinematics.foldAndClampLoopDouble, hleg]
  simp only [List.getElem?_cons_zero]
  cases foldAndClampJointDouble M_PI fuel jl qi false with
  | none => rfl
  | some r => rfl

/-- A difference that is a `float` of magnitude below `2*M_PI` is its own narrowed
distance. -/
theorem narrowedDistance_of_representable (M_PI d : ℚ) (m e : ℤ) (hd : d = m * 2 ^ e)
    (hm : |m| < 2 ^ 24) (he : -149 ≤ e) (hlt : |d| < 2 * M_PI) (hfin : |d| < 2 ^ 128) :
    narrowedDistance M_PI d = some d := by
  have h1 : toDouble d = some d :=
    toDouble_of_representable d m e hd (lt_trans hm (by norm_num)) (by omega)
      (lt_trans hfin (by norm_num))
  have h2 : fmod d (2 * M_PI) = d := by
    rw [abs_lt] at hlt
    rcases le_total 0 d with h | h
    · exact fmod_of_nonneg_of_lt h hlt.2
    · exact fmod_of_nonpos_of_gt h hlt.1
  unfold narrowedDistance
  rw [h1]
  simp only [h2]
  exact toFloat_of_representable d m e hd hm he hfin

/-- A difference that is a `double` of magnitude below half the least positive `float`
has the narrowed distance zero. -/
theorem narrowedDistance_of_tiny (M_PI d : ℚ) (m e : ℤ) (hd : d = m * 2 ^ e)
    (hm : |m| < 2 ^ 53) (he : -1074 ≤ e) (hlt : |d| < 1 / 2 ^ 150) (hlt2 : |d| < 2 * M_PI) :
    narrowedDistance M_PI d = some 0 := by
  have h1 : toDouble d = some d :=
    toDouble_of_representable d m e hd hm he (lt_trans hlt (by norm_num))
  have h2 : fmod d (2 * M_PI) = d := by
    rw [abs_lt] at hlt2
    rcases le_total 0 d with h | h
    · exact fmod_of_nonneg_of_lt h hlt2.2
    · exact fmod_of_nonpos_of_gt h hlt2.1
  unfold narrowedDistance
  rw [h1]
  simp only [h2]
  exact toFloat_of_tiny d hlt

/-- Conversion to `double`, from the binade of `x` and the nearest multiple of its unit in
the last place. -/
theorem toDouble_eq (x r : ℚ) (L m E : ℤ) (hx : x ≠ 0) (hL1 : (2 : ℚ) ^ L ≤ |x|)
    (hL2 : |x| < (2 : ℚ) ^ (L + 1)) (hE : E = max L (-1022) - 52) (hr : r = m * 2 ^ E)
    (hm : |x / 2 ^ E - m| < 1 / 2 ∨ (|x / 2 ^ E - m| = 1 / 2 ∧ m % 2 = 0))
    (hfin : |r| < 2 ^ 1024) : toDouble x = some r := by
  have h := roundNearestEven_eq 53 (-1022) x L m hx hL1 hL2
    (by rw [hE] at hm; exact_mod_cast hm)
  unfold toDouble
  simp only
  rw [h]
  have hr' : (m : ℚ) * 2 ^ (max L (-1022) - (((53 : ℕ) : ℤ) - 1)) = r := by
    rw [hr, hE]; norm_num
  rw [hr', if_pos hfin]

/-- Narrowing to `float`, from the binade of `x` and the nearest multiple of its unit in
the last place. -/
theorem toFloat_eq (x r : ℚ) (L m E : ℤ) (hx : x ≠ 0) (hL1 : (2 : ℚ) ^ L ≤ |x|)
    (hL2 : |x| < (2 : ℚ) ^ (L + 1)) (hE : E = max L (-126) - 23) (hr : r = m * 2 ^ E)
    (hm : |x / 2 ^ E - m| < 1 / 2 ∨ (|x / 2 ^ E - m| = 1 / 2 ∧ m % 2 = 0))
    (hfin : |r| < 2 ^ 128) : toFloat x = some r := by
  have h := roundNearestEven_eq 24 (-126) x L m hx hL1 hL2
    (by rw [hE] at hm; exact_mod_cast hm)
  unfold toFloat
  simp only
  rw [h]
  have hr' : (m : ℚ) * 2 ^ (max L (-126) - (((24 : ℕ) : ℤ) - 1)) = r := by
    rw [hr, hE]; norm_num
  rw [hr', if_pos hfin]

/-- Subtracting `2*M_PI` from `10^17` in `double` arithmetic gives `10^17` again. -/
theorem toDouble_absorbs : toDouble (10 ^ 17 - 2 * M_PI_double) = some (10 ^ 17) := by
  have hP : (2 : ℚ) * M_PI_double = 884279719003555 / 2 ^ 47 := by norm_num [M_PI_double]
  rw [hP]
  apply toDouble_eq _ _ 56 6250000000000000 4
  · norm_num
  · rw [abs_of_pos (by norm_num)]; norm_num
  · rw [abs_of_pos (by norm_num)]; norm_num
  · norm_num
  · norm_num
  · left
    rw [abs_lt]
    constructor <;> norm_num
  · rw [abs_of_pos (by norm_num)]; norm_num

/-- The subtracting loop never leaves `10^17` when `upper` is below it. -/
theorem subtractWhileAboveDouble_stuck (upper : ℚ) (hu : upper < 10 ^ 17) :
    ∀ fuel : Nat, subtractWhileAboveDouble M_PI_double upper fuel (10 ^ 17) = none := by
  intro fuel
  induction fuel with
  | zero => rfl
  | succ n ih =>
    rw [subtractWhileAboveDouble, if_pos hu, toDouble_absorbs]
    exact ih

/-- The subtracting loop with updates that are not rounded: it stops at the first value
`q - n * (2*M_PI)` that is not above `upper`. -/
theorem subtractWhileAboveDouble_exact (M_PI upper : ℚ) :
    ∀ (m : ℕ) (q : ℚ), q - m * (2 * M_PI) ≤ upper →
      (∀ j : ℕ, 1 ≤ j → j ≤ m →
        toDouble (q - j * (2 * M_PI)) = some (q - j * (2 * M_PI))) →
      ∃ n : ℕ, n ≤ m ∧ q - n * (2 * M_PI) ≤ upper ∧
        ∀ fuel, n < fuel →
          subtractWhileAboveDouble M_PI upper fuel q = some (q - n * (2 * M_PI)) := by
  intro m
  induction m with
  | zero =>
    intro q h _
    refine ⟨0, le_refl _, h, ?_⟩
    intro fuel hf
    obtain ⟨f, rfl⟩ : ∃ f, fuel = f + 1 := ⟨fuel - 1, by omega⟩
    have hq : ¬ q > upper := by simpa using h
    rw [subtractWhileAboveDouble, if_neg hq]
    simp
  | succ m ih =>
    intro q h hex
    by_cases hq : q > upper
    · have h1 : toDouble (q - 2 * M_PI) = some (q - 2 * M_PI) := by
        have := hex 1 (le_refl _) (by omega)
        simpa using this
      obtain ⟨n, hn, hle, hrun⟩ := ih (q - 2 * M_PI)
        (by have e : q - 2 * M_PI - (m : ℚ) * (2 * M_PI) = q - ((m + 1 : ℕ) : ℚ) * (2 * M_PI) := by
              push_cast; ring
            rw [e]; exact h)
        (by intro j hj1 hj2
            have := hex (j + 1) (by omega) (by omega)
            have e : q - 2 * M_PI - (j : ℚ) * (2 * M_PI) = q - ((j + 1 : ℕ) : ℚ) * (2 * M_PI) := by
              push_cast; ring
            rw [e]; exact this)
      have e : q - 2 * M_PI - (n : ℚ) * (2 * M_PI) = q - ((n + 1 : ℕ) : ℚ) * (2 * M_PI) := by
        push_cast; ring
      refine ⟨n + 1, by omega, by rw [← e]; exact hle, ?_⟩
      intro fuel hf
      obtain ⟨f, rfl⟩ : ∃ f, fuel = f + 1 := ⟨fuel - 1, by omega⟩
      rw [subtractWhileAboveDouble, if_pos hq, h1]
      simp only
      rw [hrun f (by omega), e]
    · refine ⟨0, Nat.zero_le _, by simpa using hq, ?_⟩
      intro fuel hf
      obtain ⟨f, rfl⟩ : ∃ f, fuel = f + 1 := ⟨fuel - 1, by omega⟩
      rw [subtractWhileAboveDouble, if_neg hq]
      simp

/-- The adding loop with updates that are not rounded: it stops at the first value
`q + n * (2*M_PI)` that is not below `lower`. -/
theorem addWhileBelowDouble_exact (M_PI lower : ℚ) :
    ∀ (m : ℕ) (q : ℚ), lower ≤ q + m * (2 * M_PI) →
      (∀ j : ℕ, 1 ≤ j → j ≤ m →
        toDouble (q + j * (2 * M_PI)) = some (q + j * (2 * M_PI))) →
      ∃ n : ℕ, n ≤ m ∧ lower ≤ q + n * (2 * M_PI) ∧
        ∀ fuel, n < fuel →
          addWhileBelowDouble M_PI lower fuel q = some (q + n * (2 * M_PI)) := by
  intro m
  induction m with
  | zero =>
    intro q h _
    refine ⟨0, le_refl _, h, ?_⟩
    intro fuel hf
    obtain ⟨f, rfl⟩ : ∃ f, fuel = f + 1 := ⟨fuel - 1, by omega⟩
    have hq : ¬ q < lower := by simpa using h
    rw [addWhileBelowDouble, if_neg hq]
    simp
  | succ m ih =>
    intro q h hex
    by_cases hq : q < lower
    · have h1 : toDouble (q + 2 * M_PI) = some (q + 2 * M_PI) := by
        have := hex 1 (le_refl _) (by omega)
        simpa using this
      obtain ⟨n, hn, hle, hrun⟩ := ih (q + 2 * M_PI)
        (by have e : q + 2 * M_PI + (m : ℚ) * (2 * M_PI) = q + ((m + 1 : ℕ) : ℚ) * (2 * M_PI) := by
              push_cast; ring
            rw [e]; exact h)
        (by intro j hj1 hj2
            have := hex (j + 1) (by omega) (by omega)
            have e : q + 2 * M_PI + (j : ℚ) * (2 * M_PI) = q + ((j + 1 : ℕ) : ℚ) * (2 * M_PI) := by
              push_cast; ring
            rw [e]; exact this)
      have e : q + 2 * M_PI + (n : ℚ) * (2 * M_PI) = q + ((n + 1 : ℕ) : ℚ) * (2 * M_PI) := by
        push_cast; ring
      refine ⟨n + 1, by omega, by rw [← e]; exact hle, ?_⟩
      intro fuel hf
      obtain ⟨f, rfl⟩ : ∃ f, fuel = f + 1 := ⟨fuel - 1, by omega⟩
      rw [addWhileBelowDouble, if_pos hq, h1]
      simp only
      rw [hrun f (by omega), e]
    · refine ⟨0, Nat.zero_le _, by simpa using hq, ?_⟩
      intro fuel hf
      obtain ⟨f, rfl⟩ : ∃ f, fuel = f + 1 := ⟨fuel - 1, by omega⟩
      rw [addWhileBelowDouble, if_neg hq]
      simp

/-- The loop body on an angle that has a representative within the limit which the
updates reach without rounding: with enough fuel it returns a representative within the
limit and leaves the flag as it was. -/
theorem foldAndClampJointDouble_exact (M_PI : ℚ) (hP : 0 < M_PI) (jl : JointLimits ℚ)
    (a : ℚ) (k : ℤ) (hk1 : jl.lower ≤ a + k * (2 * M_PI))
    (hk2 : a + k * (2 * M_PI) ≤ jl.upper) (hex : UpdatesExact M_PI a k) :
    ∃ (F : ℕ) (k' : ℤ), jl.lower ≤ a + k' * (2 * M_PI) ∧ a + k' * (2 * M_PI) ≤ jl.upper ∧
      ∀ fuel, F ≤ fuel → ∀ c,
        foldAndClampJointDouble M_PI fuel jl a c = some (a + k' * (2 * M_PI), c) := by
  have h2P : (0 : ℚ) < 2 * M_PI := by linarith
  by_cases hhi : a > jl.upper
  · -- the subtracting loop runs
    have hkneg : k < 0 := by
      by_contra hk
      have hk0 : (0 : ℚ) ≤ (k : ℚ) := by exact_mod_cast (not_lt.mp hk)
      have := mul_nonneg hk0 h2P.le
      linarith
    obtain ⟨m, hm⟩ : ∃ m : ℕ, k = -(m : ℤ) := ⟨(-k).toNat, by omega⟩
    have hkm : (k : ℚ) = -(m : ℚ) := by rw [hm]; push_cast; rfl
    obtain ⟨n, hn, hle, hrun⟩ := subtractWhileAboveDouble_exact M_PI jl.upper m a
      (by rw [hkm] at hk2; linarith)
      (by intro j hj1 hj2
          have := hex (-(j : ℤ)) (by rw [hm]; simp; omega) (by simp)
          have e : a + ((-(j : ℤ) : ℤ) : ℚ) * (2 * M_PI) = a - (j : ℚ) * (2 * M_PI) := by
            push_cast; ring
          rw [e] at this; exact this)
    have hlo : jl.lower ≤ a - (n : ℚ) * (2 * M_PI) := by
      have hnm : (n : ℚ) ≤ (m : ℚ) := by exact_mod_cast hn
      have := mul_le_mul_of_nonneg_right hnm h2P.le
      rw [hkm] at hk1
      linarith
    have e : a - (n : ℚ) * (2 * M_PI) = a + ((-(n : ℤ) : ℤ) : ℚ) * (2 * M_PI) := by
      push_cast; ring
    refine ⟨n + 1, -(n : ℤ), by rw [← e]; exact hlo, by rw [← e]; exact hle, ?_⟩
    intro fuel hf c
    obtain ⟨f, rfl⟩ : ∃ f, fuel = f + 1 := ⟨fuel - 1, by omega⟩
    rw [foldAndClampJointDouble_eq_some]
    refine ⟨a - (n : ℚ) * (2 * M_PI), a - (n : ℚ) * (2 * M_PI), hrun (f + 1) (by omega), ?_,
      Or.inr ⟨not_lt.mpr hle, rfl, e.symm⟩⟩
    rw [addWhileBelowDouble, if_neg (not_lt.mpr hlo)]
  · have hhi' : a ≤ jl.upper := not_lt.mp hhi
    by_cases hlo : a < jl.lower
    · -- the adding loop runs
      have hkpos : 0 < k := by
        by_contra hk
        have hk0 : (k : ℚ) ≤ 0 := by exact_mod_cast (not_lt.mp hk)
        have := mul_nonpos_of_nonpos_of_nonneg hk0 h2P.le
        linarith
      obtain ⟨m, hm⟩ : ∃ m : ℕ, k = (m : ℤ) := ⟨k.toNat, by omega⟩
      have hkm : (k : ℚ) = (m : ℚ) := by rw [hm]; push_cast; rfl
      obtain ⟨n, hn, hge, hrun⟩ := addWhileBelowDouble_exact M_PI jl.lower m a
        (by rw [hkm] at hk1; exact hk1)
        (by intro j hj1 hj2
            have := hex (j : ℤ) (by simp) (by rw [hm]; simp; omega)
            have e : a + (((j : ℤ) : ℤ) : ℚ) * (2 * M_PI) = a + (j : ℚ) * (2 * M_PI) := by
              push_cast; ring
            rw [e] at this; exact this)
      have hup : a + (n : ℚ) * (2 * M_PI) ≤ jl.upper := by
        have hnm : (n : ℚ) ≤ (m : ℚ) := by exact_mod_cast hn
        have := mul_le_mul_of_nonneg_right hnm h2P.le
        rw [hkm] at hk2
        linarith
      have e : a + (n : ℚ) * (2 * M_PI) = a + (((n : ℤ) : ℤ) : ℚ) * (2 * M_PI) := by
        push_cast; ring
      refine ⟨n + 1, (n : ℤ), by rw [← e]; exact hge, by rw [← e]; exact hup, ?_⟩
      intro fuel hf c
      obtain ⟨f, rfl⟩ : ∃ f, fuel = f + 1 := ⟨fuel - 1, by omega⟩
      rw [foldAndClampJointDouble_eq_some]
      refine ⟨a, a + (n : ℚ) * (2 * M_PI), ?_, hrun (f + 1) (by omega),
        Or.inr ⟨not_lt.mpr hup, rfl, e.symm⟩⟩
      rw [subtractWhileAboveDouble, if_neg hhi]
    · -- the angle is within the limit already
      have hlo' : jl.lower ≤ a := not_lt.mp hlo
      refine ⟨1, 0, by simpa using hlo', by simpa using hhi', ?_⟩
      intro fuel hf c
      obtain ⟨f, rfl⟩ : ∃ f, fuel = f + 1 := ⟨fuel - 1, by omega⟩
      rw [foldAndClampJointDouble_eq_some]
      refine ⟨a, a, ?_, ?_, Or.inr ⟨hhi, rfl, by simp⟩⟩
      · rw [subtractWhileAboveDouble, if_neg hhi]
      · rw [addWhileBelowDouble, if_neg hlo]

/-- The loop over the joints completes, in the arithmetic of the source, when every
access is within bounds and every joint's loop body returns. -/
theorem foldAndClampLoopDouble_returns (self : Kinematics Tree ℚ) (M_PI : ℚ)
    (fuel leg_index : Nat) (limits : List (JointLimits ℚ))
    (hlimits : self.joint_limits_[leg_index]? = some limits) :
    ∀ (n i : Nat) (q : JntArray ℚ) (c : Bool), i + n ≤ q.length → q.length ≤ limits.length →
      (∀ (j : Nat) jl qj, i ≤ j → limits[j]? = some jl → q[j]? = some qj →
        ∃ r, foldAndClampJointDouble M_PI fuel jl qj false = some r) →
      ∃ out, self.foldAndClampLoopDouble M_PI fuel leg_index n i q c = some out := by
  intro n
  induction n with
  | zero => intro i q c _ _ _; exact ⟨_, rfl⟩
  | succ n ih =>
    intro i q c h1 h2 h3
    have hi : i < q.length := by omega
    have hi2 : i < limits.length := by omega
    obtain ⟨⟨a, b⟩, hr⟩ := h3 i limits[i] q[i] (le_refl _) (List.getElem?_eq_getElem hi2)
      (List.getElem?_eq_getElem hi)
    have hr2 := foldAndClampJointDouble_of_false M_PI fuel limits[i] q[i] c a b hr
    rw [Kinematics.foldAndClampLoopDouble, hlimits]
    simp only [List.getElem?_eq_getElem hi2, List.getElem?_eq_getElem hi, hr2]
    apply ih (i + 1) (q.set i a) (c || b)
    · rw [List.length_set]; omega
    · rw [List.length_set]; exact h2
    · intro j jl qj hij e1 e2
      rw [List.getElem?_set_ne (by omega)] at e2
      exact h3 j jl qj (by omega) e1 e2

/-- One amount of fuel serves the first `N` joints, when each of them has a
representative within its limit which the updates reach without rounding. -/
theorem exists_common_fuel_exact (M_PI : ℚ) (hP : 0 < M_PI) (limits : List (JointLimits ℚ))
    (q : JntArray ℚ)
    (hall : ∀ (i : Nat) (jl : JointLimits ℚ) (a : ℚ), limits[i]? = some jl → q[i]? = some a →
      ∃ k : ℤ, jl.lower ≤ a + k * (2 * M_PI) ∧ a + k * (2 * M_PI) ≤ jl.upper ∧
        UpdatesExact M_PI a k) :
    ∀ N : Nat, ∃ F, ∀ fuel, F ≤ fuel → ∀ (i : Nat) (jl : JointLimits ℚ) (a : ℚ), i < N →
      limits[i]? = some jl → q[i]? = some a →
      ∃ r, foldAndClampJointDouble M_PI fuel jl a false = some r := by
  intro N
  induction N with
  | zero => exact ⟨0, fun _ _ i _ _ hi => absurd hi (Nat.not_lt_zero i)⟩
  | succ N ih =>
    obtain ⟨F, hF⟩ := ih
    cases hl : limits[N]? with
    | none =>
      refine ⟨F, fun fuel hf i jl a hi e1 e2 => ?_⟩
      rcases Nat.lt_succ_iff_lt_or_eq.mp hi with h | h
      · exact hF fuel hf i jl a h e1 e2
      · subst h; rw [hl] at e1; exact absurd e1 (by simp)
    | some jlN =>
      cases hq : q[N]? with
      | none =>
        refine ⟨F, fun fuel hf i jl a hi e1 e2 => ?_⟩
        rcases Nat.lt_succ_iff_lt_or_eq.mp hi with h | h
        · exact hF fuel hf i jl a h e1 e2
        · subst h; rw [hq] at e2; exact absurd e2 (by simp)
      | some aN =>
        obtain ⟨k, hk1, hk2, hex⟩ := hall N jlN aN hl hq
        obtain ⟨F', k', _, _, hrun⟩ := foldAndClampJointDouble_exact M_PI hP jlN aN k hk1 hk2 hex
        refine ⟨max F F', fun fuel hf i jl a hi e1 e2 => ?_⟩
        rcases Nat.lt_succ_iff_lt_or_eq.mp hi with h | h
        · exact hF fuel (le_trans (le_max_left _ _) hf) i jl a h e1 e2
        · subst h
          rw [hl] at e1
          rw [hq] at e2
          simp only [Option.some.injEq] at e1 e2
          subst e1 e2
          exact ⟨_, hrun fuel (le_trans (le_max_right _ _) hf) false⟩

/-- The scenario of the specification in the arithmetic of the source: the constants
`0.05`, `-0.1` and `0.4` as `double`s, the input `2*M_PI - 0.05` as computed, and the
loop body on them. -/
theorem foldAndClampJointDouble_fold_example :
    toDouble (1 / 20) = some (3602879701896397 / 2 ^ 56) ∧
    toDouble (-1 / 10) = some (-3602879701896397 / 2 ^ 55) ∧
    toDouble (2 / 5) = some (3602879701896397 / 2 ^ 53) ∧
    toDouble (2 * M_PI_double - 3602879701896397 / 2 ^ 56)
      = some (7017942756686309 / 2 ^ 50) ∧
    ∀ n : Nat, foldAndClampJointDouble M_PI_double (n + 2)
      ⟨-3602879701896397 / 2 ^ 55, 3602879701896397 / 2 ^ 53⟩ (7017942756686309 / 2 ^ 50) false
      = some (-56294995342131 / 2 ^ 50, false) := by
  have hP : (2 : ℚ) * M_PI_double = 884279719003555 / 2 ^ 47 := by norm_num [M_PI_double]
  refine ⟨?_, ?_, ?_, ?_, ?_⟩
  · apply toDouble_eq _ _ (-5) 7205759403792794 (-57)
    · norm_num
    · rw [abs_of_pos (by norm_num)]; norm_num [zpow_neg]
    · rw [abs_of_pos (by norm_num)]; norm_num [zpow_neg]
    · norm_num
    · norm_num [zpow_neg]
    · left
      rw [abs_lt]
      constructor <;> norm_num [zpow_neg]
    · rw [abs_of_pos (by norm_num)]; norm_num
  · apply toDouble_eq _ _ (-4) (-7205759403792794) (-56)
    · norm_num
    · rw [abs_of_neg (by norm_num)]; norm_num [zpow_neg]
    · rw [abs_of_neg (by norm_num)]; norm_num [zpow_neg]
    · norm_num
    · norm_num [zpow_neg]
    · left
      rw [abs_lt]
      constructor <;> norm_num [zpow_neg]
    · rw [abs_of_neg (by norm_num)]; norm_num
  · apply toDouble_eq _ _ (-2) 7205759403792794 (-54)
    · norm_num
    · rw [abs_of_pos (by norm_num)]; norm_num [zpow_neg]
    · rw [abs_of_pos (by norm_num)]; norm_num [zpow_neg]
    · norm_num
    · norm_num [zpow_neg]
    · left
      rw [abs_lt]
      constructor <;> norm_num [zpow_neg]
    · rw [abs_of_pos (by norm_num)]; norm_num
  · rw [hP]
    apply toDouble_eq _ _ 2 7017942756686309 (-50)
    · norm_num
    · rw [abs_of_pos (by norm_num)]; norm_num
    · rw [abs_of_pos (by norm_num)]; norm_num
    · norm_num
    · norm_num [zpow_neg]
    · left
      rw [abs_lt]
      constructor <;> norm_num [zpow_neg]
    · rw [abs_of_pos (by norm_num)]; norm_num
  · intro n
    have d1 : toDouble (7017942756686309 / 2 ^ 50 - 2 * M_PI_double)
        = some (-56294995342131 / 2 ^ 50) := by
      have e : (7017942756686309 / 2 ^ 50 - 2 * M_PI_double : ℚ) = -56294995342131 / 2 ^ 50 := by
        rw [hP]; norm_num
      rw [e]
      exact toDouble_of_representable _ (-56294995342131) (-50) (by norm_num [zpow_neg])
        (by norm_num) (by norm_num) (by rw [abs_of_neg (by norm_num)]; norm_num)
    rw [foldAndClampJointDouble_eq_some]
    refine ⟨-56294995342131 / 2 ^ 50, -56294995342131 / 2 ^ 50, ?_, ?_,
      Or.inr ⟨by norm_num, rfl, rfl⟩⟩
    · rw [subtractWhileAboveDouble, if_pos (by norm_num), d1]
      simp only
      rw [subtractWhileAboveDouble, if_neg (by norm_num)]
    · rw [addWhileBelowDouble, if_neg (by norm_num)]

/-- An interval at least one period long holds a representative of every angle. -/
theorem exists_representative {α : Type} [LinearOrderedField α] [FloorRing α]
    (a lo hi P : α) (hP : 0 < P) (hw : P ≤ hi - lo) :
    ∃ k : ℤ, lo ≤ a + k * P ∧ a + k * P ≤ hi := by
  refine ⟨Int.ceil ((lo - a) / P), ?_, ?_⟩
  · have h := Int.le_ceil ((lo - a) / P)
    rw [div_le_iff₀ hP] at h
    linarith
  · have h := Int.ceil_lt_add_one ((lo - a) / P)
    have h2 := mul_lt_mul_of_pos_right h hP
    rw [add_mul, div_mul_cancel₀ _ hP.ne', one_mul] at h2
    linarith

/-- The loop body on the limit `[-60, -4091973723174795 / 2^46]` and the angle `-77`: the
first two of the three rounded additions of `2*M_PI` are ties that round upward, and the
third lands one unit in the last place above the upper limit. -/
theorem foldAndClampJointDouble_overshoot_example :
    addWhileBelowDouble M_PI_double (-60) 4 (-77) = some (-8183947446349589 / 2 ^ 47) ∧
    foldAndClampJointDouble M_PI_double 4 ⟨-60, -4091973723174795 / 2 ^ 46⟩ (-77) false
      = some (-60, true) := by
  have hP : (2 : ℚ) * M_PI_double = 884279719003555 / 2 ^ 47 := by norm_num [M_PI_double]
  have d1 : toDouble (-77 + 2 * M_PI_double) = some (-2488126721089175 / 2 ^ 45) := by
    rw [hP]
    apply toDouble_eq _ _ 6 (-4976253442178350) (-46)
    · norm_num
    · rw [abs_of_neg (by norm_num)]; norm_num
    · rw [abs_of_neg (by norm_num)]; norm_num
    · norm_num
    · norm_num [zpow_neg]
    · right
      refine ⟨?_, by norm_num⟩
      norm_num [zpow_neg, abs_of_pos]
    · rw [abs_of_neg (by norm_num)]; norm_num
  have d2 : toDouble (-2488126721089175 / 2 ^ 45 + 2 * M_PI_double)
      = some (-1133528395669143 / 2 ^ 44) := by
    rw [hP]
    apply toDouble_eq _ _ 6 (-4534113582676572) (-46)
    · norm_num
    · rw [abs_of_neg (by norm_num)]; norm_num
    · rw [abs_of_neg (by norm_num)]; norm_num
    · norm_num
    · norm_num [zpow_neg]
    · right
      refine ⟨?_, by norm_num⟩
      norm_num [zpow_neg, abs_of_pos]
    · rw [abs_of_neg (by norm_num)]; norm_num
  have d3 : toDouble (-1133528395669143 / 2 ^ 44 + 2 * M_PI_double)
      = some (-8183947446349589 / 2 ^ 47) := by
    have e : (-1133528395669143 / 2 ^ 44 + 2 * M_PI_double : ℚ)
        = -8183947446349589 / 2 ^ 47 := by rw [hP]; norm_num
    rw [e]
    exact toDouble_of_representable _ (-8183947446349589) (-47) (by norm_num [zpow_neg])
      (by norm_num) (by norm_num) (by rw [abs_of_neg (by norm_num)]; norm_num)
  have e1 : subtractWhileAboveDouble M_PI_double (-4091973723174795 / 2 ^ 46) 4 (-77)
      = some (-77) := by
    rw [subtractWhileAboveDouble, if_neg (by norm_num)]
  have e2 : addWhileBelowDouble M_PI_double (-60) 4 (-77)
      = some (-8183947446349589 / 2 ^ 47) := by
    rw [addWhileBelowDouble, if_pos (by norm_num), d1]
    simp only
    rw [addWhileBelowDouble, if_pos (by norm_num), d2]
    simp only
    rw [addWhileBelowDouble, if_pos (by norm_num), d3]
    simp only
    rw [addWhileBelowDouble, if_neg (by norm_num)]
  have e3 : narrowedDistance M_PI_double
      (-8183947446349589 / 2 ^ 47 - -4091973723174795 / 2 ^ 46) = some (1 / 2 ^ 47) := by
    have e : (-8183947446349589 / 2 ^ 47 - -4091973723174795 / 2 ^ 46 : ℚ) = 1 / 2 ^ 47 := by
      norm_num
    rw [e]
    exact narrowedDistance_of_representable M_PI_double _ 1 (-47) (by norm_num [zpow_neg])
      (by norm_num) (by norm_num) (by rw [hP, abs_of_pos (by norm_num)]; norm_num)
      (by rw [abs_of_pos (by norm_num)]; norm_num)
  have e4 : narrowedDistance M_PI_double (-60 - -8183947446349589 / 2 ^ 47)
      = some (-242425 / 131072) := by
    have e : (-60 - -8183947446349589 / 2 ^ 47 : ℚ) = -260301854970091 / 2 ^ 47 := by norm_num
    rw [e]
    have t1 : toDouble (-260301854970091 / 2 ^ 47) = some (-260301854970091 / 2 ^ 47) :=
      toDouble_of_representable _ (-260301854970091) (-47) (by norm_num [zpow_neg])
        (by norm_num) (by norm_num) (by rw [abs_of_neg (by norm_num)]; norm_num)
    have t2 : fmod (-260301854970091 / 2 ^ 47 : ℚ) (2 * M_PI_double)
        = -260301854970091 / 2 ^ 47 :=
      fmod_of_nonpos_of_gt (by norm_num) (by rw [hP]; norm_num)
    have t3 : toFloat (-260301854970091 / 2 ^ 47) = some (-242425 / 131072) := by
      apply toFloat_eq _ _ 0 (-15515200) (-23)
      · norm_num
      · rw [abs_of_neg (by norm_num)]; norm_num
      · rw [abs_of_neg (by norm_num)]; norm_num
      · norm_num
      · norm_num [zpow_neg]
      · left
        rw [abs_lt]
        constructor <;> norm_num [zpow_neg]
      · rw [abs_of_neg (by norm_num)]; norm_num
    unfold narrowedDistance
    rw [t1]
    simp only [t2]
    exact t3
  refine ⟨e2, ?_⟩
  rw [foldAndClampJointDouble_eq_some]
  refine ⟨_, _, e1, e2, Or.inl ⟨by norm_num, rfl, ?_⟩⟩
  rw [e3, e4]
  have : floatGt (some (1 / 2 ^ 47 : ℚ)) (some (-242425 / 131072)) = true := by
    simp only [floatGt, decide_eq_true_eq]; norm_num
  rw [if_pos this]

/-! ## Folding and clamping in the arithmetic of the source: the claims -/

/-- The loop body on the limit `[-2^-160, -2^-161]` and the angle `0`: the angle folds
back to `0`, both distances narrow to the `float` zero, and the upper limit is taken. -/
theorem foldAndClampJointDouble_underflow_example :
    subtractWhileAboveDouble M_PI_double (-(1 / 2 ^ 161)) 2 0 = some (-(2 * M_PI_double)) ∧
    addWhileBelowDouble M_PI_double (-(1 / 2 ^ 160)) 2 (-(2 * M_PI_double)) = some 0 ∧
    narrowedDistance M_PI_double (0 - -(1 / 2 ^ 161)) = some 0 ∧
    narrowedDistance M_PI_double (-(1 / 2 ^ 160) - 0) = some 0 ∧
    foldAndClampJointDouble M_PI_double 2 ⟨-(1 / 2 ^ 160), -(1 / 2 ^ 161)⟩ 0 false
      = some (-(1 / 2 ^ 161), true) := by
  have hP : (2 : ℚ) * M_PI_double = 884279719003555 / 2 ^ 47 := by norm_num [M_PI_double]
  have e1 : subtractWhileAboveDouble M_PI_double (-(1 / 2 ^ 161)) 2 0
      = some (-(2 * M_PI_double)) := by
    have d1 : toDouble (0 - 2 * M_PI_double) = some (-(2 * M_PI_double)) := by
      rw [zero_sub]
      exact toDouble_of_representable _ (-884279719003555) (-47)
        (by rw [hP]; norm_num [zpow_neg]) (by norm_num) (by norm_num)
        (by rw [hP]; norm_num [abs_of_pos])
    rw [subtractWhileAboveDouble, if_pos (by norm_num), d1]
    simp only
    rw [subtractWhileAboveDouble, if_neg (by rw [hP]; norm_num)]
  have e2 : addWhileBelowDouble M_PI_double (-(1 / 2 ^ 160)) 2 (-(2 * M_PI_double))
      = some 0 := by
    have d2 : toDouble (-(2 * M_PI_double) + 2 * M_PI_double) = some 0 := by
      rw [neg_add_cancel]
      exact toDouble_of_representable 0 0 0 (by norm_num) (by norm_num) (by norm_num)
        (by norm_num)
    rw [addWhileBelowDouble, if_pos (by rw [hP]; norm_num), d2]
    simp only
    rw [addWhileBelowDouble, if_neg (by norm_num)]
  have e3 : narrowedDistance M_PI_double (0 - -(1 / 2 ^ 161)) = some 0 :=
    narrowedDistance_of_tiny M_PI_double _ 1 (-161) (by norm_num [zpow_neg]) (by norm_num)
      (by norm_num) (by norm_num [abs_of_pos]) (by rw [hP]; norm_num [abs_of_pos])
  have e4 : narrowedDistance M_PI_double (-(1 / 2 ^ 160) - 0) = some 0 :=
    narrowedDistance_of_tiny M_PI_double _ (-1) (-160) (by norm_num [zpow_neg]) (by norm_num)
      (by norm_num) (by norm_num [abs_of_pos]) (by rw [hP]; norm_num [abs_of_pos])
  refine ⟨e1, e2, e3, e4, ?_⟩
  rw [foldAndClampJointDouble_eq_some]
  refine ⟨_, _, e1, e2, Or.inl ⟨by norm_num, rfl, ?_⟩⟩
  rw [e3, e4]
  simp [floatGt]

/-- C10, as the claim states it, fails on the arithmetic of the source: on the limit
`[-2^-160, -2^-161]` (about `-6.84e-49` and `-3.42e-49`) the angle `0` folds back to
`0`, which is above the upper limit, and the call sets it to the upper limit, not the
lower one, because both distances narrow to the `float` zero. -/
theorem clamp_takes_upper_on_floats :
    (-(1 / 2 ^ 160) : ℚ) < -(1 / 2 ^ 161) ∧
    subtractWhileAboveDouble M_PI_double (-(1 / 2 ^ 161)) 2 0 = some (-(2 * M_PI_double)) ∧
    addWhileBelowDouble M_PI_double (-(1 / 2 ^ 160)) 2 (-(2 * M_PI_double)) = some 0 ∧
    (-(1 / 2 ^ 161) : ℚ) < 0 ∧
    (Kinematics.ofLimits [[⟨-(1 / 2 ^ 160), -(1 / 2 ^ 161)⟩]]).foldAndClampJointAnglesToLimitsDouble
      M_PI_double 2 0 [0] = some (true, [-(1 / 2 ^ 161)]) := by
  refine ⟨by norm_num, foldAndClampJointDouble_underflow_example.1,
    foldAndClampJointDouble_underflow_example.2.1, by norm_num, ?_⟩
  rw [foldAndClampDouble_singleton (Kinematics.ofLimits [[⟨-(1 / 2 ^ 160), -(1 / 2 ^ 161)⟩]])
      M_PI_double 2 0 ⟨-(1 / 2 ^ 160), -(1 / 2 ^ 161)⟩ 0 rfl,
    foldAndClampJointDouble_underflow_example.2.2.2.2]
  rfl

/-- C10, amended: in the arithmetic of the source, a joint whose folded angle is still
above `upper` raises the flag; its `upper_distance` is not negative and its
`lower_distance` is not positive; it is set to `lower` when the two narrowed distances
are numbers that are not both zero, and to `upper` when both are zero or one of them is
not a number. -/
theorem foldAndClampDouble_clamps_to_lower_unless_zero (self : Kinematics Tree ℚ) (M_PI : ℚ)
    (fuel leg_index : Nat) (limits : List (JointLimits ℚ)) (q : JntArray ℚ) (c : Bool)
    (qOut : JntArray ℚ) (i : Nat) (jl : JointLimits ℚ) (a q1 q2 : ℚ) (hP : 0 < M_PI)
    (hleg : self.joint_limits_[leg_index]? = some limits)
    (h : self.foldAndClampJointAnglesToLimitsDouble M_PI fuel leg_index q = some (c, qOut))
    (hjl : limits[i]? = some jl) (ha : q[i]? = some a)
    (h1 : subtractWhileAboveDouble M_PI jl.upper fuel a = some q1)
    (h2 : addWhileBelowDouble M_PI jl.lower fuel q1 = some q2) (hq : jl.upper < q2) :
    c = true ∧
    (∀ u, narrowedDistance M_PI (q2 - jl.upper) = some u → 0 ≤ u) ∧
    (∀ l, narrowedDistance M_PI (jl.lower - q2) = some l → l ≤ 0) ∧
    (∀ u l, narrowedDistance M_PI (q2 - jl.upper) = some u →
      narrowedDistance M_PI (jl.lower - q2) = some l → (u ≠ 0 ∨ l ≠ 0) →
      qOut[i]? = some jl.lower) ∧
    (narrowedDistance M_PI (q2 - jl.upper) = some 0 →
      narrowedDistance M_PI (jl.lower - q2) = some 0 → qOut[i]? = some jl.upper) ∧
    ((narrowedDistance M_PI (q2 - jl.upper) = none ∨
      narrowedDistance M_PI (jl.lower - q2) = none) → qOut[i]? = some jl.upper) := by
  have hlo : jl.lower ≤ q2 := (addWhileBelowDouble_ge _ _ _ _ _ h2).1
  have hu : ∀ u, narrowedDistance M_PI (q2 - jl.upper) = some u → 0 ≤ u :=
    fun u hu => (narrowedDistance_sign M_PI _ u hP hu).1 (by linarith)
  have hl : ∀ l, narrowedDistance M_PI (jl.lower - q2) = some l → l ≤ 0 :=
    fun l hl => (narrowedDistance_sign M_PI _ l hP hl).2 (by linarith)
  obtain ⟨_, hs, _⟩ := foldAndClampDouble_spec self M_PI fuel leg_index limits q c qOut hleg h
  obtain ⟨jl', a', b, e1, e2, e3, e4⟩ := hs i a ha
  rw [hjl] at e1
  have e1' : jl = jl' := by simpa using e1
  subst e1'
  rw [foldAndClampJointDouble_eq_some] at e2
  obtain ⟨q1', q2', g1, g2, g3⟩ := e2
  rw [h1] at g1
  simp only [Option.some.injEq] at g1
  subst g1
  rw [h2] at g2
  simp only [Option.some.injEq] at g2
  subst g2
  rcases g3 with ⟨_, hb, ha'⟩ | ⟨hn, _, _⟩
  · subst hb
    refine ⟨e4 rfl, hu, hl, ?_, ?_, ?_⟩
    · intro u l eu el hne
      have hgt : floatGt (narrowedDistance M_PI (q2 - jl.upper))
          (narrowedDistance M_PI (jl.lower - q2)) = true := by
        rw [eu, el]
        simp only [floatGt, decide_eq_true_eq]
        have h0u := hu u eu
        have h0l := hl l el
        rcases hne with hne | hne
        · exact lt_of_le_of_lt h0l (lt_of_le_of_ne h0u (Ne.symm hne))
        · exact lt_of_lt_of_le (lt_of_le_of_ne h0l hne) h0u
      rw [e3, ha', if_pos hgt]
    · intro eu el
      rw [e3, ha', eu, el]
      simp [floatGt]
    · intro hnone
      rw [e3, ha']
      rcases hnone with hn | hn
      · rw [hn]; simp [floatGt]
      · rw [hn]
        cases narrowedDistance M_PI (q2 - jl.upper) <;> simp [floatGt]
  · exact absurd hq hn

/-- C3, as the claim states it, fails on the arithmetic of the source. On the limit
`[-60, -4091973723174795 / 2^46]` (the upper limit is the `double`
`-58.150444078461234`) the angle `-77` has the representative `-77 + 3 * 2π` within the
limit, for `2π` the real number and for `2π` the `double` `2*M_PI`; the three rounded
additions of the call end at `-58.15044407846123`, one unit in the last place above the
upper limit, and the call clamps the angle to `-60` and returns `true`. On the limit
`[-4, 4]` the angle `10^17` has a representative within the limit, and the call never
returns: subtracting `2*M_PI` leaves `10^17` as it is. -/
theorem fold_misses_representative_on_doubles :
    ((-60 : ℝ) ≤ -77 + 3 * (2 * Real.pi) ∧
      (-77 : ℝ) + 3 * (2 * Real.pi) ≤ -4091973723174795 / 2 ^ 46) ∧
    ((-60 : ℚ) ≤ -77 + 3 * (2 * M_PI_double) ∧
      (-77 : ℚ) + 3 * (2 * M_PI_double) ≤ -4091973723174795 / 2 ^ 46) ∧
    (Kinematics.ofLimits [[⟨-60, -4091973723174795 / 2 ^ 46⟩]]).foldAndClampJointAnglesToLimitsDouble
      M_PI_double 4 0 [-77] = some (true, [-60]) ∧
    (∃ k : ℤ, (-4 : ℝ) ≤ 10 ^ 17 + k * (2 * Real.pi) ∧ (10 : ℝ) ^ 17 + k * (2 * Real.pi) ≤ 4) ∧
    (∃ k : ℤ, (-4 : ℚ) ≤ 10 ^ 17 + k * (2 * M_PI_double) ∧
      (10 : ℚ) ^ 17 + k * (2 * M_PI_double) ≤ 4) ∧
    ∀ fuel : Nat, (Kinematics.ofLimits [[⟨-4, 4⟩]]).foldAndClampJointAnglesToLimitsDouble
      M_PI_double fuel 0 [10 ^ 17] = none := by
  have hpi1 := Real.pi_gt_d20
  have hpi2 := Real.pi_lt_d20
  have hP : (2 : ℚ) * M_PI_double = 884279719003555 / 2 ^ 47 := by norm_num [M_PI_double]
  refine ⟨⟨?_, ?_⟩, ⟨?_, ?_⟩, ?_, ?_, ?_, ?_⟩
  · norm_num at hpi1 ⊢; linarith
  · norm_num at hpi2 ⊢; linarith
  · rw [hP]; norm_num
  · rw [hP]; norm_num
  · rw [foldAndClampDouble_singleton
      (Kinematics.ofLimits [[⟨-60, -4091973723174795 / 2 ^ 46⟩]]) M_PI_double 4 0
      ⟨-60, -4091973723174795 / 2 ^ 46⟩ (-77) rfl,
      foldAndClampJointDouble_overshoot_example.2]
    rfl
  · exact exists_representative _ _ _ _ (by positivity) (by norm_num at hpi2 ⊢; linarith)
  · exact exists_representative _ _ _ _ (by rw [hP]; norm_num) (by rw [hP]; norm_num)
  · intro fuel
    rw [foldAndClampDouble_singleton (Kinematics.ofLimits [[⟨-4, 4⟩]]) M_PI_double fuel 0
      ⟨-4, 4⟩ (10 ^ 17) rfl]
    unfold foldAndClampJointDouble
    rw [subtractWhileAboveDouble_stuck 4 (by norm_num) fuel]
    rfl

/-- C3, amended: in the arithmetic of the source, a joint whose input angle `a` has a
representative `a + 2π k` within its limit (`2π` the `double` `2*M_PI`) that the updates
reach without rounding is left with a representative of `a` within the limit and does
not raise the flag: the flag is raised only by a joint without such a representative,
and when every joint has one the call returns, with enough fuel, and returns `false`.
In the scenario of the specification, with the constants and the input as `double`s, the
limit `[-0.1, 0.4]` and the input `2*M_PI - 0.05`, the call returns `false` and the
angle `-56294995342131 / 2^50`, which is `-0.05` to within `10^-15`. -/
theorem foldAndClampDouble_folds_exact_representative :
    (∀ {Tree : Type} (self : Kinematics Tree ℚ) (M_PI : ℚ) (leg_index : Nat)
      (limits : List (JointLimits ℚ)) (q : JntArray ℚ),
      0 < M_PI → self.joint_limits_[leg_index]? = some limits →
      (∀ (fuel : Nat) (c : Bool) (qOut : JntArray ℚ),
        self.foldAndClampJointAnglesToLimitsDouble M_PI fuel leg_index q = some (c, qOut) →
        (∀ (i : Nat) (jl : JointLimits ℚ) (a : ℚ), limits[i]? = some jl → q[i]? = some a →
          (∃ k : ℤ, jl.lower ≤ a + k * (2 * M_PI) ∧ a + k * (2 * M_PI) ≤ jl.upper ∧
            UpdatesExact M_PI a k) →
          ∃ (a' : ℚ) (k' : ℤ), qOut[i]? = some a' ∧ a' = a + k' * (2 * M_PI) ∧
            jl.lower ≤ a' ∧ a' ≤ jl.upper) ∧
        (c = true → ∃ (i : Nat) (jl : JointLimits ℚ) (a : ℚ), limits[i]? = some jl ∧
          q[i]? = some a ∧
          ¬ ∃ k : ℤ, jl.lower ≤ a + k * (2 * M_PI) ∧ a + k * (2 * M_PI) ≤ jl.upper ∧
            UpdatesExact M_PI a k)) ∧
      (q.length ≤ limits.length →
        (∀ (i : Nat) (jl : JointLimits ℚ) (a : ℚ), limits[i]? = some jl → q[i]? = some a →
          ∃ k : ℤ, jl.lower ≤ a + k * (2 * M_PI) ∧ a + k * (2 * M_PI) ≤ jl.upper ∧
            UpdatesExact M_PI a k) →
        ∃ F, ∀ fuel, F ≤ fuel → ∃ qOut,
          self.foldAndClampJointAnglesToLimitsDouble M_PI fuel leg_index q
            = some (false, qOut))) ∧
    (toDouble (1 / 20) = some (3602879701896397 / 2 ^ 56) ∧
      toDouble (-1 / 10) = some (-3602879701896397 / 2 ^ 55) ∧
      toDouble (2 / 5) = some (3602879701896397 / 2 ^ 53) ∧
      toDouble (2 * M_PI_double - 3602879701896397 / 2 ^ 56)
        = some (7017942756686309 / 2 ^ 50) ∧
      |(-56294995342131 / 2 ^ 50 : ℚ) - -1 / 20| < 1 / 10 ^ 15 ∧
      ∀ {Tree : Type} (self : Kinematics Tree ℚ) (leg_index : Nat),
        self.joint_limits_[leg_index]?
          = some [⟨-3602879701896397 / 2 ^ 55, 3602879701896397 / 2 ^ 53⟩] →
        ∀ n : Nat, self.foldAndClampJointAnglesToLimitsDouble M_PI_double (n + 2) leg_index
          [7017942756686309 / 2 ^ 50] = some (false, [-56294995342131 / 2 ^ 50])) := by
  refine ⟨?_, ?_⟩
  · intro Tree self M_PI leg_index limits q hP hleg
    have hjoint : ∀ (fuel : Nat) (jl : JointLimits ℚ) (a a' : ℚ) (b : Bool),
        foldAndClampJointDouble M_PI fuel jl a false = some (a', b) →
        (∃ k : ℤ, jl.lower ≤ a + k * (2 * M_PI) ∧ a + k * (2 * M_PI) ≤ jl.upper ∧
          UpdatesExact M_PI a k) →
        b = false ∧ ∃ k' : ℤ, a' = a + k' * (2 * M_PI) ∧ jl.lower ≤ a' ∧ a' ≤ jl.upper := by
      intro fuel jl a a' b hrun ⟨k, hk1, hk2, hex⟩
      obtain ⟨F, k', g1, g2, hF⟩ := foldAndClampJointDouble_exact M_PI hP jl a k hk1 hk2 hex
      have e1 := foldAndClampJointDouble_mono M_PI fuel jl a false _ hrun (max fuel F)
        (le_max_left _ _)
      rw [hF (max fuel F) (le_max_right _ _) false] at e1
      simp only [Option.some.injEq, Prod.mk.injEq] at e1
      obtain ⟨ea, eb⟩ := e1
      exact ⟨eb.symm, k', ea.symm, by rw [← ea]; exact g1, by rw [← ea]; exact g2⟩
    refine ⟨?_, ?_⟩
    · intro fuel c qOut h
      obtain ⟨_, h2, h3⟩ := foldAndClampDouble_spec self M_PI fuel leg_index limits q c qOut hleg h
      refine ⟨?_, ?_⟩
      · intro i jl a hjl ha hk
        obtain ⟨jl', a', b, e1, e2, e3, _⟩ := h2 i a ha
        rw [hjl] at e1
        have e1' : jl = jl' := by simpa using e1
        subst e1'
        obtain ⟨_, k', g1, g2, g3⟩ := hjoint fuel jl a a' b e2 hk
        exact ⟨a', k', e3, g1, g2, g3⟩
      · intro hc
        obtain ⟨i, jl, qi, a, e1, e2, e3⟩ := h3 hc
        refine ⟨i, jl, qi, e1, e2, ?_⟩
        intro hk
        exact absurd (hjoint fuel jl qi a true e3 hk).1 (by simp)
    · intro hlen hall
      obtain ⟨F, hF⟩ := exists_common_fuel_exact M_PI hP limits q hall q.length
      refine ⟨F, fun fuel hf => ?_⟩
      obtain ⟨⟨c, qOut⟩, hout⟩ := foldAndClampLoopDouble_returns self M_PI fuel leg_index limits
        hleg q.length 0 q false (by omega) hlen
        (fun j jl qj _ e1 e2 => by
          have hj : j < q.length := by
            rcases Nat.lt_or_ge j q.length with h | h
            · exact h
            · rw [List.getElem?_eq_none h] at e2; exact absurd e2 (by simp)
          exact hF fuel hf j jl qj hj e1 e2)
      have hout' : self.foldAndClampJointAnglesToLimitsDouble M_PI fuel leg_index q
          = some (c, qOut) := hout
      obtain ⟨_, _, h3⟩ :=
        foldAndClampDouble_spec self M_PI fuel leg_index limits q c qOut hleg hout'
      cases hc : c with
      | false => rw [hc] at hout'; exact ⟨qOut, hout'⟩
      | true =>
        obtain ⟨i, jl, qi, a, e1, e2, e3⟩ := h3 hc
        exact absurd (hjoint fuel jl qi a true e3 (hall i jl qi e1 e2)).1 (by simp)
  · obtain ⟨c1, c2, c3, c4, c5⟩ := foldAndClampJointDouble_fold_example
    refine ⟨c1, c2, c3, c4, ?_, ?_⟩
    · rw [abs_lt]; constructor <;> norm_num
    · intro Tree self leg_index hleg n
      rw [foldAndClampDouble_singleton self M_PI_double (n + 2) leg_index _ _ hleg, c5 n]
      rfl

/-- Adding `2*M_PI` to `-6` is not rounded. -/
theorem updatesExact_example : UpdatesExact M_PI_double (-6) 1 := by
  have hP : (2 : ℚ) * M_PI_double = 884279719003555 / 2 ^ 47 := by norm_num [M_PI_double]
  intro j h1 h2
  have hj : j = 0 ∨ j = 1 := by
    simp only [zero_le_one, min_eq_left, max_eq_right] at h1 h2
    omega
  rcases hj with rfl | rfl
  · exact toDouble_of_representable _ (-6) 0 (by norm_num) (by norm_num) (by norm_num)
      (by rw [hP]; norm_num [abs_of_neg])
  · exact toDouble_of_representable _ 39854788871587 (-47) (by rw [hP]; norm_num [zpow_neg])
      (by norm_num) (by norm_num) (by rw [hP]; norm_num [abs_of_pos])

/-- C3, amended, on the limit `[0, 1]` and the angle `-6`, whose representative
`-6 + 2*M_PI` is reached without rounding. -/
theorem foldAndClampDouble_folds_exact_representative_witness :
    (0 : ℚ) < M_PI_double ∧
    ((0 : ℚ) ≤ -6 + ((1 : ℤ) : ℚ) * (2 * M_PI_double) ∧
      (-6 : ℚ) + ((1 : ℤ) : ℚ) * (2 * M_PI_double) ≤ 1 ∧ UpdatesExact M_PI_double (-6) 1) ∧
    ∃ F, ∀ fuel, F ≤ fuel → ∃ qOut,
      (Kinematics.ofLimits [[⟨0, 1⟩]]).foldAndClampJointAnglesToLimitsDouble M_PI_double fuel 0
        [-6] = some (false, qOut) :=
  have hP : (2 : ℚ) * M_PI_double = 884279719003555 / 2 ^ 47 := by norm_num [M_PI_double]
  have hk : (0 : ℚ) ≤ -6 + ((1 : ℤ) : ℚ) * (2 * M_PI_double) ∧
      (-6 : ℚ) + ((1 : ℤ) : ℚ) * (2 * M_PI_double) ≤ 1 ∧ UpdatesExact M_PI_double (-6) 1 :=
    ⟨by rw [hP]; norm_num, by rw [hP]; norm_num, updatesExact_example⟩
  ⟨by norm_num [M_PI_double], hk,
    (foldAndClampDouble_folds_exact_representative.1 (Kinematics.ofLimits [[⟨0, 1⟩]])
      M_PI_double 0 [⟨0, 1⟩] [-6] (by norm_num [M_PI_double]) rfl).2 (by simp)
      (fun i jl a e1 e2 => by
        have hi : i = 0 := by
          rcases i with _ | i
          · rfl
          · simp at e2
        subst hi
        simp only [List.getElem?_cons_zero, Option.some.injEq] at e1 e2
        subst e1 e2
        exact ⟨1, hk⟩)⟩

/-- The loop body on the limit `[0, 1]` and the angle `3/2` in the arithmetic of the
source: no update is rounded, the distances are `1/2` and `-3/2`, and the lower limit is
taken. -/
theorem foldAndClampJointDouble_clamp_example :
    subtractWhileAboveDouble M_PI_double 1 2 (3 / 2) = some (3 / 2 - 2 * M_PI_double) ∧
    addWhileBelowDouble M_PI_double 0 2 (3 / 2 - 2 * M_PI_double) = some (3 / 2) ∧
    narrowedDistance M_PI_double (3 / 2 - 1) = some (1 / 2) ∧
    narrowedDistance M_PI_double (0 - 3 / 2) = some (-3 / 2) ∧
    (Kinematics.ofLimits [[⟨0, 1⟩]]).foldAndClampJointAnglesToLimitsDouble M_PI_double 2 0
      [3 / 2] = some (true, [0]) := by
  have hP : (2 : ℚ) * M_PI_double = 884279719003555 / 2 ^ 47 := by norm_num [M_PI_double]
  have d1 : toDouble (3 / 2 - 2 * M_PI_double) = some (3 / 2 - 2 * M_PI_double) :=
    toDouble_of_representable _ (-673173486470563) (-47) (by rw [hP]; norm_num [zpow_neg])
      (by norm_num) (by norm_num) (by rw [hP]; norm_num [abs_of_neg])
  have d2 : toDouble (3 / 2 - 2 * M_PI_double + 2 * M_PI_double) = some (3 / 2) := by
    rw [sub_add_cancel]
    exact toDouble_of_representable _ 3 (-1) (by norm_num [zpow_neg]) (by norm_num)
      (by norm_num) (by norm_num [abs_of_pos])
  have e1 : subtractWhileAboveDouble M_PI_double 1 2 (3 / 2)
      = some (3 / 2 - 2 * M_PI_double) := by
    rw [subtractWhileAboveDouble, if_pos (by norm_num), d1]
    simp only
    rw [subtractWhileAboveDouble, if_neg (by rw [hP]; norm_num)]
  have e2 : addWhileBelowDouble M_PI_double 0 2 (3 / 2 - 2 * M_PI_double) = some (3 / 2) := by
    rw [addWhileBelowDouble, if_pos (by rw [hP]; norm_num), d2]
    simp only
    rw [addWhileBelowDouble, if_neg (by norm_num)]
  have e3 : narrowedDistance M_PI_double (3 / 2 - 1) = some (1 / 2) := by
    have e : (3 / 2 - 1 : ℚ) = 1 / 2 := by norm_num
    rw [e]
    exact narrowedDistance_of_representable M_PI_double _ 1 (-1) (by norm_num [zpow_neg])
      (by norm_num) (by norm_num) (by rw [hP]; norm_num [abs_of_pos])
      (by norm_num [abs_of_pos])
  have e4 : narrowedDistance M_PI_double (0 - 3 / 2) = some (-3 / 2) := by
    have e : (0 - 3 / 2 : ℚ) = -3 / 2 := by norm_num
    rw [e]
    exact narrowedDistance_of_representable M_PI_double _ (-3) (-1) (by norm_num [zpow_neg])
      (by norm_num) (by norm_num) (by rw [hP]; norm_num [abs_of_neg])
      (by norm_num [abs_of_neg])
  refine ⟨e1, e2, e3, e4, ?_⟩
  rw [foldAndClampDouble_singleton (Kinematics.ofLimits [[⟨0, 1⟩]]) M_PI_double 2 0 ⟨0, 1⟩
    (3 / 2) rfl]
  have hj : foldAndClampJointDouble M_PI_double 2 ⟨0, 1⟩ (3 / 2) false = some (0, true) := by
    rw [foldAndClampJointDouble_eq_some]
    refine ⟨_, _, e1, e2, Or.inl ⟨by norm_num, rfl, ?_⟩⟩
    rw [e3, e4]
    have : floatGt (some (1 / 2 : ℚ)) (some (-3 / 2)) = true := by
      simp only [floatGt, decide_eq_true_eq]; norm_num
    rw [if_pos this]
  rw [hj]
  rfl

/-- C10, amended, on the limit `[0, 1]` and the angle `3/2`, which folds back to `3/2`:
the distances are `1/2` and `-3/2` and the angle is set to the lower limit. -/
theorem foldAndClampDouble_clamps_to_lower_unless_zero_witness :
    true = true ∧
    (∀ u, narrowedDistance M_PI_double ((3 / 2 : ℚ) - 1) = some u → 0 ≤ u) ∧
    (∀ l, narrowedDistance M_PI_double ((0 : ℚ) - 3 / 2) = some l → l ≤ 0) ∧
    (∀ u l, narrowedDistance M_PI_double ((3 / 2 : ℚ) - 1) = some u →
      narrowedDistance M_PI_double ((0 : ℚ) - 3 / 2) = some l → (u ≠ 0 ∨ l ≠ 0) →
      [(0 : ℚ)][0]? = some 0) ∧
    (narrowedDistance M_PI_double ((3 / 2 : ℚ) - 1) = some 0 →
      narrowedDistance M_PI_double ((0 : ℚ) - 3 / 2) = some 0 → [(0 : ℚ)][0]? = some 1) ∧
    ((narrowedDistance M_PI_double ((3 / 2 : ℚ) - 1) = none ∨
      narrowedDistance M_PI_double ((0 : ℚ) - 3 / 2) = none) → [(0 : ℚ)][0]? = some 1) :=
  foldAndClampDouble_clamps_to_lower_unless_zero (Kinematics.ofLimits [[⟨0, 1⟩]]) M_PI_double
    2 0 [⟨0, 1⟩] [3 / 2] true [0] 0 ⟨0, 1⟩ (3 / 2) (3 / 2 - 2 * M_PI_double) (3 / 2)
    (by norm_num [M_PI_double]) rfl foldAndClampJointDouble_clamp_example.2.2.2.2 rfl rfl
    foldAndClampJointDouble_clamp_example.1 foldAndClampJointDouble_clamp_example.2.1
    (by norm_num)

end antsy_kinematics
